import Mathlib

/-!
Fixed-point FFT routine (`fft_cpp.c`): embedding and verified properties

The routine `FFT(Rdat, Idat, N, LogN, Ft_Flag)` of `fft_cpp.c` is embedded as a
pure function on explicit state.

* The element type `qint16` is not declared in the source (its `typedef` is
  commented out).  It is used there as a C integer type: values of that type
  are shifted, masked and used as array subscripts.  Values are therefore
  modelled as `Int`, and the missing declaration is a parameter `cv`: the
  conversion applied when the `int` value of an expression is stored into a
  `qint16` object.  `cv = id` is exact integer arithmetic (no overflow);
  `cv = wrap16` is a 16-bit two's-complement `qint16`.  Both are the identity
  on the range of a signed 16-bit integer, which holds every constant of the
  source and every value taken by the loop counters, so counters and
  constants are kept exact.
* The two sample buffers are `List Int`; a null pointer is `none`.  The two
  buffers are distinct objects (no aliasing).
* Every array access is checked: a read or write outside the buffer, or
  outside the constant tables, makes the whole call `none`.  The subscripts
  formed by a subtraction (`LogN - n`, `i - 1`, `j - 1`) are signed values,
  and a negative one is outside the array.
* Loops whose trip count is fixed on entry (`for` over `n`, `j`, and the
  counting loops over `i`) recurse on the number of remaining iterations.
  The two loops whose exit depends on the data flow of the counters
  (`for (i = j; i < N; i += ie)` and `while (k < j)`) carry fuel and give
  `none` when the fuel is used up; the fuel given is enough whenever the C
  loop exits at all.
-/

namespace FFTModel

/-- Conversion of an `int` value to a 16-bit two's-complement `qint16`. -/
def wrap16 (x : Int) : Int := (x + 32768) % 65536 - 32768

/-- Macro `NUMBER_IS_2_POW_K(x)`: `((!((x)&((x)-1)))&&((x)>1))`. -/
def NUMBER_IS_2_POW_K (x : Int) : Bool :=
  (Int.land x (x - 1) == 0) && decide (x > 1)

/-- Macro `FT_DIRECT`. -/
def FT_DIRECT : Int := -1

/-- Macro `FT_INVERSE`. -/
def FT_INVERSE : Int := 1

/-- Table `Rcoef[14]`. -/
def Rcoef : List Int :=
  [-4096, 0, 2896, 3784, 4017, 4076, 4091, 4095, 4096, 4096, 4096, 4096, 4096, 4096]

/-- Table `Icoef[14]`. -/
def Icoef : List Int :=
  [0, -4096, -2896, -1567, -799, -401, -201, -101, -50, -25, -13, -6, -3, -2]

/-- The pair of sample buffers `(Rdat, Idat)`. -/
abbrev Bufs := List Int × List Int

/-- What a call leaves behind: the value returned and the two buffers. -/
structure Outcome where
  ret : Bool
  Rdat : Option (List Int)
  Idat : Option (List Int)
deriving DecidableEq

/-- Body of the innermost loop of the stage loop, with `io = i + in`:
one butterfly on positions `i` and `io`. -/
def butterfly (cv : Int → Int) (ru iu : Int) (i io : Nat) (s : Bufs) : Option Bufs :=
  match s.1[i]?, s.1[io]?, s.2[i]?, s.2[io]? with
  | some ri, some rio, some ii, some iio =>
    let rtp := cv (ri + rio)
    let itp := cv (ii + iio)
    let rtq := cv (ri - rio)
    let itq := cv (ii - iio)
    let R1 := s.1.set io (cv (rtq * ru - itq * iu))
    let I1 := s.2.set io (cv (itq * ru + rtq * iu))
    some (R1.set i rtp, I1.set i itp)
  | _, _, _, _ => none

/-- Loop `for(i=j; i<N; i+=ie)`, entered at the current `i`. -/
def innerLoop (cv : Int → Int) (N ie in_ : Nat) (ru iu : Int) :
    Nat → Nat → Bufs → Option Bufs
  | 0, i, s => if i < N then none else some s
  | fuel + 1, i, s =>
    if i < N then
      match butterfly cv ru iu i (i + in_) s with
      | none => none
      | some s1 => innerLoop cv N ie in_ ru iu fuel (i + ie) s1
    else some s

/-- Loop `for(j=0; j<in; j++)`, with `cnt` iterations left, entered at the
current `j`, `ru`, `iu`. -/
def jLoop (cv : Int → Int) (N ie in_ : Nat) (rw iw : Int) :
    Nat → Nat → Int → Int → Bufs → Option Bufs
  | 0, _, _, _, s => some s
  | cnt + 1, j, ru, iu, s =>
    match innerLoop cv N ie in_ ru iu N j s with
    | none => none
    | some s1 =>
      let sr := ru
      let ru1 := cv (ru * rw - iu * iw)
      let iu1 := cv (iu * rw + sr * iw)
      jLoop cv N ie in_ rw iw cnt (j + 1) ru1 iu1 s1

/-- Read `T[i]` of a coefficient table with the signed subscript `i`: `none`
when `i` is negative or not below the length of the table. -/
def tableAt (T : List Int) (i : Int) : Option Int :=
  if i < 0 then none else T[i.toNat]?

/-- Loop `for(n=1; n<=LogN; n++)`, with `cnt` iterations left, entered at the
current `n` and `ie`; the subscript `LogN - n` of the tables is signed. -/
def stageLoop (cv : Int → Int) (N LogN : Nat) (Ft_Flag : Int) :
    Nat → Nat → Nat → Bufs → Option Bufs
  | 0, _, _, s => some s
  | cnt + 1, n, ie, s =>
    match tableAt Rcoef ((LogN : Int) - (n : Int)), tableAt Icoef ((LogN : Int) - (n : Int)) with
    | some rw, some iw0 =>
      let iw := if Ft_Flag = FT_INVERSE then cv (-iw0) else iw0
      let in_ := ie >>> 1
      match jLoop cv N ie in_ rw iw in_ 0 1 0 s with
      | none => none
      | some s1 => stageLoop cv N LogN Ft_Flag cnt (n + 1) (ie >>> 1) s1
    | _, _ => none

/-- The whole stage loop, from `ie = N` and `n = 1`. -/
def stages (cv : Int → Int) (N LogN : Nat) (Ft_Flag : Int) (s : Bufs) : Option Bufs :=
  stageLoop cv N LogN Ft_Flag LogN 1 N s

/-- The exchange in the body of `if(i < j)` in the reordering loop, at
subscripts `io` and `in` that are not negative: exchange of positions `io`
and `in` in both buffers. -/
def swapStep (io in_ : Nat) (s : Bufs) : Option Bufs :=
  match s.1[in_]?, s.2[in_]?, s.1[io]?, s.2[io]? with
  | some rtp, some itp, some rio, some iio =>
    let R1 := s.1.set in_ rio
    let I1 := s.2.set in_ iio
    some (R1.set io rtp, I1.set io itp)
  | _, _, _, _ => none

/-- Body of `if(i < j)` in the reordering loop at the signed subscripts
`io = i - 1` and `in = j - 1`: no outcome when one of them is negative,
otherwise the exchange `swapStep`. -/
def swapAt (io in_ : Int) (s : Bufs) : Option Bufs :=
  if io < 0 ∨ in_ < 0 then none else swapStep io.toNat in_.toNat s

/-- Loop `while(k < j) { j = j - k; k >>= 1; }`; gives the final `(j, k)`. -/
def carryLoop : Nat → Nat → Nat → Option (Nat × Nat)
  | 0, j, k => if k < j then none else some (j, k)
  | fuel + 1, j, k => if k < j then carryLoop fuel (j - k) (k >>> 1) else some (j, k)

/-- Loop `for(j=i=1; i<N; i++)`, with `cnt` iterations left, entered at the
current `i` and `j`. -/
def permLoop (nn : Nat) : Nat → Nat → Nat → Bufs → Option Bufs
  | 0, _, _, s => some s
  | cnt + 1, i, j, s =>
    match (if i < j then swapAt ((i : Int) - 1) ((j : Int) - 1) s else some s) with
    | none => none
    | some s1 =>
      match carryLoop (nn + 1) j nn with
      | none => none
      | some (j1, k) => permLoop nn cnt (i + 1) (j1 + k) s1

/-- The whole reordering loop, with `nn = N >> 1`. -/
def permute (N : Nat) (s : Bufs) : Option Bufs :=
  permLoop (N >>> 1) (N - 1) 1 1 s

/-- Loop `for(i=0; i<N; i++) { Rdat[i] /= N; Idat[i] /= N; }`, with `cnt`
iterations left, entered at the current `i`. -/
def normLoop (cv : Int → Int) (N : Nat) : Nat → Nat → Bufs → Option Bufs
  | 0, _, s => some s
  | cnt + 1, i, s =>
    match s.1[i]?, s.2[i]? with
    | some r, some m =>
      normLoop cv N cnt (i + 1) (s.1.set i (cv (Int.tdiv r N)), s.2.set i (cv (Int.tdiv m N)))
    | _, _ => none

/-- The whole normalization loop. -/
def normalize (cv : Int → Int) (N : Nat) (s : Bufs) : Option Bufs :=
  normLoop cv N N 0 s

/-- Function `FFT`.  `none`: the call has no defined outcome. -/
def FFT (cv : Int → Int) (Rdat Idat : Option (List Int)) (N LogN Ft_Flag : Int) :
    Option Outcome :=
  match Rdat, Idat with
  | some R, some I =>
    if N > 16384 ∨ N < 1 then some ⟨false, Rdat, Idat⟩
    else if !(NUMBER_IS_2_POW_K N) then some ⟨false, Rdat, Idat⟩
    else if LogN < 2 ∨ LogN > 14 then some ⟨false, Rdat, Idat⟩
    else if Ft_Flag ≠ FT_DIRECT ∧ Ft_Flag ≠ FT_INVERSE then some ⟨false, Rdat, Idat⟩
    else
      match stages cv N.toNat LogN.toNat Ft_Flag (R, I) with
      | none => none
      | some s1 =>
        match permute N.toNat s1 with
        | none => none
        | some s2 =>
          if Ft_Flag = FT_INVERSE then some ⟨true, some s2.1, some s2.2⟩
          else
            match normalize cv N.toNat s2 with
            | none => none
            | some s3 => some ⟨true, some s3.1, some s3.2⟩
  | _, _ => some ⟨false, Rdat, Idat⟩

/-! ## Definitions used to state the properties -/

/-- The complex sample held at position `p` (zero outside the buffers). -/
def smp (s : Bufs) (p : Nat) : Int × Int := (s.1.getD p 0, s.2.getD p 0)

/-- Sum branch of a butterfly. -/
def bfTop (cv : Int → Int) (a b : Int × Int) : Int × Int :=
  (cv (a.1 + b.1), cv (a.2 + b.2))

/-- Difference branch of a butterfly, rotated by `(ru, iu)`. -/
def bfBot (cv : Int → Int) (ru iu : Int) (a b : Int × Int) : Int × Int :=
  (cv (cv (a.1 - b.1) * ru - cv (a.2 - b.2) * iu),
   cv (cv (a.2 - b.2) * ru + cv (a.1 - b.1) * iu))

/-- Update of the running rotation `(ru, iu)` at the end of one `j` iteration. -/
def twNext (cv : Int → Int) (rw iw : Int) (t : Int × Int) : Int × Int :=
  (cv (t.1 * rw - t.2 * iw), cv (t.2 * rw + t.1 * iw))

/-- Base twiddle `iw` of a stage: the table entry, negated for the inverse
direction. -/
def iwOf (cv : Int → Int) (Ft_Flag : Int) (iw0 : Int) : Int :=
  if Ft_Flag = FT_INVERSE then cv (-iw0) else iw0

/-- Reversal of the `m`-bit binary representation of `p`: bit `b` of the
result is bit `m - 1 - b` of `p`. -/
def bitrev : Nat → Nat → Nat
  | 0, _ => 0
  | m + 1, p => 2 ^ m * (p % 2) + bitrev m (p / 2)

/-- State of the reordering loop after the positions below `t` have been
visited: a position is already exchanged with its bit-reversed partner when
the smaller of the two is below `t`. -/
def permInv (M : Nat) (s0 : Bufs) (t : Nat) (s : Bufs) : Prop :=
  ∀ p, smp s p
    = if p < 2 ^ M ∧ (p < t ∨ bitrev M p < t) then smp s0 (bitrev M p) else smp s0 p

/-- Effect of `x /= N` on one element. -/
def divN (cv : Int → Int) (N : Nat) (x : Int) : Int := cv (Int.tdiv x N)

/-- A buffer of `N` elements all equal to `c`. -/
def constBuf (N : Nat) (c : Int) : List Int := List.replicate N c

/-- A buffer of `N` elements (`N ≥ 1`): `K` at position 0, zero elsewhere. -/
def impulseBuf (N : Nat) (K : Int) : List Int := K :: List.replicate (N - 1) 0

/-- Reference value named by the specification for bin `k` of the forward
transform of the sequence `re + i * im` of length `N`:
`X[k] = (1/N) * sum over n in [0,N) of x[n] * e^(-2*pi*i*n*k/N)`.
`specForwardDFT N re im k X` says that `X` is that value. -/
def specForwardDFT (N : Nat) (re im : List Int) (k : Nat) (X : ℂ) : Prop :=
  X = (1 / (N : ℂ)) * ∑ n in Finset.range N,
        (((re.getD n 0 : Int) : ℂ) + ((im.getD n 0 : Int) : ℂ) * Complex.I)
          * Complex.exp (-2 * Real.pi * Complex.I * n * k / N)

/-- Forward call followed by an inverse call on what the forward call left,
both with `N = 2 ^ logN`. -/
def roundTrip (cv : Int → Int) (logN : Nat) (re im : List Int) : Option Outcome :=
  match FFT cv (some re) (some im) (2 ^ logN) logN FT_DIRECT with
  | some ⟨true, some R, some I⟩ => FFT cv (some R) (some I) (2 ^ logN) logN FT_INVERSE
  | _ => none

/-- Round-trip property as the specification words it: the round trip on
`(re, im)` succeeds and every real and imaginary element it leaves differs
from the element of the input at the same position by at most `tol`. -/
def RoundTripWithin (cv : Int → Int) (logN : Nat) (re im : List Int) (tol : Int) : Prop :=
  ∃ R I, roundTrip cv logN re im = some ⟨true, some R, some I⟩
    ∧ R.length = re.length ∧ I.length = im.length
    ∧ ∀ p, p < re.length →
        |R.getD p 0 - re.getD p 0| ≤ tol ∧ |I.getD p 0 - im.getD p 0| ≤ tol

/-- Counters of the reordering loop `for(j=i=1; i<N; i++)` alone (the exchange
of elements left out), with `cnt` iterations left: for every iteration, the
loop index `i`, the companion index `j` on entry, and the values of `j` and
`k` when the `while(k < j)` loop is left. -/
def permCounters (nn : Nat) : Nat → Nat → Nat → Option (List (Nat × Nat × Nat × Nat))
  | 0, _, _ => some []
  | cnt + 1, i, j =>
    match carryLoop (nn + 1) j nn with
    | none => none
    | some (j1, k) =>
      match permCounters nn cnt (i + 1) (j1 + k) with
      | none => none
      | some l => some ((i, j, j1, k) :: l)

/-- Elementwise sum of two buffers. -/
def addBuf (x y : List Int) : List Int := List.zipWith (· + ·) x y

/-- Elementwise sum of two pairs of buffers. -/
def addBufs (s t : Bufs) : Bufs := (addBuf s.1 t.1, addBuf s.2 t.2)

/-- The table entry at index `i` holds the cosine and the sine of `π / 2 ^ k`
scaled by 4096: `Rcoef[i]` is the integer nearest to `4096 * cos (π / 2 ^ k)`
and the magnitude of `Icoef[i]` is the integer nearest to
`4096 * sin (π / 2 ^ k)`. -/
def tableEntryIs (i k : Nat) : Prop :=
  |((Rcoef.getD i 0 : Int) : ℝ) - 4096 * Real.cos (Real.pi / 2 ^ k)| < 1 / 2
    ∧ |((|Icoef.getD i 0| : Int) : ℝ) - 4096 * Real.sin (Real.pi / 2 ^ k)| < 1 / 2

/-- Elementwise negation of a buffer. -/
def negBuf (x : List Int) : List Int := x.map (fun v => -v)

/-- Complex conjugate of a pair of buffers: the imaginary buffer negated. -/
def conjBufs (s : Bufs) : Bufs := (s.1, negBuf s.2)

/-- Values assigned to `io` and `i` by the loop `for(i=j; i<N; i+=ie)` from the
current `i` on: `io = i + in` in the body, then `i += ie`. -/
def innerValues (N ie in_ : Nat) : Nat → Nat → Option (List Int)
  | 0, i => if i < N then none else some []
  | fuel + 1, i =>
    if i < N then
      match innerValues N ie in_ fuel (i + ie) with
      | none => none
      | some l => some (((i + in_ : Nat) : Int) :: ((i + ie : Nat) : Int) :: l)
    else some []

/-- Values assigned to `i`, `io` and `j` by the loop `for(j=0; j<in; j++)` from
the current `j` on, with `cnt` iterations left: `i = j`, the values of the
inner loop, then `j++`. -/
def jValues (N ie in_ : Nat) : Nat → Nat → Option (List Int)
  | 0, _ => some []
  | cnt + 1, j =>
    match innerValues N ie in_ N j with
    | none => none
    | some l1 =>
      match jValues N ie in_ cnt (j + 1) with
      | none => none
      | some l2 => some ((j : Int) :: l1 ++ ((j + 1 : Nat) : Int) :: l2)

/-- Values assigned to the index variables by the loop
`for(n=1; n<=LogN; n++)` from the current `n` and `ie` on, with `cnt`
iterations left: `in = ie >> 1`, `j = 0`, the values of the `j` loop,
`ie >>= 1`, then `n++`. -/
def stageValues (N : Nat) : Nat → Nat → Nat → Option (List Int)
  | 0, _, _ => some []
  | cnt + 1, n, ie =>
    match jValues N ie (ie >>> 1) (ie >>> 1) 0 with
    | none => none
    | some l1 =>
      match stageValues N cnt (n + 1) (ie >>> 1) with
      | none => none
      | some l2 =>
        some (((ie >>> 1 : Nat) : Int) :: 0 :: l1
          ++ ((ie >>> 1 : Nat) : Int) :: ((n + 1 : Nat) : Int) :: l2)

/-- Values assigned to `j` and `k` by `while(k < j) { j = j - k; k >>= 1; }`,
with the final `(j, k)`; the difference `j - k` is taken in `Int`. -/
def carryValues : Nat → Nat → Nat → Option (List Int × Nat × Nat)
  | 0, j, k => if k < j then none else some ([], j, k)
  | fuel + 1, j, k =>
    if k < j then
      match carryValues fuel (j - k) (k >>> 1) with
      | none => none
      | some (l, j1, k1) => some (((j : Int) - (k : Int)) :: ((k >>> 1 : Nat) : Int) :: l, j1, k1)
    else some ([], j, k)

/-- Values assigned to the index variables by the loop `for(j=i=1; i<N; i++)`
from the current `i` and `j` on, with `cnt` iterations left: `io = i - 1` and
`in = j - 1` when `i < j` (differences taken in `Int`), `k = nn`, the values of
the `while` loop, `j = j + k`, then `i++`. -/
def permValues (nn : Nat) : Nat → Nat → Nat → Option (List Int)
  | 0, _, _ => some []
  | cnt + 1, i, j =>
    match carryValues (nn + 1) j nn with
    | none => none
    | some (l1, j1, k) =>
      match permValues nn cnt (i + 1) (j1 + k) with
      | none => none
      | some l2 =>
        some ((if i < j then [(i : Int) - 1, (j : Int) - 1] else []) ++ (nn : Int) :: l1
          ++ ((j1 + k : Nat) : Int) :: ((i + 1 : Nat) : Int) :: l2)

/-- Values assigned to `i` by the loop `for(i=0; i<N; i++)`: 0, then `i++` up
to `N`. -/
def normValues (N : Nat) : List Int :=
  List.map (fun v : Nat => (v : Int)) (List.range (N + 1))

/-- Every value assigned to the index variables `i, j, n, k, io, ie, in, nn` by
an accepted call, in order: `nn = N >> 1`, `ie = N`, `n = 1`, the stage loop,
`j = i = 1`, the reordering loop and, for the forward direction, the
normalization loop. -/
def indexValues (N LogN : Nat) (Ft_Flag : Int) : Option (List Int) :=
  match stageValues N LogN 1 N, permValues (N >>> 1) (N - 1) 1 1 with
  | some l1, some l2 =>
    some (((N >>> 1 : Nat) : Int) :: (N : Int) :: 1 :: l1 ++ 1 :: 1 :: l2
      ++ (if Ft_Flag = FT_INVERSE then [] else normValues N))
  | _, _ => none

/-- Subscript pairs `(i, io)`, with `io = i + in`, of the butterflies done by
the loop `for(i=j; i<N; i+=ie)` from the current `i` on. -/
def innerAccesses (N ie in_ : Nat) : Nat → Nat → Option (List (Nat × Nat))
  | 0, i => if i < N then none else some []
  | fuel + 1, i =>
    if i < N then
      match innerAccesses N ie in_ fuel (i + ie) with
      | none => none
      | some l => some ((i, i + in_) :: l)
    else some []

/-- Subscript pairs `(i, io)` of the butterflies done by the loop
`for(j=0; j<in; j++)` from the current `j` on, with `cnt` iterations left. -/
def jAccesses (N ie in_ : Nat) : Nat → Nat → Option (List (Nat × Nat))
  | 0, _ => some []
  | cnt + 1, j =>
    match innerAccesses N ie in_ N j with
    | none => none
    | some l1 =>
      match jAccesses N ie in_ cnt (j + 1) with
      | none => none
      | some l2 => some (l1 ++ l2)

/-- Subscripts used by the loop `for(n=1; n<=LogN; n++)` from the current `n`
and `ie` on, with `cnt` iterations left: the signed table subscripts
`LogN - n`, and the subscript pairs `(i, io)` of the butterflies. -/
def stageAccesses (N LogN : Nat) : Nat → Nat → Nat → Option (List Int × List (Nat × Nat))
  | 0, _, _ => some ([], [])
  | cnt + 1, n, ie =>
    match jAccesses N ie (ie >>> 1) (ie >>> 1) 0 with
    | none => none
    | some l1 =>
      match stageAccesses N LogN cnt (n + 1) (ie >>> 1) with
      | none => none
      | some (ts, l2) => some (((LogN : Int) - (n : Int)) :: ts, l1 ++ l2)

/-! ## Parameter validation -/

theorem and_pred_eq_zero_imp_pow (n : Nat) (h1 : 1 ≤ n) (h : n &&& (n - 1) = 0) :
    ∃ k, n = 2 ^ k := by
  induction n using Nat.strong_induction_on with
  | _ n ih =>
    by_cases hn : n = 1
    · exact ⟨0, by simp [hn]⟩
    · have h2 : (n &&& (n - 1)) / 2 = 0 := by rw [h]
      rw [Nat.and_div_two] at h2
      rcases Nat.mod_two_eq_zero_or_one n with he | ho
      · have e : (n - 1) / 2 = n / 2 - 1 := by omega
        rw [e] at h2
        obtain ⟨k, hk⟩ := ih (n / 2) (by omega) (by omega) h2
        exact ⟨k + 1, by rw [pow_succ]; omega⟩
      · have e : (n - 1) / 2 = n / 2 := by omega
        rw [e, Nat.and_self] at h2
        omega

theorem pow_and_pred_eq_zero (k : Nat) : 2 ^ k &&& (2 ^ k - 1) = 0 := by
  rw [Nat.and_pow_two_sub_one_eq_mod]
  exact Nat.mod_self _

theorem land_natCast (n : Nat) (h1 : 1 ≤ n) :
    Int.land (n : Int) ((n : Int) - 1) = ((n &&& (n - 1) : Nat) : Int) := by
  have e : ((n : Int) - 1) = ((n - 1 : Nat) : Int) := by omega
  rw [e]
  rfl

theorem NUMBER_IS_2_POW_K_natCast (n : Nat) (h1 : 1 ≤ n) :
    NUMBER_IS_2_POW_K (n : Int) = true ↔ (n &&& (n - 1) = 0 ∧ 1 < n) := by
  unfold NUMBER_IS_2_POW_K
  rw [land_natCast n h1]
  simp

theorem NUMBER_IS_2_POW_K_imp (N : Int) (h : NUMBER_IS_2_POW_K N = true) :
    ∃ k : Nat, 1 ≤ k ∧ N = 2 ^ k := by
  have hN : 1 < N := by
    unfold NUMBER_IS_2_POW_K at h
    simp at h
    exact h.2
  obtain ⟨n, rfl⟩ : ∃ n : Nat, N = (n : Int) := ⟨N.toNat, by omega⟩
  have hn : 1 ≤ n := by omega
  rw [NUMBER_IS_2_POW_K_natCast n hn] at h
  obtain ⟨k, hk⟩ := and_pred_eq_zero_imp_pow n hn h.1
  refine ⟨k, ?_, by rw [hk]; push_cast; rfl⟩
  rcases k with _ | k
  · simp at hk; omega
  · omega

theorem NUMBER_IS_2_POW_K_pow (k : Nat) (hk : 1 ≤ k) :
    NUMBER_IS_2_POW_K ((2 : Int) ^ k) = true := by
  have e : ((2 : Int) ^ k) = ((2 ^ k : Nat) : Int) := by push_cast; rfl
  have h1 : 1 < 2 ^ k := Nat.one_lt_two_pow (by omega)
  rw [e, NUMBER_IS_2_POW_K_natCast _ (by omega)]
  exact ⟨pow_and_pred_eq_zero k, h1⟩

/-- Every value of `N` below 2, above 16384 or not a power of two is turned
down, and the buffers are handed back as they came. -/
theorem FFT_bad_N (cv : Int → Int) (Rdat Idat : Option (List Int)) (N LogN Ft_Flag : Int)
    (h : N < 2 ∨ 16384 < N ∨ ¬ ∃ k : Nat, N = 2 ^ k) :
    FFT cv Rdat Idat N LogN Ft_Flag = some ⟨false, Rdat, Idat⟩ := by
  unfold FFT
  split
  · by_cases hp : NUMBER_IS_2_POW_K N = true
    · obtain ⟨k, hk1, hk⟩ := NUMBER_IS_2_POW_K_imp N hp
      have h2 : (2 : Int) ≤ N := by
        rw [hk]
        calc (2 : Int) = 2 ^ 1 := by norm_num
          _ ≤ 2 ^ k := pow_le_pow_right₀ (by norm_num) hk1
      rcases h with h | h | h
      · omega
      · rw [if_pos (Or.inl h)]
      · exact absurd ⟨k, hk⟩ h
    · simp only [Bool.not_eq_true] at hp
      simp [hp]
  · rfl

/-- C2, at the input where the code departs from the claim: with `N = 2`
(below the documented minimum 4) and `LogN = 2`, the call is accepted: it
returns true and transforms the buffers. -/
theorem FFT_accepts_N_two :
    FFT id (some [1, 2]) (some [0, 0]) 2 2 FT_DIRECT
      = some ⟨true, some [1, 0], some [0, 0]⟩ := by
  decide

/-- C3: every call whose `LogN` is below 2 or above 14 returns false, whatever
the other arguments are (and hands the buffers back as they came). -/
theorem FFT_bad_LogN (cv : Int → Int) (Rdat Idat : Option (List Int)) (N LogN Ft_Flag : Int)
    (h : LogN < 2 ∨ LogN > 14) :
    FFT cv Rdat Idat N LogN Ft_Flag = some ⟨false, Rdat, Idat⟩ := by
  unfold FFT
  split
  · simp only [if_pos h]
    split_ifs <;> rfl
  · rfl

theorem FFT_bad_LogN_witness :
    FFT id (some [1, 2, 3, 4]) (some [0, 0, 0, 0]) 4 1 FT_DIRECT
        = some ⟨false, some [1, 2, 3, 4], some [0, 0, 0, 0]⟩
      ∧ FFT wrap16 (some [1, 2, 3, 4]) (some [0, 0, 0, 0]) 4 15 FT_INVERSE
        = some ⟨false, some [1, 2, 3, 4], some [0, 0, 0, 0]⟩ :=
  ⟨FFT_bad_LogN id _ _ 4 1 FT_DIRECT (Or.inl (by decide)),
   FFT_bad_LogN wrap16 _ _ 4 15 FT_INVERSE (Or.inr (by decide))⟩

/-- C4: every call whose direction flag is neither `FT_DIRECT` (-1) nor
`FT_INVERSE` (1) returns false, whatever the other arguments are (and hands
the buffers back as they came). -/
theorem FFT_bad_flag (cv : Int → Int) (Rdat Idat : Option (List Int)) (N LogN Ft_Flag : Int)
    (h1 : Ft_Flag ≠ -1) (h2 : Ft_Flag ≠ 1) :
    FFT cv Rdat Idat N LogN Ft_Flag = some ⟨false, Rdat, Idat⟩ := by
  have h : Ft_Flag ≠ FT_DIRECT ∧ Ft_Flag ≠ FT_INVERSE := ⟨h1, h2⟩
  unfold FFT
  split
  · simp only [if_pos h]
    split_ifs <;> rfl
  · rfl

theorem FFT_bad_flag_witness :
    FFT id (some [1, 2, 3, 4]) (some [0, 0, 0, 0]) 4 2 0
        = some ⟨false, some [1, 2, 3, 4], some [0, 0, 0, 0]⟩
      ∧ FFT wrap16 (some [1, 2, 3, 4]) (some [0, 0, 0, 0]) 4 2 2
        = some ⟨false, some [1, 2, 3, 4], some [0, 0, 0, 0]⟩ :=
  ⟨FFT_bad_flag id _ _ 4 2 0 (by decide) (by decide),
   FFT_bad_flag wrap16 _ _ 4 2 2 (by decide) (by decide)⟩

/-- C5: every call in which the real buffer or the imaginary buffer is absent
returns false, whatever `N`, `LogN` and the direction are. -/
theorem FFT_null_buffer (cv : Int → Int) (Rdat Idat : Option (List Int)) (N LogN Ft_Flag : Int)
    (h : Rdat = none ∨ Idat = none) :
    FFT cv Rdat Idat N LogN Ft_Flag = some ⟨false, Rdat, Idat⟩ := by
  unfold FFT
  split
  · simp at h
  · rfl

theorem FFT_null_buffer_witness :
    FFT id none (some [0, 0, 0, 0]) 4 2 FT_DIRECT = some ⟨false, none, some [0, 0, 0, 0]⟩
      ∧ FFT id (some [1, 2, 3, 4]) none 4 2 FT_INVERSE
        = some ⟨false, some [1, 2, 3, 4], none⟩ :=
  ⟨FFT_null_buffer id none _ 4 2 FT_DIRECT (Or.inl rfl),
   FFT_null_buffer id _ none 4 2 FT_INVERSE (Or.inr rfl)⟩

/-- C6: when a call returns false, both buffers after the call are the
buffers before the call. -/
theorem FFT_false_untouched (cv : Int → Int) (Rdat Idat : Option (List Int))
    (N LogN Ft_Flag : Int) (o : Outcome)
    (h : FFT cv Rdat Idat N LogN Ft_Flag = some o) (hf : o.ret = false) :
    o.Rdat = Rdat ∧ o.Idat = Idat := by
  unfold FFT at h
  split at h
  · split_ifs at h
    any_goals (cases h; exact ⟨rfl, rfl⟩)
    all_goals
      split at h
      · cases h
      · split at h
        · cases h
        · first
          | (cases h; cases hf)
          | (split at h
             · cases h
             · cases h; cases hf)
  · cases h; exact ⟨rfl, rfl⟩

theorem FFT_false_untouched_witness :
    FFT id (some [7, 8, 9]) (some [1, 2, 3]) 3 2 FT_DIRECT
        = some ⟨false, some [7, 8, 9], some [1, 2, 3]⟩
      ∧ (⟨false, some [7, 8, 9], some [1, 2, 3]⟩ : Outcome).Rdat = some [7, 8, 9]
      ∧ (⟨false, some [7, 8, 9], some [1, 2, 3]⟩ : Outcome).Idat = some [1, 2, 3] :=
  ⟨by decide,
   FFT_false_untouched id (some [7, 8, 9]) (some [1, 2, 3]) 3 2 FT_DIRECT
    ⟨false, some [7, 8, 9], some [1, 2, 3]⟩ (by decide) rfl⟩

/-! ## The three phases, position by position -/

theorem getD_set_self (l : List Int) (i : Nat) (v : Int) (h : i < l.length) :
    (l.set i v).getD i 0 = v := by
  simp [List.getD_eq_getElem?_getD, List.getElem?_set, h]

theorem getD_set_ne (l : List Int) (i p : Nat) (v : Int) (h : i ≠ p) :
    (l.set i v).getD p 0 = l.getD p 0 := by
  simp [List.getD_eq_getElem?_getD, List.getElem?_set_ne h]

theorem getElem_opt_eq_getD (l : List Int) (i : Nat) (h : i < l.length) :
    l[i]? = some (l.getD i 0) := by
  simp [List.getD_eq_getElem?_getD, List.getElem?_eq_getElem h]

theorem butterfly_spec (cv : Int → Int) (ru iu : Int) (i io : Nat) (s : Bufs) (L L2 : Nat)
    (h1 : s.1.length = L) (h2 : s.2.length = L2) (hi : i < L) (hio : io < L)
    (hi2 : i < L2) (hio2 : io < L2) (hne : i ≠ io) :
    ∃ s1, butterfly cv ru iu i io s = some s1 ∧ s1.1.length = L ∧ s1.2.length = L2
      ∧ smp s1 i = bfTop cv (smp s i) (smp s io)
      ∧ smp s1 io = bfBot cv ru iu (smp s i) (smp s io)
      ∧ ∀ p, p ≠ i → p ≠ io → smp s1 p = smp s p := by
  unfold butterfly
  rw [getElem_opt_eq_getD s.1 i (by omega), getElem_opt_eq_getD s.1 io (by omega),
    getElem_opt_eq_getD s.2 i (by omega), getElem_opt_eq_getD s.2 io (by omega)]
  refine ⟨_, rfl, by simp [h1], by simp [h2], ?_, ?_, ?_⟩
  · simp only [smp, bfTop]
    rw [getD_set_self _ _ _ (by simp; omega), getD_set_self _ _ _ (by simp; omega)]
  · simp only [smp, bfBot]
    rw [getD_set_ne _ _ _ _ hne, getD_set_ne _ _ _ _ hne,
      getD_set_self _ _ _ (by omega), getD_set_self _ _ _ (by omega)]
  · intro p hp1 hp2
    simp only [smp]
    rw [getD_set_ne _ _ _ _ (Ne.symm hp1), getD_set_ne _ _ _ _ (Ne.symm hp1),
      getD_set_ne _ _ _ _ (Ne.symm hp2), getD_set_ne _ _ _ _ (Ne.symm hp2)]

theorem innerLoop_exit (cv : Int → Int) (N ie h : Nat) (ru iu : Int) (fuel i : Nat) (s : Bufs)
    (hi : N ≤ i) : innerLoop cv N ie h ru iu fuel i s = some s := by
  cases fuel <;> simp [innerLoop, Nat.not_lt.mpr hi]

theorem innerLoop_spec (cv : Int → Int) (ru iu : Int) (N ie h c j L L2 : Nat)
    (hN : N = c * ie) (hL : N ≤ L) (hL2 : N ≤ L2) (hh : 1 ≤ h) (hj : j + h < ie) :
    ∀ t b fuel (s : Bufs), b + t = c → t ≤ fuel → s.1.length = L → s.2.length = L2 →
      ∃ s1, innerLoop cv N ie h ru iu fuel (b * ie + j) s = some s1
        ∧ s1.1.length = L ∧ s1.2.length = L2
        ∧ (∀ b1, b ≤ b1 → b1 < c →
            smp s1 (b1 * ie + j) = bfTop cv (smp s (b1 * ie + j)) (smp s (b1 * ie + j + h))
            ∧ smp s1 (b1 * ie + j + h)
                = bfBot cv ru iu (smp s (b1 * ie + j)) (smp s (b1 * ie + j + h)))
        ∧ (∀ p, (∀ b1, b ≤ b1 → b1 < c → p ≠ b1 * ie + j ∧ p ≠ b1 * ie + j + h) →
            smp s1 p = smp s p) := by
  intro t
  induction t with
  | zero =>
    intro b fuel s hb _ h1 h2
    have hbc : b = c := by omega
    subst hbc
    refine ⟨s, innerLoop_exit _ _ _ _ _ _ _ _ _ (by omega), h1, h2, ?_, ?_⟩
    · intro b1 hb1 hb2; omega
    · intro p _; rfl
  | succ t ih =>
    intro b fuel s hb hf h1 h2
    obtain ⟨f, rfl⟩ : ∃ f, fuel = f + 1 := ⟨fuel - 1, by omega⟩
    have hbc : (b + 1) * ie ≤ c * ie := Nat.mul_le_mul_right ie (by omega)
    have hsucc : (b + 1) * ie = b * ie + ie := Nat.succ_mul b ie
    have hi : b * ie + j < N := by omega
    obtain ⟨s1, hs1, l1, l2, htop, hbot, hoth⟩ :=
      butterfly_spec cv ru iu (b * ie + j) (b * ie + j + h) s L L2 h1 h2 (by omega) (by omega)
        (by omega) (by omega)
        (by omega)
    obtain ⟨s2, hs2, m1, m2, hpair, hrest⟩ := ih (b + 1) f s1 (by omega) (by omega) l1 l2
    have e : (b + 1) * ie + j = b * ie + j + ie := by omega
    rw [e] at hs2
    refine ⟨s2, ?_, m1, m2, ?_, ?_⟩
    · simp only [innerLoop, if_pos hi, hs1, hs2]
    · intro b1 hb1 hb2
      by_cases hb : b1 = b
      · subst hb
        have far : ∀ b2, b1 + 1 ≤ b2 → b2 < c →
            b1 * ie + j + h < b2 * ie := by
          intro b2 hb3 _
          have := Nat.mul_le_mul_right ie hb3
          omega
        rw [hrest (b1 * ie + j) (fun b2 hb3 hb4 => by have := far b2 hb3 hb4; omega),
          hrest (b1 * ie + j + h) (fun b2 hb3 hb4 => by have := far b2 hb3 hb4; omega)]
        exact ⟨htop, hbot⟩
      · have hb3 : b + 1 ≤ b1 := by omega
        have := Nat.mul_le_mul_right ie hb3
        obtain ⟨q1, q2⟩ := hpair b1 hb3 hb2
        rw [q1, q2, hoth (b1 * ie + j) (by omega) (by omega),
          hoth (b1 * ie + j + h) (by omega) (by omega)]
        exact ⟨rfl, rfl⟩
    · intro p hp
      rw [hrest p (fun b2 hb3 hb4 => hp b2 (by omega) hb4)]
      have := hp b (le_refl b) (by omega)
      exact hoth p this.1 this.2

theorem decomp_ne (ie b1 b2 r1 r2 : Nat) (h1 : r1 < ie) (h2 : r2 < ie) (hne : r1 ≠ r2) :
    b1 * ie + r1 ≠ b2 * ie + r2 := by
  intro heq
  have e1 : (b1 * ie + r1) % ie = r1 := by
    rw [Nat.add_comm, Nat.add_mul_mod_self_right, Nat.mod_eq_of_lt h1]
  have e2 : (b2 * ie + r2) % ie = r2 := by
    rw [Nat.add_comm, Nat.add_mul_mod_self_right, Nat.mod_eq_of_lt h2]
  rw [heq, e2] at e1
  exact hne e1.symm

theorem jLoop_spec (cv : Int → Int) (rw iw : Int) (N ie h c L L2 : Nat)
    (hN : N = c * ie) (hL : N ≤ L) (hL2 : N ≤ L2) (hh : 1 ≤ h) (hie : 2 * h ≤ ie) :
    ∀ cnt j0 ru iu (s : Bufs), j0 + cnt ≤ h → s.1.length = L → s.2.length = L2 →
      ∃ s1, jLoop cv N ie h rw iw cnt j0 ru iu s = some s1
        ∧ s1.1.length = L ∧ s1.2.length = L2
        ∧ (∀ d b, d < cnt → b < c →
            smp s1 (b * ie + (j0 + d))
              = bfTop cv (smp s (b * ie + (j0 + d))) (smp s (b * ie + (j0 + d) + h))
            ∧ smp s1 (b * ie + (j0 + d) + h)
              = bfBot cv ((twNext cv rw iw)^[d] (ru, iu)).1 ((twNext cv rw iw)^[d] (ru, iu)).2
                  (smp s (b * ie + (j0 + d))) (smp s (b * ie + (j0 + d) + h)))
        ∧ (∀ p, (∀ d b, d < cnt → b < c →
              p ≠ b * ie + (j0 + d) ∧ p ≠ b * ie + (j0 + d) + h) →
            smp s1 p = smp s p) := by
  intro cnt
  induction cnt with
  | zero =>
    intro j0 ru iu s _ h1 h2
    refine ⟨s, rfl, h1, h2, ?_, ?_⟩
    · intro d b hd; omega
    · intro p _; rfl
  | succ cnt ih =>
    intro j0 ru iu s hj h1 h2
    have hcN : c ≤ N := by
      rw [hN]; exact Nat.le_mul_of_pos_right c (by omega)
    obtain ⟨s1, hs1, l1, l2, hpair1, hrest1⟩ :=
      innerLoop_spec cv ru iu N ie h c j0 L L2 hN hL hL2 hh (by omega) c 0 N s (by omega) hcN h1 h2
    rw [Nat.zero_mul, Nat.zero_add] at hs1
    obtain ⟨s2, hs2, m1, m2, hpair2, hrest2⟩ :=
      ih (j0 + 1) (cv (ru * rw - iu * iw)) (cv (iu * rw + ru * iw)) s1 (by omega) l1 l2
    refine ⟨s2, ?_, m1, m2, ?_, ?_⟩
    · simp only [jLoop, hs1, hs2]
    · intro d b hd hb
      rcases d with _ | d
      · obtain ⟨q1, q2⟩ := hpair1 b (Nat.zero_le b) hb
        have k1 : smp s2 (b * ie + (j0 + 0)) = smp s1 (b * ie + (j0 + 0)) := by
          apply hrest2
          intro d2 b2 _ _
          exact ⟨decomp_ne ie b b2 _ _ (by omega) (by omega) (by omega), by
            rw [Nat.add_assoc (b2 * ie)]
            exact decomp_ne ie b b2 _ _ (by omega) (by omega) (by omega)⟩
        have k2 : smp s2 (b * ie + (j0 + 0) + h) = smp s1 (b * ie + (j0 + 0) + h) := by
          apply hrest2
          intro d2 b2 _ _
          rw [Nat.add_assoc (b * ie)]
          exact ⟨decomp_ne ie b b2 _ _ (by omega) (by omega) (by omega), by
            rw [Nat.add_assoc (b2 * ie)]
            exact decomp_ne ie b b2 _ _ (by omega) (by omega) (by omega)⟩
        rw [k1, k2]
        exact ⟨q1, q2⟩
      · obtain ⟨q1, q2⟩ := hpair2 d b (by omega) hb
        have e : j0 + (d + 1) = j0 + 1 + d := by omega
        have k1 : smp s1 (b * ie + (j0 + 1 + d)) = smp s (b * ie + (j0 + 1 + d)) := by
          apply hrest1
          intro b2 _ _
          exact ⟨decomp_ne ie b b2 _ _ (by omega) (by omega) (by omega), by
            rw [Nat.add_assoc (b2 * ie)]
            exact decomp_ne ie b b2 _ _ (by omega) (by omega) (by omega)⟩
        have k2 : smp s1 (b * ie + (j0 + 1 + d) + h) = smp s (b * ie + (j0 + 1 + d) + h) := by
          apply hrest1
          intro b2 _ _
          rw [Nat.add_assoc (b * ie)]
          exact ⟨decomp_ne ie b b2 _ _ (by omega) (by omega) (by omega), by
            rw [Nat.add_assoc (b2 * ie)]
            exact decomp_ne ie b b2 _ _ (by omega) (by omega) (by omega)⟩
        rw [e, q1, q2, k1, k2, Function.iterate_succ_apply]
        exact ⟨rfl, rfl⟩
    · intro p hp
      rw [hrest2 p (fun d b hd hb => by
        have := hp (d + 1) b (by omega) hb
        have e : j0 + (d + 1) = j0 + 1 + d := by omega
        rw [e] at this
        exact this)]
      apply hrest1
      intro b _ hb
      exact hp 0 b (by omega) hb

theorem Rcoef_get (k : Nat) (h : k < 14) : Rcoef[k]? = some (Rcoef.getD k 0) :=
  getElem_opt_eq_getD Rcoef k (by simpa [Rcoef] using h)

theorem Icoef_get (k : Nat) (h : k < 14) : Icoef[k]? = some (Icoef.getD k 0) :=
  getElem_opt_eq_getD Icoef k (by simpa [Icoef] using h)

theorem tableAt_sub (T : List Int) (a b : Nat) (h : b ≤ a) :
    tableAt T ((a : Int) - (b : Int)) = T[a - b]? := by
  unfold tableAt
  rw [if_neg (by omega)]
  congr 1
  omega

theorem tableAt_neg (T : List Int) (i : Int) (h : i < 0) : tableAt T i = none := by
  unfold tableAt
  rw [if_pos h]

theorem swapAt_sub_one (i j : Nat) (s : Bufs) (hi : 1 ≤ i) (hj : 1 ≤ j) :
    swapAt ((i : Int) - 1) ((j : Int) - 1) s = swapStep (i - 1) (j - 1) s := by
  unfold swapAt
  rw [if_neg (by omega)]
  congr 1 <;> omega

theorem swapAt_neg (io in_ : Int) (s : Bufs) (h : io < 0 ∨ in_ < 0) :
    swapAt io in_ s = none := by
  unfold swapAt
  rw [if_pos h]

/-- Invariant rule for the stage loop: a property kept by every stage holds
when the loop is left, and the loop is left. -/
theorem stageLoop_inv (cv : Int → Int) (N LogN : Nat) (Ft_Flag : Int)
    (Inv : Nat → Nat → Bufs → Prop) (hLog : LogN ≤ 14)
    (hstep : ∀ n ie s, 1 ≤ n → n ≤ LogN → Inv n ie s →
      ∃ s1, jLoop cv N ie (ie >>> 1) (Rcoef.getD (LogN - n) 0)
              (iwOf cv Ft_Flag (Icoef.getD (LogN - n) 0)) (ie >>> 1) 0 1 0 s = some s1
        ∧ Inv (n + 1) (ie >>> 1) s1) :
    ∀ cnt n ie s, 1 ≤ n → n + cnt = LogN + 1 → Inv n ie s →
      ∃ s1, stageLoop cv N LogN Ft_Flag cnt n ie s = some s1
        ∧ Inv (LogN + 1) (ie >>> cnt) s1 := by
  intro cnt
  induction cnt with
  | zero =>
    intro n ie s _ hn hI
    have e : n = LogN + 1 := by omega
    subst e
    exact ⟨s, rfl, hI⟩
  | succ cnt ih =>
    intro n ie s hn1 hn hI
    obtain ⟨s1, hs1, hI1⟩ := hstep n ie s hn1 (by omega) hI
    obtain ⟨s2, hs2, hI2⟩ := ih (n + 1) (ie >>> 1) s1 (by omega) (by omega) hI1
    refine ⟨s2, ?_, ?_⟩
    · simp only [stageLoop, tableAt_sub _ LogN n (by omega), Rcoef_get (LogN - n) (by omega),
        Icoef_get (LogN - n) (by omega)]
      simp only [iwOf] at hs1
      simp only [hs1, hs2]
    · have e : ie >>> (cnt + 1) = (ie >>> 1) >>> cnt := by
        rw [Nat.add_comm, Nat.shiftRight_add]
      rw [e]; exact hI2

/-- Shape of one stage when `N = 2 ^ m` and `ie` is `N` shifted right: either
the stage is empty (`ie >> 1 = 0`) or `ie = 2 * h` with `h ≥ 1` and `ie`
divides `N`. -/
theorem stage_shape (m k : Nat) :
    (2 ^ m >>> k) >>> 1 = 0
      ∨ ∃ h c, 1 ≤ h ∧ (2 ^ m >>> k) >>> 1 = h ∧ 2 ^ m >>> k = 2 * h ∧ 2 ^ m = c * (2 ^ m >>> k) := by
  by_cases hk : k < m
  · right
    refine ⟨2 ^ (m - k - 1), 2 ^ k, Nat.one_le_two_pow, ?_, ?_, ?_⟩
    · rw [← Nat.shiftRight_add, Nat.shiftRight_eq_div_pow, Nat.pow_div (by omega) (by norm_num)]
      congr 1
    · rw [Nat.shiftRight_eq_div_pow, Nat.pow_div (by omega) (by norm_num), ← pow_succ']
      congr 1; omega
    · rw [Nat.shiftRight_eq_div_pow, Nat.pow_div (by omega) (by norm_num), ← pow_add]
      congr 1; omega
  · left
    rw [← Nat.shiftRight_add, Nat.shiftRight_eq_div_pow]
    apply Nat.div_eq_of_lt
    exact Nat.pow_lt_pow_right (by norm_num) (by omega)

theorem stages_total (cv : Int → Int) (m LogN : Nat) (Ft_Flag : Int) (hLog : LogN ≤ 14)
    (s : Bufs) (L L2 : Nat) (hL : 2 ^ m ≤ L) (hL2 : 2 ^ m ≤ L2)
    (h1 : s.1.length = L) (h2 : s.2.length = L2) :
    ∃ s1, stages cv (2 ^ m) LogN Ft_Flag s = some s1 ∧ s1.1.length = L ∧ s1.2.length = L2 := by
  have key := stageLoop_inv cv (2 ^ m) LogN Ft_Flag
    (fun n ie s => ie = 2 ^ m >>> (n - 1) ∧ s.1.length = L ∧ s.2.length = L2) hLog
    (by
      intro n ie s hn1 hn ⟨hie, l1, l2⟩
      subst hie
      have hnext : (2 ^ m >>> (n - 1)) >>> 1 = 2 ^ m >>> (n + 1 - 1) := by
        rw [← Nat.shiftRight_add]
        congr 1; omega
      rcases stage_shape m (n - 1) with h0 | ⟨h, c, hh, hh2, hie2, hc⟩
      · refine ⟨s, ?_, hnext, l1, l2⟩
        rw [h0]; rfl
      · obtain ⟨s1, hs1, m1, m2, -, -⟩ := jLoop_spec cv (Rcoef.getD (LogN - n) 0)
          (iwOf cv Ft_Flag (Icoef.getD (LogN - n) 0)) (2 ^ m) (2 ^ m >>> (n - 1)) h c L L2 hc hL hL2 hh
          (by omega) h 0 1 0 s (by omega) l1 l2
        refine ⟨s1, ?_, hnext, m1, m2⟩
        rw [hh2]; exact hs1)
    LogN 1 (2 ^ m) s (le_refl 1) (by omega) ⟨rfl, h1, h2⟩
  obtain ⟨s1, hs1, -, l1, l2⟩ := key
  exact ⟨s1, hs1, l1, l2⟩

theorem bitrev_lt (m p : Nat) : bitrev m p < 2 ^ m := by
  induction m generalizing p with
  | zero => simp [bitrev]
  | succ m ih =>
    have := ih (p / 2)
    have h2 : p % 2 < 2 := Nat.mod_lt _ (by norm_num)
    simp only [bitrev, pow_succ]
    rcases Nat.mod_two_eq_zero_or_one p with h | h <;> rw [h] <;> omega

theorem bitrev_testBit (m p b : Nat) :
    (bitrev m p).testBit b = (decide (b < m) && p.testBit (m - 1 - b)) := by
  induction m generalizing p b with
  | zero => simp [bitrev]
  | succ m ih =>
    simp only [bitrev]
    rw [Nat.testBit_mul_pow_two_add _ (bitrev_lt m (p / 2))]
    by_cases hb : b < m
    · rw [if_pos hb, ih, Nat.testBit_div_two]
      have e : m - 1 - b + 1 = m + 1 - 1 - b := by omega
      rw [e]
      simp [hb, Nat.lt_succ_of_lt hb]
    · rw [if_neg hb]
      by_cases hbm : b = m
      · subst hbm
        simp
      · have h1 : ¬ b < m + 1 := by omega
        have h2 : (p % 2) < 2 ^ (b - m) := by
          have : 2 ^ 1 ≤ 2 ^ (b - m) := Nat.pow_le_pow_right (by norm_num) (by omega)
          have := Nat.mod_lt p (show 0 < 2 by norm_num)
          omega
        rw [Nat.testBit_lt_two_pow h2]
        simp [h1]

theorem bitrev_bitrev (m p : Nat) (hp : p < 2 ^ m) : bitrev m (bitrev m p) = p := by
  apply Nat.eq_of_testBit_eq
  intro b
  rw [bitrev_testBit, bitrev_testBit]
  by_cases hb : b < m
  · have e : m - 1 - (m - 1 - b) = b := by omega
    have h1 : m - 1 - b < m := by omega
    simp [hb, h1, e]
  · have h2 : p < 2 ^ b := lt_of_lt_of_le hp (Nat.pow_le_pow_right (by norm_num) (by omega))
    rw [Nat.testBit_lt_two_pow h2]
    simp [hb]

theorem carryLoop_bitrev (m : Nat) :
    ∀ I fuel, I + 1 < 2 ^ (m + 1) → m + 1 ≤ fuel →
      ∃ j1 k, carryLoop fuel (bitrev (m + 1) I + 1) (2 ^ m) = some (j1, k)
        ∧ j1 + k = bitrev (m + 1) (I + 1) + 1 := by
  induction m with
  | zero =>
    intro I fuel hI hf
    have : I = 0 := by omega
    subst this
    obtain ⟨f, rfl⟩ : ∃ f, fuel = f + 1 := ⟨fuel - 1, by omega⟩
    exact ⟨1, 1, by simp [carryLoop, bitrev], by simp [bitrev]⟩
  | succ m ih =>
    intro I fuel hI hf
    obtain ⟨f, rfl⟩ : ∃ f, fuel = f + 1 := ⟨fuel - 1, by omega⟩
    have hlt := bitrev_lt (m + 1) (I / 2)
    rcases Nat.mod_two_eq_zero_or_one I with h | h
    · have e1 : bitrev (m + 1 + 1) I = bitrev (m + 1) (I / 2) := by
        rw [bitrev, h]; simp
      have e2 : bitrev (m + 1 + 1) (I + 1) = 2 ^ (m + 1) + bitrev (m + 1) (I / 2) := by
        have h1 : (I + 1) % 2 = 1 := by omega
        have h2 : (I + 1) / 2 = I / 2 := by omega
        rw [bitrev, h1, h2]; simp
      refine ⟨bitrev (m + 1) (I / 2) + 1, 2 ^ (m + 1), ?_, by rw [e2]; omega⟩
      rw [e1, carryLoop, if_neg (by omega)]
    · have e1 : bitrev (m + 1 + 1) I = 2 ^ (m + 1) + bitrev (m + 1) (I / 2) := by
        rw [bitrev, h]; simp
      have e2 : bitrev (m + 1 + 1) (I + 1) = bitrev (m + 1) (I / 2 + 1) := by
        have h1 : (I + 1) % 2 = 0 := by omega
        have h2 : (I + 1) / 2 = I / 2 + 1 := by omega
        rw [bitrev, h1, h2]; simp
      have hp : 2 ^ (m + 1 + 1) = 2 * 2 ^ (m + 1) := by rw [pow_succ']
      obtain ⟨j1, k, hc, hs⟩ := ih (I / 2) f (by omega) (by omega)
      refine ⟨j1, k, ?_, by rw [e2]; exact hs⟩
      have e3 : 2 ^ (m + 1) + bitrev (m + 1) (I / 2) + 1 - 2 ^ (m + 1)
          = bitrev (m + 1) (I / 2) + 1 := by omega
      have e4 : 2 ^ (m + 1) >>> 1 = 2 ^ m := by
        rw [Nat.shiftRight_eq_div_pow, pow_succ]; simp
      rw [e1, carryLoop, if_pos (by omega), e3, e4]
      exact hc

theorem swapStep_spec (io in_ : Nat) (s : Bufs) (L L2 : Nat)
    (h1 : s.1.length = L) (h2 : s.2.length = L2) (hio : io < L) (hin : in_ < L)
    (hio2 : io < L2) (hin2 : in_ < L2) :
    ∃ s1, swapStep io in_ s = some s1 ∧ s1.1.length = L ∧ s1.2.length = L2
      ∧ smp s1 io = smp s in_
      ∧ smp s1 in_ = smp s io
      ∧ ∀ p, p ≠ io → p ≠ in_ → smp s1 p = smp s p := by
  unfold swapStep
  rw [getElem_opt_eq_getD s.1 in_ (by omega), getElem_opt_eq_getD s.2 in_ (by omega),
    getElem_opt_eq_getD s.1 io (by omega), getElem_opt_eq_getD s.2 io (by omega)]
  refine ⟨_, rfl, by simp [h1], by simp [h2], ?_, ?_, ?_⟩
  · simp only [smp]
    rw [getD_set_self _ _ _ (by simp; omega), getD_set_self _ _ _ (by simp; omega)]
  · simp only [smp]
    by_cases e : io = in_
    · subst e
      rw [getD_set_self _ _ _ (by simp; omega), getD_set_self _ _ _ (by simp; omega)]
    · rw [getD_set_ne _ _ _ _ e, getD_set_ne _ _ _ _ e,
        getD_set_self _ _ _ (by omega), getD_set_self _ _ _ (by omega)]
  · intro p hp1 hp2
    simp only [smp]
    rw [getD_set_ne _ _ _ _ (Ne.symm hp1), getD_set_ne _ _ _ _ (Ne.symm hp1),
      getD_set_ne _ _ _ _ (Ne.symm hp2), getD_set_ne _ _ _ _ (Ne.symm hp2)]

theorem permLoop_spec (m L L2 : Nat) (s0 : Bufs) (hL : 2 ^ (m + 1) ≤ L)
    (hL2 : 2 ^ (m + 1) ≤ L2) :
    ∀ cnt t (s : Bufs), t + cnt = 2 ^ (m + 1) - 1 → s.1.length = L → s.2.length = L2 →
      permInv (m + 1) s0 t s →
      ∃ s1, permLoop (2 ^ m) cnt (t + 1) (bitrev (m + 1) t + 1) s = some s1
        ∧ s1.1.length = L ∧ s1.2.length = L2 ∧ permInv (m + 1) s0 (2 ^ (m + 1) - 1) s1 := by
  intro cnt
  induction cnt with
  | zero =>
    intro t s ht h1 h2 hI
    have e : t = 2 ^ (m + 1) - 1 := by omega
    subst e
    exact ⟨s, rfl, h1, h2, hI⟩
  | succ cnt ih =>
    intro t s ht h1 h2 hI
    have hpos : 0 < 2 ^ (m + 1) := Nat.two_pow_pos _
    have htN : t + 1 < 2 ^ (m + 1) := by omega
    have hrt := bitrev_lt (m + 1) t
    have hfuel : m + 1 ≤ 2 ^ m + 1 := by
      have := @Nat.lt_two_pow m
      omega
    obtain ⟨j1, k, hc, hjk⟩ := carryLoop_bitrev m t (2 ^ m + 1) htN hfuel
    have hstep : ∃ s1, (if t + 1 < bitrev (m + 1) t + 1
          then swapStep (t + 1 - 1) (bitrev (m + 1) t + 1 - 1) s else some s) = some s1
        ∧ s1.1.length = L ∧ s1.2.length = L2 ∧ permInv (m + 1) s0 (t + 1) s1 := by
      by_cases hlt : t < bitrev (m + 1) t
      · rw [if_pos (by omega)]
        simp only [Nat.add_sub_cancel]
        obtain ⟨s1, hs1, l1, l2, q1, q2, q3⟩ :=
          swapStep_spec t (bitrev (m + 1) t) s L L2 h1 h2 (by omega) (by omega) (by omega) (by omega)
        refine ⟨s1, hs1, l1, l2, ?_⟩
        intro p
        by_cases hp1 : p = t
        · subst hp1
          rw [q1, hI (bitrev (m + 1) p), bitrev_bitrev _ _ (by omega),
            if_neg (by omega), if_pos ⟨by omega, by omega⟩]
        · by_cases hp2 : p = bitrev (m + 1) t
          · subst hp2
            rw [q2, hI t, if_neg (by omega), bitrev_bitrev _ _ (by omega),
              if_pos ⟨by omega, Or.inr (by omega)⟩]
          · rw [q3 p hp1 hp2, hI p]
            by_cases hpN : p < 2 ^ (m + 1)
            · have hne : bitrev (m + 1) p ≠ t := by
                intro h
                apply hp2
                rw [← h, bitrev_bitrev _ _ hpN]
              by_cases hc : p < t ∨ bitrev (m + 1) p < t
              · rw [if_pos ⟨hpN, hc⟩, if_pos ⟨hpN, by omega⟩]
              · rw [if_neg (by tauto), if_neg (by omega)]
            · rw [if_neg (by tauto), if_neg (by tauto)]
      · rw [if_neg (by omega)]
        refine ⟨s, rfl, h1, h2, ?_⟩
        intro p
        rw [hI p]
        by_cases hpN : p < 2 ^ (m + 1)
        · by_cases hc : p < t ∨ bitrev (m + 1) p < t
          · rw [if_pos ⟨hpN, hc⟩, if_pos ⟨hpN, by omega⟩]
          · rw [if_neg (by tauto)]
            by_cases hp1 : p = t
            · subst hp1
              have : bitrev (m + 1) p = p := by omega
              rw [this]; simp
            · have hne : bitrev (m + 1) p ≠ t := by
                intro h
                have h3 : bitrev (m + 1) t = p := by rw [← h, bitrev_bitrev _ _ hpN]
                omega
              rw [if_neg (by omega)]
        · rw [if_neg (by tauto), if_neg (by tauto)]
    obtain ⟨s1, hs1, l1, l2, hI1⟩ := hstep
    obtain ⟨s2, hs2, m1, m2, hI2⟩ := ih (t + 1) s1 (by omega) l1 l2 hI1
    refine ⟨s2, ?_, m1, m2, hI2⟩
    rw [permLoop, swapAt_sub_one _ _ s (by omega) (by omega), hs1]
    simp only [hc]
    rw [hjk]
    exact hs2

theorem bitrev_zero (M : Nat) : bitrev M 0 = 0 := by
  induction M with
  | zero => rfl
  | succ M ih => simp [bitrev, ih]

theorem permute_spec (m L L2 : Nat) (hm : 1 ≤ m) (s : Bufs) (hL : 2 ^ m ≤ L)
    (hL2 : 2 ^ m ≤ L2)
    (h1 : s.1.length = L) (h2 : s.2.length = L2) :
    ∃ s1, permute (2 ^ m) s = some s1 ∧ s1.1.length = L ∧ s1.2.length = L2
      ∧ (∀ p, p < 2 ^ m → smp s1 p = smp s (bitrev m p))
      ∧ (∀ p, 2 ^ m ≤ p → smp s1 p = smp s p) := by
  obtain ⟨k, rfl⟩ : ∃ k, m = k + 1 := ⟨m - 1, by omega⟩
  have hpos : 0 < 2 ^ (k + 1) := Nat.two_pow_pos _
  have hnn : 2 ^ (k + 1) >>> 1 = 2 ^ k := by
    rw [Nat.shiftRight_eq_div_pow, pow_succ]; simp
  obtain ⟨s1, hs1, l1, l2, hI⟩ := permLoop_spec k L L2 s hL hL2 (2 ^ (k + 1) - 1) 0 s (by omega) h1 h2
    (by intro p; simp)
  rw [bitrev_zero] at hs1
  refine ⟨s1, by rw [permute, hnn]; exact hs1, l1, l2, ?_, ?_⟩
  · intro p hp
    rw [hI p]
    have hr := bitrev_lt (k + 1) p
    by_cases hc : p < 2 ^ (k + 1) - 1 ∨ bitrev (k + 1) p < 2 ^ (k + 1) - 1
    · rw [if_pos ⟨hp, hc⟩]
    · rw [if_neg (by tauto)]
      have : bitrev (k + 1) p = p := by omega
      rw [this]
  · intro p hp
    rw [hI p, if_neg (by omega)]

theorem normLoop_spec (cv : Int → Int) (N L L2 : Nat) (hL : N ≤ L) (hL2 : N ≤ L2) :
    ∀ cnt i (s : Bufs), i + cnt = N → s.1.length = L → s.2.length = L2 →
      ∃ s1, normLoop cv N cnt i s = some s1 ∧ s1.1.length = L ∧ s1.2.length = L2
        ∧ (∀ p, i ≤ p → p < N → smp s1 p = (divN cv N (smp s p).1, divN cv N (smp s p).2))
        ∧ (∀ p, p < i ∨ N ≤ p → smp s1 p = smp s p) := by
  intro cnt
  induction cnt with
  | zero =>
    intro i s hi h1 h2
    exact ⟨s, rfl, h1, h2, fun p _ _ => by omega, fun p _ => rfl⟩
  | succ cnt ih =>
    intro i s hi h1 h2
    obtain ⟨s2, hs2, m1, m2, hin, hout⟩ := ih (i + 1)
      (s.1.set i (cv (Int.tdiv (s.1.getD i 0) N)), s.2.set i (cv (Int.tdiv (s.2.getD i 0) N)))
      (by omega) (by simp [h1]) (by simp [h2])
    refine ⟨s2, ?_, m1, m2, ?_, ?_⟩
    · rw [normLoop, getElem_opt_eq_getD s.1 i (by omega),
        getElem_opt_eq_getD s.2 i (by omega)]
      exact hs2
    · intro p hp1 hp2
      by_cases e : p = i
      · subst e
        rw [hout p (Or.inl (by omega))]
        simp only [smp, divN]
        rw [getD_set_self _ _ _ (by omega), getD_set_self _ _ _ (by omega)]
      · rw [hin p (by omega) hp2]
        simp only [smp]
        rw [getD_set_ne _ _ _ _ (Ne.symm e), getD_set_ne _ _ _ _ (Ne.symm e)]
    · intro p hp
      rw [hout p (by omega)]
      simp only [smp]
      rw [getD_set_ne _ _ _ _ (by omega), getD_set_ne _ _ _ _ (by omega)]

theorem list_eq_of_getD (l1 l2 : List Int) (hl : l1.length = l2.length)
    (h : ∀ p, p < l1.length → l1.getD p 0 = l2.getD p 0) : l1 = l2 := by
  apply List.ext_getElem hl
  intro n h1 h2
  have := h n h1
  simpa [List.getD_eq_getElem?_getD, List.getElem?_eq_getElem h1,
    List.getElem?_eq_getElem h2] using this

theorem getD_map (l : List Int) (f : Int → Int) (p : Nat) (h : p < l.length) :
    (l.map f).getD p 0 = f (l.getD p 0) := by
  simp [List.getD_eq_getElem?_getD, List.getElem?_eq_getElem h]

theorem normalize_spec (cv : Int → Int) (N : Nat) (s : Bufs)
    (h1 : s.1.length = N) (h2 : s.2.length = N) :
    normalize cv N s = some (s.1.map (divN cv N), s.2.map (divN cv N)) := by
  obtain ⟨s1, hs1, l1, l2, hin, -⟩ := normLoop_spec cv N N N (le_refl N) (le_refl N) N 0 s (by omega) h1 h2
  rw [normalize, hs1]
  congr 1
  apply Prod.ext
  · apply list_eq_of_getD _ _ (by simp [l1, h1])
    intro p hp
    have := congrArg Prod.fst (hin p (Nat.zero_le p) (by omega))
    simp only [smp] at this
    rw [this, getD_map _ _ _ (by omega)]
  · apply list_eq_of_getD _ _ (by simp [l2, h2])
    intro p hp
    have := congrArg Prod.snd (hin p (Nat.zero_le p) (by omega))
    simp only [smp] at this
    rw [this, getD_map _ _ _ (by omega)]

/-- An accepted call runs the three phases in turn. -/
theorem FFT_accepted (cv : Int → Int) (m : Nat) (LogN Ft_Flag : Int) (R I : List Int)
    (hm1 : 1 ≤ m) (hm : m ≤ 14) (hL1 : 2 ≤ LogN) (hL2 : LogN ≤ 14)
    (hF : Ft_Flag = FT_DIRECT ∨ Ft_Flag = FT_INVERSE) :
    FFT cv (some R) (some I) (2 ^ m) LogN Ft_Flag
      = match stages cv (2 ^ m) LogN.toNat Ft_Flag (R, I) with
        | none => none
        | some s1 =>
          match permute (2 ^ m) s1 with
          | none => none
          | some s2 =>
            if Ft_Flag = FT_INVERSE then some ⟨true, some s2.1, some s2.2⟩
            else
              match normalize cv (2 ^ m) s2 with
              | none => none
              | some s3 => some ⟨true, some s3.1, some s3.2⟩ := by
  have hp := NUMBER_IS_2_POW_K_pow m hm1
  have hle : (2 : Int) ^ m ≤ 2 ^ 14 := pow_le_pow_right₀ (by norm_num) hm
  have hpos : (0 : Int) < 2 ^ m := by positivity
  have hnat : ((2 : Int) ^ m).toNat = 2 ^ m := by
    have e : ((2 : Int) ^ m) = ((2 ^ m : Nat) : Int) := by push_cast; rfl
    rw [e, Int.toNat_natCast]
  have c1 : ¬ ((2 : Int) ^ m > 16384 ∨ (2 : Int) ^ m < 1) := by
    norm_num at hle; omega
  have c3 : ¬ (LogN < 2 ∨ LogN > 14) := by omega
  have c4 : ¬ (Ft_Flag ≠ FT_DIRECT ∧ Ft_Flag ≠ FT_INVERSE) := by tauto
  simp only [FFT, if_neg c1, hp, Bool.not_true, if_neg c3, if_neg c4, hnat]
  simp

/-! ## Acceptance, normalization and reordering -/

/-- An accepted call goes through: the stage loop, the reordering loop and the
normalization all finish without leaving the buffers, and the call returns
true with the buffers they leave. -/
theorem FFT_run (cv : Int → Int) (m : Nat) (LogN Ft_Flag : Int) (R I : List Int)
    (hm1 : 1 ≤ m) (hm : m ≤ 14) (hL1 : 2 ≤ LogN) (hL2 : LogN ≤ 14)
    (hF : Ft_Flag = FT_DIRECT ∨ Ft_Flag = FT_INVERSE)
    (hR : R.length = 2 ^ m) (hI : I.length = 2 ^ m) :
    ∃ S P, stages cv (2 ^ m) LogN.toNat Ft_Flag (R, I) = some S
      ∧ S.1.length = 2 ^ m ∧ S.2.length = 2 ^ m
      ∧ permute (2 ^ m) S = some P
      ∧ P.1.length = 2 ^ m ∧ P.2.length = 2 ^ m
      ∧ (∀ p, p < 2 ^ m → smp P p = smp S (bitrev m p))
      ∧ FFT cv (some R) (some I) (2 ^ m) LogN Ft_Flag
          = some ⟨true,
              some (if Ft_Flag = FT_INVERSE then P.1 else P.1.map (divN cv (2 ^ m))),
              some (if Ft_Flag = FT_INVERSE then P.2 else P.2.map (divN cv (2 ^ m)))⟩ := by
  obtain ⟨S, hS, s1, s2⟩ := stages_total cv m LogN.toNat Ft_Flag (by omega) (R, I) (2 ^ m)
    (2 ^ m) (le_refl _) (le_refl _) hR hI
  obtain ⟨P, hP, p1, p2, hrev, -⟩ := permute_spec m (2 ^ m) (2 ^ m) hm1 S (le_refl _) (le_refl _) s1 s2
  refine ⟨S, P, hS, s1, s2, hP, p1, p2, hrev, ?_⟩
  rw [FFT_accepted cv m LogN Ft_Flag R I hm1 hm hL1 hL2 hF, hS]
  simp only [hP]
  by_cases hinv : Ft_Flag = FT_INVERSE
  · simp only [if_pos hinv]
  · simp only [if_neg hinv, normalize_spec cv (2 ^ m) P p1 p2]

/-- C7: for every `logN` in [2,14], `N = 2 ^ logN`, either direction and present
buffers of length `N`, the call returns true: no step after validation fails,
runs out of the buffers or loops for ever. -/
theorem FFT_valid_returns_true (cv : Int → Int) (logN : Nat) (Ft_Flag : Int)
    (re im : List Int) (h2 : 2 ≤ logN) (h14 : logN ≤ 14)
    (hF : Ft_Flag = FT_DIRECT ∨ Ft_Flag = FT_INVERSE)
    (hre : re.length = 2 ^ logN) (him : im.length = 2 ^ logN) :
    ∃ o, FFT cv (some re) (some im) (2 ^ logN) logN Ft_Flag = some o ∧ o.ret = true := by
  obtain ⟨S, P, -, -, -, -, -, -, -, h⟩ :=
    FFT_run cv logN logN Ft_Flag re im (by omega) h14 (by omega) (by omega) hF hre him
  exact ⟨_, h, rfl⟩

theorem FFT_valid_returns_true_witness :
    ∃ o, FFT wrap16 (some [1, 2, 3, 4]) (some [5, 6, 7, 8]) (2 ^ 2) (2 : Nat) FT_DIRECT = some o
      ∧ o.ret = true :=
  FFT_valid_returns_true wrap16 2 FT_DIRECT [1, 2, 3, 4] [5, 6, 7, 8] (by decide) (by decide)
    (Or.inl rfl) rfl rfl

/-- C8: in an accepted call (`N = 2 ^ m` with `m` in [1,14], `LogN` in [2,14],
buffers of length `N`; the valid calls are those with `LogN = m`), let `P` be
the buffers left by the reordering loop.  With direction inverse the call
returns `P` unchanged.  With direction forward every returned element is the
element of `P` at the same position divided by `N`, the quotient truncated
toward zero and stored as a scalar (`cv`, the identity in exact arithmetic). -/
theorem FFT_normalization (cv : Int → Int) (m : Nat) (LogN : Int) (re im : List Int)
    (hm1 : 1 ≤ m) (hm : m ≤ 14) (hL1 : 2 ≤ LogN) (hL2 : LogN ≤ 14)
    (hre : re.length = 2 ^ m) (him : im.length = 2 ^ m) :
    (∃ S P, stages cv (2 ^ m) LogN.toNat FT_INVERSE (re, im) = some S
        ∧ permute (2 ^ m) S = some P
        ∧ FFT cv (some re) (some im) (2 ^ m) LogN FT_INVERSE
            = some ⟨true, some P.1, some P.2⟩)
      ∧ (∃ S P, stages cv (2 ^ m) LogN.toNat FT_DIRECT (re, im) = some S
        ∧ permute (2 ^ m) S = some P
        ∧ FFT cv (some re) (some im) (2 ^ m) LogN FT_DIRECT
            = some ⟨true, some (P.1.map (fun x => cv (Int.tdiv x (2 ^ m : Nat)))),
                some (P.2.map (fun x => cv (Int.tdiv x (2 ^ m : Nat))))⟩) := by
  constructor
  · obtain ⟨S, P, hS, -, -, hP, -, -, -, h⟩ :=
      FFT_run cv m LogN FT_INVERSE re im hm1 hm hL1 hL2 (Or.inr rfl) hre him
    exact ⟨S, P, hS, hP, by simpa using h⟩
  · obtain ⟨S, P, hS, -, -, hP, -, -, -, h⟩ :=
      FFT_run cv m LogN FT_DIRECT re im hm1 hm hL1 hL2 (Or.inl rfl) hre him
    refine ⟨S, P, hS, hP, ?_⟩
    rw [h, if_neg (by decide), if_neg (by decide)]
    rfl

theorem FFT_normalization_witness :
    (∃ S P, stages id (2 ^ 2) (2 : Int).toNat FT_INVERSE ([8, 0, 0, 0], [0, 4, 0, 0]) = some S
        ∧ permute (2 ^ 2) S = some P
        ∧ FFT id (some [8, 0, 0, 0]) (some [0, 4, 0, 0]) (2 ^ 2) 2 FT_INVERSE
            = some ⟨true, some P.1, some P.2⟩)
      ∧ (∃ S P, stages id (2 ^ 2) (2 : Int).toNat FT_DIRECT ([8, 0, 0, 0], [0, 4, 0, 0]) = some S
        ∧ permute (2 ^ 2) S = some P
        ∧ FFT id (some [8, 0, 0, 0]) (some [0, 4, 0, 0]) (2 ^ 2) 2 FT_DIRECT
            = some ⟨true, some (P.1.map (fun x => id (Int.tdiv x (2 ^ 2 : Nat)))),
                some (P.2.map (fun x => id (Int.tdiv x (2 ^ 2 : Nat))))⟩) :=
  FFT_normalization id 2 2 [8, 0, 0, 0] [0, 4, 0, 0] (by decide) (by decide) (by decide)
    (by decide) rfl rfl

/-- C9: for every `m ≥ 1` (in particular `m` in [1,14]) and `N = 2 ^ m`, the
reordering loop, run on arbitrary sequences `re`, `im` of length `N`, finishes
and leaves at each position `p < N` of either sequence the element that was at
position `bitrev m p`; `bitrev m p` is below `N` and its bit `b` is bit
`m - 1 - b` of `p`; the loop reads neither `LogN` nor the direction; and for
`N = 8` the sequence 0,1,2,3,4,5,6,7 becomes 0,4,2,6,1,5,3,7. -/
theorem permute_bit_reversal (m : Nat) (re im : List Int) (hm1 : 1 ≤ m)
    (hre : re.length = 2 ^ m) (him : im.length = 2 ^ m) :
    (∃ P, permute (2 ^ m) (re, im) = some P
        ∧ P.1.length = 2 ^ m ∧ P.2.length = 2 ^ m
        ∧ ∀ p, p < 2 ^ m → P.1[p]? = re[bitrev m p]? ∧ P.2[p]? = im[bitrev m p]?)
      ∧ (∀ p, p < 2 ^ m → bitrev m p < 2 ^ m
          ∧ ∀ b, (bitrev m p).testBit b = (decide (b < m) && p.testBit (m - 1 - b)))
      ∧ permute 8 ([0, 1, 2, 3, 4, 5, 6, 7], [0, 1, 2, 3, 4, 5, 6, 7])
          = some ([0, 4, 2, 6, 1, 5, 3, 7], [0, 4, 2, 6, 1, 5, 3, 7]) := by
  refine ⟨?_, fun p _ => ⟨bitrev_lt m p, fun b => bitrev_testBit m p b⟩, by decide⟩
  obtain ⟨P, hP, p1, p2, hrev, -⟩ := permute_spec m (2 ^ m) (2 ^ m) hm1 (re, im) (le_refl _) (le_refl _) hre him
  refine ⟨P, hP, p1, p2, ?_⟩
  intro p hp
  have hb := bitrev_lt m p
  have h := hrev p hp
  simp only [smp, Prod.mk.injEq] at h
  rw [getElem_opt_eq_getD P.1 p (by omega), getElem_opt_eq_getD P.2 p (by omega),
    getElem_opt_eq_getD re _ (by omega), getElem_opt_eq_getD im _ (by omega), h.1, h.2]
  exact ⟨rfl, rfl⟩

theorem permute_bit_reversal_witness :
    (∃ P, permute (2 ^ 2) ([10, 11, 12, 13], [20, 21, 22, 23]) = some P
        ∧ P.1.length = 2 ^ 2 ∧ P.2.length = 2 ^ 2
        ∧ ∀ p, p < 2 ^ 2 → P.1[p]? = [10, 11, 12, 13][bitrev 2 p]?
            ∧ P.2[p]? = [20, 21, 22, 23][bitrev 2 p]?)
      ∧ (∀ p, p < 2 ^ 2 → bitrev 2 p < 2 ^ 2
          ∧ ∀ b, (bitrev 2 p).testBit b = (decide (b < 2) && p.testBit (2 - 1 - b)))
      ∧ permute 8 ([0, 1, 2, 3, 4, 5, 6, 7], [0, 1, 2, 3, 4, 5, 6, 7])
          = some ([0, 4, 2, 6, 1, 5, 3, 7], [0, 4, 2, 6, 1, 5, 3, 7]) :=
  permute_bit_reversal 2 [10, 11, 12, 13] [20, 21, 22, 23] (by decide) rfl rfl

/-! ## Impulse and constant inputs -/

theorem stage_shape_lt (m k : Nat) (hk : k < m) :
    ∃ h c, 1 ≤ h ∧ (2 ^ m >>> k) >>> 1 = h ∧ 2 ^ m >>> k = 2 * h
      ∧ 2 ^ m = c * (2 ^ m >>> k) := by
  rcases stage_shape m k with h0 | h
  · exfalso
    rw [← Nat.shiftRight_add, Nat.shiftRight_eq_div_pow] at h0
    have h1 : 2 ^ (k + 1) ≤ 2 ^ m := Nat.pow_le_pow_right (by norm_num) (by omega)
    have h2 : 0 < 2 ^ m / 2 ^ (k + 1) := Nat.div_pos h1 (Nat.two_pow_pos _)
    omega
  · exact h

/-- One whole stage, position by position: with `ie = 2 * h` dividing `N`, the
pair at offsets `j` and `j + h` of every block is replaced by its sum and by
its difference rotated by the `j`-th running rotation. -/
theorem stage_pointwise (cv : Int → Int) (rw iw : Int) (N ie h c L L2 : Nat)
    (hN : N = c * ie) (hL : N ≤ L) (hL2 : N ≤ L2) (hh : 1 ≤ h) (hie : ie = 2 * h) (s : Bufs)
    (h1 : s.1.length = L) (h2 : s.2.length = L2) :
    ∃ s1, jLoop cv N ie h rw iw h 0 1 0 s = some s1
      ∧ s1.1.length = L ∧ s1.2.length = L2
      ∧ (∀ q j, q < c → j < h →
          smp s1 (q * ie + j) = bfTop cv (smp s (q * ie + j)) (smp s (q * ie + j + h))
          ∧ smp s1 (q * ie + j + h)
            = bfBot cv ((twNext cv rw iw)^[j] (1, 0)).1 ((twNext cv rw iw)^[j] (1, 0)).2
                (smp s (q * ie + j)) (smp s (q * ie + j + h)))
      ∧ (∀ p, N ≤ p → smp s1 p = smp s p) := by
  obtain ⟨s1, hs1, l1, l2, hpair, hrest⟩ :=
    jLoop_spec cv rw iw N ie h c L L2 hN hL hL2 hh (by omega) h 0 1 0 s (by omega) h1 h2
  refine ⟨s1, hs1, l1, l2, ?_, ?_⟩
  · intro q j hq hj
    have := hpair j q hj hq
    simpa only [Nat.zero_add] using this
  · intro p hp
    apply hrest
    intro d b hd hb
    have := Nat.mul_le_mul_right ie (show b + 1 ≤ c by omega)
    rw [Nat.succ_mul] at this
    omega

theorem block_lt (c ie q r : Nat) (h : q * ie + r < c * ie) : q < c := by
  by_contra hq
  have := Nat.mul_le_mul_right ie (show c ≤ q by omega)
  omega

/-- Stage loop of a valid call on an impulse at position 0: every position
below `N` ends up holding the impulse. -/
theorem stages_impulse (cv : Int → Int) (m : Nat) (Ft_Flag : Int) (K Li : Int) (hm : m ≤ 14)
    (h0 : cv 0 = 0) (hK : cv K = K) (hLi : cv Li = Li) (s : Bufs)
    (h1 : s.1.length = 2 ^ m) (h2 : s.2.length = 2 ^ m)
    (hs : ∀ p, p < 2 ^ m → smp s p = if p = 0 then (K, Li) else (0, 0)) :
    ∃ s1, stages cv (2 ^ m) m Ft_Flag s = some s1
      ∧ s1.1.length = 2 ^ m ∧ s1.2.length = 2 ^ m
      ∧ ∀ p, p < 2 ^ m → smp s1 p = (K, Li) := by
  have key := stageLoop_inv cv (2 ^ m) m Ft_Flag
    (fun n ie s => ie = 2 ^ m >>> (n - 1) ∧ s.1.length = 2 ^ m ∧ s.2.length = 2 ^ m
      ∧ ∀ q r, r < ie → q * ie + r < 2 ^ m →
          smp s (q * ie + r) = if r = 0 then (K, Li) else (0, 0)) hm
    (by
      intro n ie s hn1 hn ⟨hie, l1, l2, hI⟩
      subst hie
      have hnext : (2 ^ m >>> (n - 1)) >>> 1 = 2 ^ m >>> (n + 1 - 1) := by
        rw [← Nat.shiftRight_add]
        congr 1; omega
      obtain ⟨h, c, hh, hh2, hie2, hc⟩ := stage_shape_lt m (n - 1) (by omega)
      generalize 2 ^ m >>> (n - 1) = ie at *
      obtain ⟨s1, hs1, m1, m2, hpair, -⟩ := stage_pointwise cv (Rcoef.getD (m - n) 0)
        (iwOf cv Ft_Flag (Icoef.getD (m - n) 0)) (2 ^ m) ie h c (2 ^ m) (2 ^ m) hc (le_refl _) (le_refl _) hh hie2
        s l1 l2
      refine ⟨s1, by rw [hh2]; exact hs1, hnext, m1, m2, ?_⟩
      rw [hh2]
      intro q1 r1 hr1 hlt
      obtain ⟨q, e, he, rfl⟩ : ∃ q e, e < 2 ∧ q1 = 2 * q + e :=
        ⟨q1 / 2, q1 % 2, Nat.mod_lt _ (by norm_num), by omega⟩
      have hpos : (2 * q + e) * h + r1 = q * ie + (e * h + r1) := by rw [hie2]; ring
      rw [hpos] at hlt ⊢
      have hq : q < c := block_lt c ie q _ (by rw [← hc]; exact hlt)
      obtain ⟨ptop, pbot⟩ := hpair q r1 hq hr1
      have a1 := hI q r1 (by omega) (by
        have := Nat.mul_le_mul_right ie (show q + 1 ≤ c by omega)
        rw [Nat.succ_mul] at this; omega)
      have a2 := hI q (r1 + h) (by omega) (by
        have := Nat.mul_le_mul_right ie (show q + 1 ≤ c by omega)
        rw [Nat.succ_mul] at this; omega)
      rw [← Nat.add_assoc] at a2
      rw [if_neg (by omega)] at a2
      have e01 : e = 0 ∨ e = 1 := by omega
      rcases e01 with rfl | rfl
      · rw [Nat.zero_mul, Nat.zero_add, ptop, a1, a2]
        by_cases hr : r1 = 0
        · simp [hr, bfTop, hK, hLi]
        · simp [hr, bfTop, h0]
      · have e2 : q * ie + (1 * h + r1) = q * ie + r1 + h := by omega
        rw [e2, pbot, a1, a2]
        by_cases hr : r1 = 0
        · subst hr
          simp [bfBot, hK, hLi, h0]
        · simp [hr, bfBot, h0])
    m 1 (2 ^ m) s (le_refl 1) (by omega)
    ⟨rfl, h1, h2, by
      intro q r hr hlt
      have hq : q = 0 := by
        by_contra hq
        have := Nat.mul_le_mul_right (2 ^ m) (show 1 ≤ q by omega)
        omega
      subst hq
      rw [Nat.zero_mul, Nat.zero_add]
      exact hs r hr⟩
  obtain ⟨s1, hs1, hie, l1, l2, hI⟩ := key
  refine ⟨s1, hs1, l1, l2, ?_⟩
  intro p hp
  have e1 : 2 ^ m >>> m = 1 := by
    rw [Nat.shiftRight_eq_div_pow]
    exact Nat.div_self (Nat.two_pow_pos m)
  rw [e1] at hI
  have := hI p 0 (by omega) (by omega)
  simpa using this

/-- Stage loop of a valid call on a constant sequence: position 0 ends up
holding `N` times the constant, every other position below `N` holds zero. -/
theorem stages_const (cv : Int → Int) (m : Nat) (Ft_Flag : Int) (c d : Int) (hm : m ≤ 14)
    (h0 : cv 0 = 0) (hc : ∀ t, t ≤ m → cv (2 ^ t * c) = 2 ^ t * c)
    (hd : ∀ t, t ≤ m → cv (2 ^ t * d) = 2 ^ t * d) (s : Bufs)
    (h1 : s.1.length = 2 ^ m) (h2 : s.2.length = 2 ^ m)
    (hs : ∀ p, p < 2 ^ m → smp s p = (c, d)) :
    ∃ s1, stages cv (2 ^ m) m Ft_Flag s = some s1
      ∧ s1.1.length = 2 ^ m ∧ s1.2.length = 2 ^ m
      ∧ ∀ p, p < 2 ^ m → smp s1 p = if p = 0 then (2 ^ m * c, 2 ^ m * d) else (0, 0) := by
  have key := stageLoop_inv cv (2 ^ m) m Ft_Flag
    (fun n ie s => ie = 2 ^ m >>> (n - 1) ∧ s.1.length = 2 ^ m ∧ s.2.length = 2 ^ m
      ∧ ∀ q r, r < ie → q * ie + r < 2 ^ m →
          smp s (q * ie + r)
            = if q = 0 then (2 ^ (n - 1) * c, 2 ^ (n - 1) * d) else (0, 0)) hm
    (by
      intro n ie s hn1 hn ⟨hie, l1, l2, hI⟩
      subst hie
      have hnext : (2 ^ m >>> (n - 1)) >>> 1 = 2 ^ m >>> (n + 1 - 1) := by
        rw [← Nat.shiftRight_add]
        congr 1; omega
      obtain ⟨h, k, hh, hh2, hie2, hk⟩ := stage_shape_lt m (n - 1) (by omega)
      generalize 2 ^ m >>> (n - 1) = ie at *
      obtain ⟨s1, hs1, m1, m2, hpair, -⟩ := stage_pointwise cv (Rcoef.getD (m - n) 0)
        (iwOf cv Ft_Flag (Icoef.getD (m - n) 0)) (2 ^ m) ie h k (2 ^ m) (2 ^ m) hk (le_refl _) (le_refl _) hh hie2
        s l1 l2
      refine ⟨s1, by rw [hh2]; exact hs1, hnext, m1, m2, ?_⟩
      rw [hh2]
      intro q1 r1 hr1 hlt
      obtain ⟨q, e, he, rfl⟩ : ∃ q e, e < 2 ∧ q1 = 2 * q + e :=
        ⟨q1 / 2, q1 % 2, Nat.mod_lt _ (by norm_num), by omega⟩
      have hpos : (2 * q + e) * h + r1 = q * ie + (e * h + r1) := by rw [hie2]; ring
      rw [hpos] at hlt ⊢
      have hq : q < k := block_lt k ie q _ (by rw [← hk]; exact hlt)
      obtain ⟨ptop, pbot⟩ := hpair q r1 hq hr1
      have a1 := hI q r1 (by omega) (by
        have := Nat.mul_le_mul_right ie (show q + 1 ≤ k by omega)
        rw [Nat.succ_mul] at this; omega)
      have a2 := hI q (r1 + h) (by omega) (by
        have := Nat.mul_le_mul_right ie (show q + 1 ≤ k by omega)
        rw [Nat.succ_mul] at this; omega)
      rw [← Nat.add_assoc] at a2
      have hpow : (2 : Int) ^ (n - 1) * c + 2 ^ (n - 1) * c = 2 ^ (n + 1 - 1) * c := by
        have : n + 1 - 1 = (n - 1) + 1 := by omega
        rw [this, pow_succ]; ring
      have hpowd : (2 : Int) ^ (n - 1) * d + 2 ^ (n - 1) * d = 2 ^ (n + 1 - 1) * d := by
        have : n + 1 - 1 = (n - 1) + 1 := by omega
        rw [this, pow_succ]; ring
      have e01 : e = 0 ∨ e = 1 := by omega
      rcases e01 with rfl | rfl
      · rw [Nat.zero_mul, Nat.zero_add, ptop, a1, a2]
        by_cases hq0 : q = 0
        · subst hq0
          simp only [bfTop, if_true, Nat.mul_zero, Nat.add_zero, hpow, hpowd,
            hc (n + 1 - 1) (by omega), hd (n + 1 - 1) (by omega)]
        · have : ¬ (2 * q + 0 = 0) := by omega
          simp [hq0, bfTop, h0]
      · have e2 : q * ie + (1 * h + r1) = q * ie + r1 + h := by omega
        rw [e2, pbot, a1, a2]
        by_cases hq0 : q = 0
        · subst hq0
          simp [bfBot, h0]
        · simp [hq0, bfBot, h0])
    m 1 (2 ^ m) s (le_refl 1) (by omega)
    ⟨rfl, h1, h2, by
      intro q r hr hlt
      have hq : q = 0 := by
        by_contra hq
        have := Nat.mul_le_mul_right (2 ^ m) (show 1 ≤ q by omega)
        omega
      subst hq
      rw [Nat.zero_mul, Nat.zero_add]
      simpa using hs r hr⟩
  obtain ⟨s1, hs1, hie, l1, l2, hI⟩ := key
  refine ⟨s1, hs1, l1, l2, ?_⟩
  intro p hp
  have e1 : 2 ^ m >>> m = 1 := by
    rw [Nat.shiftRight_eq_div_pow]
    exact Nat.div_self (Nat.two_pow_pos m)
  rw [e1] at hI
  have := hI p 0 (by omega) (by omega)
  simpa using this

theorem constBuf_getD (N : Nat) (c : Int) (p : Nat) (hp : p < N) :
    (constBuf N c).getD p 0 = c := by
  simp [constBuf, List.getD_eq_getElem?_getD, List.getElem?_replicate, hp]

theorem impulseBuf_getD (N : Nat) (K : Int) (p : Nat) :
    (impulseBuf N K).getD p 0 = if p = 0 then K else 0 := by
  rcases p with _ | p
  · simp [impulseBuf]
  · simp only [impulseBuf, List.getD_eq_getElem?_getD, List.getElem?_cons_succ,
      List.getElem?_replicate]
    split_ifs <;> simp_all

theorem impulseBuf_length (N : Nat) (K : Int) (hN : 1 ≤ N) : (impulseBuf N K).length = N := by
  simp [impulseBuf]; omega

theorem bufs_eq_of_smp (s t : Bufs) (N : Nat) (hs1 : s.1.length = N) (hs2 : s.2.length = N)
    (ht1 : t.1.length = N) (ht2 : t.2.length = N) (h : ∀ p, p < N → smp s p = smp t p) :
    s = t := by
  apply Prod.ext
  · apply list_eq_of_getD _ _ (by omega)
    intro p hp
    exact congrArg Prod.fst (h p (by omega))
  · apply list_eq_of_getD _ _ (by omega)
    intro p hp
    exact congrArg Prod.snd (h p (by omega))

theorem bitrev_eq_zero (m p : Nat) (hp : p < 2 ^ m) (h : bitrev m p = 0) : p = 0 := by
  have := bitrev_bitrev m p hp
  rw [h, bitrev_zero] at this
  exact this.symm

/-- A valid call on an impulse at position 0 (value `K` in the real buffer,
`Li` in the imaginary one) leaves the impulse value at every position:
unscaled for the inverse direction, divided by `N` for the forward one. -/
theorem FFT_impulse (cv : Int → Int) (m : Nat) (Ft_Flag : Int) (K Li : Int)
    (hm2 : 2 ≤ m) (hm : m ≤ 14) (hF : Ft_Flag = FT_DIRECT ∨ Ft_Flag = FT_INVERSE)
    (h0 : cv 0 = 0) (hK : cv K = K) (hLi : cv Li = Li) :
    FFT cv (some (impulseBuf (2 ^ m) K)) (some (impulseBuf (2 ^ m) Li)) (2 ^ m) m Ft_Flag
      = some ⟨true,
          some (constBuf (2 ^ m) (if Ft_Flag = FT_INVERSE then K else divN cv (2 ^ m) K)),
          some (constBuf (2 ^ m) (if Ft_Flag = FT_INVERSE then Li else divN cv (2 ^ m) Li))⟩ := by
  have hN : 1 ≤ 2 ^ m := Nat.one_le_two_pow
  have l1 := impulseBuf_length (2 ^ m) K hN
  have l2 := impulseBuf_length (2 ^ m) Li hN
  obtain ⟨S, P, hS, s1, s2, hP, p1, p2, hrev, h⟩ :=
    FFT_run cv m m Ft_Flag _ _ (by omega) hm (by omega) (by omega) hF l1 l2
  obtain ⟨S1, hS1, -, -, hval⟩ := stages_impulse cv m Ft_Flag K Li hm h0 hK hLi
    (impulseBuf (2 ^ m) K, impulseBuf (2 ^ m) Li) l1 l2
    (by
      intro p _
      simp only [smp, impulseBuf_getD]
      split_ifs <;> rfl)
  rw [Int.toNat_natCast, hS1] at hS
  cases hS
  have hPc : P = (constBuf (2 ^ m) K, constBuf (2 ^ m) Li) := by
    apply bufs_eq_of_smp _ _ (2 ^ m) p1 p2 (by simp [constBuf]) (by simp [constBuf])
    intro p hp
    rw [hrev p hp, hval _ (bitrev_lt m p)]
    simp only [smp, constBuf_getD _ _ _ hp]
  rw [h, hPc]
  by_cases hinv : Ft_Flag = FT_INVERSE
  · simp only [if_pos hinv]
  · simp only [if_neg hinv, constBuf, List.map_replicate]

/-- A valid call on a constant sequence (`c` in the real buffer, `d` in the
imaginary one) leaves an impulse at position 0: `N` times the constant for the
inverse direction, that value divided by `N` for the forward one. -/
theorem FFT_const (cv : Int → Int) (m : Nat) (Ft_Flag : Int) (c d : Int)
    (hm2 : 2 ≤ m) (hm : m ≤ 14) (hF : Ft_Flag = FT_DIRECT ∨ Ft_Flag = FT_INVERSE)
    (h0 : cv 0 = 0) (hc : ∀ t, t ≤ m → cv (2 ^ t * c) = 2 ^ t * c)
    (hd : ∀ t, t ≤ m → cv (2 ^ t * d) = 2 ^ t * d) :
    FFT cv (some (constBuf (2 ^ m) c)) (some (constBuf (2 ^ m) d)) (2 ^ m) m Ft_Flag
      = some ⟨true,
          some (impulseBuf (2 ^ m)
            (if Ft_Flag = FT_INVERSE then 2 ^ m * c else divN cv (2 ^ m) (2 ^ m * c))),
          some (impulseBuf (2 ^ m)
            (if Ft_Flag = FT_INVERSE then 2 ^ m * d else divN cv (2 ^ m) (2 ^ m * d)))⟩ := by
  have hN : 1 ≤ 2 ^ m := Nat.one_le_two_pow
  have l1 : (constBuf (2 ^ m) c).length = 2 ^ m := by simp [constBuf]
  have l2 : (constBuf (2 ^ m) d).length = 2 ^ m := by simp [constBuf]
  obtain ⟨S, P, hS, s1, s2, hP, p1, p2, hrev, h⟩ :=
    FFT_run cv m m Ft_Flag _ _ (by omega) hm (by omega) (by omega) hF l1 l2
  obtain ⟨S1, hS1, -, -, hval⟩ := stages_const cv m Ft_Flag c d hm h0 hc hd
    (constBuf (2 ^ m) c, constBuf (2 ^ m) d) l1 l2
    (by
      intro p hp
      simp only [smp, constBuf_getD _ _ _ hp])
  rw [Int.toNat_natCast, hS1] at hS
  cases hS
  have hPc : P = (impulseBuf (2 ^ m) (2 ^ m * c), impulseBuf (2 ^ m) (2 ^ m * d)) := by
    apply bufs_eq_of_smp _ _ (2 ^ m) p1 p2 (impulseBuf_length _ _ hN) (impulseBuf_length _ _ hN)
    intro p hp
    rw [hrev p hp, hval _ (bitrev_lt m p)]
    simp only [smp, impulseBuf_getD]
    by_cases hp0 : p = 0
    · subst hp0
      simp [bitrev_zero]
    · have : bitrev m p ≠ 0 := fun hb => hp0 (bitrev_eq_zero m p hp hb)
      simp [hp0, this]
  rw [h, hPc]
  by_cases hinv : Ft_Flag = FT_INVERSE
  · simp only [if_pos hinv]
  · have hz : divN cv (2 ^ m) 0 = 0 := by simp [divN, h0]
    simp only [if_neg hinv, impulseBuf, List.map_cons, List.map_replicate, hz]

/-! ## Reference transform and round trip -/

theorem exp_quarter_turn :
    Complex.exp (-2 * Real.pi * Complex.I * (1 : Nat) * (1 : Nat) / (4 : Nat)) = -Complex.I := by
  have e : (-2 * Real.pi * Complex.I * (1 : Nat) * (1 : Nat) / (4 : Nat) : ℂ)
      = ((-(Real.pi / 2) : ℝ) : ℂ) * Complex.I := by
    push_cast; ring
  rw [e, Complex.exp_mul_I, ← Complex.ofReal_cos, ← Complex.ofReal_sin, Real.cos_neg,
    Real.sin_neg, Real.cos_pi_div_two, Real.sin_pi_div_two]
  simp

/-- C1 at an input where the code departs from the claim: forward transform of
the sequence 0, 4, 0, 0 (imaginary parts zero), `N = 4`, `LogN = 2`.  The
reference value of bin 1 is `-i` (real part 0, imaginary part -1); the code
leaves real part 0 and imaginary part -4096 at position 1, with exact
arithmetic as well as with a 16-bit `qint16`. -/
theorem FFT_forward_vs_DFT :
    FFT id (some [0, 4, 0, 0]) (some [0, 0, 0, 0]) 4 2 FT_DIRECT
        = some ⟨true, some [1, 0, -1, 0], some [0, -4096, 0, 4096]⟩
      ∧ FFT wrap16 (some [0, 4, 0, 0]) (some [0, 0, 0, 0]) 4 2 FT_DIRECT
        = some ⟨true, some [1, 0, -1, 0], some [0, -4096, 0, 4096]⟩
      ∧ specForwardDFT 4 [0, 4, 0, 0] [0, 0, 0, 0] 1 (-Complex.I) := by
  refine ⟨by decide, by decide, ?_⟩
  unfold specForwardDFT
  simp only [Finset.sum_range_succ, Finset.sum_range_zero]
  have e := exp_quarter_turn
  simp only [Nat.cast_one, Nat.cast_ofNat] at e
  simp
  rw [← e]
  congr 1
  ring

/-- C10, counterexample: forward then inverse on the sequence 2, 0, 0, 0
(imaginary parts zero) with `N = 4` does not come back within 1 unit: the
forward call divides 2 by 4, every element becomes 0, and the round trip
leaves 0 where the input has 2.  This holds with exact arithmetic and with a
16-bit `qint16`. -/
theorem roundTrip_not_within_one :
    ¬ RoundTripWithin id 2 [2, 0, 0, 0] [0, 0, 0, 0] 1
      ∧ ¬ RoundTripWithin wrap16 2 [2, 0, 0, 0] [0, 0, 0, 0] 1 := by
  constructor
  · rintro ⟨R, I, h, -, -, hp⟩
    have hrt : roundTrip id 2 [2, 0, 0, 0] [0, 0, 0, 0]
        = some ⟨true, some [0, 0, 0, 0], some [0, 0, 0, 0]⟩ := by decide
    rw [hrt] at h
    simp only [Option.some.injEq, Outcome.mk.injEq, true_and] at h
    obtain ⟨rfl, -⟩ := h
    have := (hp 0 (by simp)).1
    simp at this
  · rintro ⟨R, I, h, -, -, hp⟩
    have hrt : roundTrip wrap16 2 [2, 0, 0, 0] [0, 0, 0, 0]
        = some ⟨true, some [0, 0, 0, 0], some [0, 0, 0, 0]⟩ := by decide
    rw [hrt] at h
    simp only [Option.some.injEq, Outcome.mk.injEq, true_and] at h
    obtain ⟨rfl, -⟩ := h
    have := (hp 0 (by simp)).1
    simp at this

theorem abs_pow_mul_tdiv_le (K : Int) (m t : Nat) (ht : t ≤ m) :
    |2 ^ t * Int.tdiv K ((2 ^ m : Nat) : Int)| ≤ |K| := by
  have h : (2 ^ t * Int.tdiv K ((2 ^ m : Nat) : Int)).natAbs ≤ K.natAbs := by
    rw [Int.natAbs_mul, Int.natAbs_pow, Int.natAbs_tdiv, Int.natAbs_ofNat]
    calc Int.natAbs 2 ^ t * (K.natAbs.div (2 ^ m))
        ≤ 2 ^ m * (K.natAbs / 2 ^ m) :=
          Nat.mul_le_mul_right _ (Nat.pow_le_pow_right (by norm_num) ht)
      _ ≤ K.natAbs := Nat.mul_div_le _ _
  rw [Int.abs_eq_natAbs, Int.abs_eq_natAbs]
  exact_mod_cast h

theorem abs_pow_mul_le (c B : Int) (m t : Nat) (ht : t ≤ m) (hB : |c| ≤ B) :
    |2 ^ t * c| ≤ 2 ^ m * B := by
  rw [abs_mul, abs_of_nonneg (by positivity : (0 : Int) ≤ 2 ^ t)]
  have h1 : (2 : Int) ^ t ≤ 2 ^ m := pow_le_pow_right₀ (by norm_num) ht
  exact mul_le_mul h1 hB (abs_nonneg c) (by positivity)

/-- C10 as amended: for every `logN` in [2,10] and `N = 2 ^ logN`, provided
the scalar conversion leaves the values involved unchanged (always so in exact
arithmetic), forward then inverse gives back a constant sequence exactly, and
turns an impulse at position 0 of value `K` (real) and `Li` (imaginary) into
the impulse of value `N * (K / N)` and `N * (Li / N)`, quotients truncated
toward zero. -/
theorem roundTrip_const_impulse (cv : Int → Int) (logN : Nat) (c d K Li : Int)
    (h2 : 2 ≤ logN) (h10 : logN ≤ 10)
    (hcd : ∀ x : Int, |x| ≤ 2 ^ logN * max |c| |d| → cv x = x)
    (hKL : ∀ x : Int, |x| ≤ max |K| |Li| → cv x = x) :
    roundTrip cv logN (constBuf (2 ^ logN) c) (constBuf (2 ^ logN) d)
        = some ⟨true, some (constBuf (2 ^ logN) c), some (constBuf (2 ^ logN) d)⟩
      ∧ roundTrip cv logN (impulseBuf (2 ^ logN) K) (impulseBuf (2 ^ logN) Li)
        = some ⟨true,
            some (impulseBuf (2 ^ logN) (2 ^ logN * Int.tdiv K (2 ^ logN))),
            some (impulseBuf (2 ^ logN) (2 ^ logN * Int.tdiv Li (2 ^ logN)))⟩ := by
  have hm : logN ≤ 14 := by omega
  have hpow : (((2 ^ logN : Nat) : Int)) = (2 : Int) ^ logN := by push_cast; rfl
  have hne : ((2 : Int) ^ logN) ≠ 0 := by positivity
  constructor
  · have hmax : (0 : Int) ≤ max |c| |d| := le_max_of_le_left (abs_nonneg c)
    have h0 : cv 0 = 0 := hcd 0 (by rw [abs_zero]; positivity)
    have hc : ∀ t, t ≤ logN → cv (2 ^ t * c) = 2 ^ t * c := fun t ht =>
      hcd _ (abs_pow_mul_le c _ logN t ht (le_max_left _ _))
    have hd : ∀ t, t ≤ logN → cv (2 ^ t * d) = 2 ^ t * d := fun t ht =>
      hcd _ (abs_pow_mul_le d _ logN t ht (le_max_right _ _))
    have hc0 : cv c = c := by simpa using hc 0 (Nat.zero_le _)
    have hd0 : cv d = d := by simpa using hd 0 (Nat.zero_le _)
    have hfc : divN cv (2 ^ logN) (2 ^ logN * c) = c := by
      rw [divN, hpow, Int.mul_tdiv_cancel_left _ hne, hc0]
    have hfd : divN cv (2 ^ logN) (2 ^ logN * d) = d := by
      rw [divN, hpow, Int.mul_tdiv_cancel_left _ hne, hd0]
    have hfwd := FFT_const cv logN FT_DIRECT c d h2 hm (Or.inl rfl) h0 hc hd
    rw [if_neg (by decide), if_neg (by decide), hfc, hfd] at hfwd
    have hinv := FFT_impulse cv logN FT_INVERSE c d h2 hm (Or.inr rfl) h0 hc0 hd0
    rw [if_pos rfl, if_pos rfl] at hinv
    simp only [roundTrip, hfwd, hinv]
  · have h0 : cv 0 = 0 := hKL 0 (by rw [abs_zero]; exact le_max_of_le_left (abs_nonneg K))
    have hK : cv K = K := hKL K (le_max_left _ _)
    have hLi : cv Li = Li := hKL Li (le_max_right _ _)
    have hqK : ∀ t, t ≤ logN →
        cv (2 ^ t * Int.tdiv K (2 ^ logN)) = 2 ^ t * Int.tdiv K (2 ^ logN) := fun t ht =>
      hKL _ (le_trans (by rw [← hpow]; exact abs_pow_mul_tdiv_le K logN t ht) (le_max_left _ _))
    have hqL : ∀ t, t ≤ logN →
        cv (2 ^ t * Int.tdiv Li (2 ^ logN)) = 2 ^ t * Int.tdiv Li (2 ^ logN) := fun t ht =>
      hKL _ (le_trans (by rw [← hpow]; exact abs_pow_mul_tdiv_le Li logN t ht)
        (le_max_right _ _))
    have hfK : divN cv (2 ^ logN) K = Int.tdiv K (2 ^ logN) := by
      have := hqK 0 (Nat.zero_le _)
      rw [divN, hpow]
      simpa using this
    have hfL : divN cv (2 ^ logN) Li = Int.tdiv Li (2 ^ logN) := by
      have := hqL 0 (Nat.zero_le _)
      rw [divN, hpow]
      simpa using this
    have hfwd := FFT_impulse cv logN FT_DIRECT K Li h2 hm (Or.inl rfl) h0 hK hLi
    rw [if_neg (by decide), if_neg (by decide), hfK, hfL] at hfwd
    have hinv := FFT_const cv logN FT_INVERSE (Int.tdiv K (2 ^ logN)) (Int.tdiv Li (2 ^ logN))
      h2 hm (Or.inr rfl) h0 hqK hqL
    rw [if_pos rfl, if_pos rfl] at hinv
    simp only [roundTrip, hfwd, hinv]

theorem roundTrip_const_impulse_witness :
    roundTrip id 2 (constBuf (2 ^ 2) 7) (constBuf (2 ^ 2) (-3))
        = some ⟨true, some (constBuf (2 ^ 2) 7), some (constBuf (2 ^ 2) (-3))⟩
      ∧ roundTrip id 2 (impulseBuf (2 ^ 2) 2) (impulseBuf (2 ^ 2) (-9))
        = some ⟨true,
            some (impulseBuf (2 ^ 2) (2 ^ 2 * Int.tdiv 2 (2 ^ 2))),
            some (impulseBuf (2 ^ 2) (2 ^ 2 * Int.tdiv (-9) (2 ^ 2)))⟩ :=
  roundTrip_const_impulse id 2 7 (-3) 2 (-9) (by decide) (by decide) (fun _ _ => rfl)
    (fun _ _ => rfl)

/-! ## Impulse and zero inputs -/

theorem abs_tdiv_le (K : Int) (m : Nat) : |Int.tdiv K ((2 ^ m : Nat) : Int)| ≤ |K| := by
  have := abs_pow_mul_tdiv_le K m 0 (Nat.zero_le m)
  simpa using this

theorem impulseBuf_zero (N : Nat) (hN : 1 ≤ N) : impulseBuf N 0 = List.replicate N 0 := by
  obtain ⟨k, rfl⟩ : ∃ k, N = k + 1 := ⟨N - 1, by omega⟩
  simp [impulseBuf, List.replicate_succ]

/-- C12: for every `logN` in [2,14] (in particular `N = 8` and `N = 64`),
`N = 2 ^ logN` and every integer `K` that the scalar type holds (every `K` in
exact arithmetic), the forward call on the impulse `re[0] = K`, `re[n] = 0`
for `n > 0`, `im` all zero returns true and leaves `re[i] = K / N` (quotient
truncated toward zero) and `im[i] = 0` at every position. -/
theorem FFT_unit_impulse (cv : Int → Int) (logN : Nat) (K : Int)
    (h2 : 2 ≤ logN) (h14 : logN ≤ 14) (hcv : ∀ x : Int, |x| ≤ |K| → cv x = x) :
    FFT cv (some (K :: List.replicate (2 ^ logN - 1) 0)) (some (List.replicate (2 ^ logN) 0))
        (2 ^ logN) logN FT_DIRECT
      = some ⟨true, some (List.replicate (2 ^ logN) (Int.tdiv K (2 ^ logN))),
          some (List.replicate (2 ^ logN) 0)⟩ := by
  have h0 : cv 0 = 0 := hcv 0 (by simp)
  have hK : cv K = K := hcv K (le_refl _)
  have hpow : (((2 ^ logN : Nat) : Int)) = (2 : Int) ^ logN := by push_cast; rfl
  have hq : divN cv (2 ^ logN) K = Int.tdiv K (2 ^ logN) := by
    rw [divN, hpow]
    exact hcv _ (by rw [← hpow]; exact abs_tdiv_le K logN)
  have hz : divN cv (2 ^ logN) 0 = 0 := by simp [divN, h0]
  have h := FFT_impulse cv logN FT_DIRECT K 0 h2 h14 (Or.inl rfl) h0 hK h0
  rw [if_neg (by decide), if_neg (by decide), hq, hz,
    impulseBuf_zero _ Nat.one_le_two_pow] at h
  exact h

theorem FFT_unit_impulse_witness :
    FFT id (some (24 :: List.replicate (2 ^ 3 - 1) 0)) (some (List.replicate (2 ^ 3) 0))
        (2 ^ 3) (3 : Nat) FT_DIRECT
      = some ⟨true, some (List.replicate (2 ^ 3) (Int.tdiv 24 (2 ^ 3))),
          some (List.replicate (2 ^ 3) 0)⟩ :=
  FFT_unit_impulse id 3 24 (by decide) (by decide) (fun _ _ => rfl)

/-- C13: for every `logN` in [2,14], `N = 2 ^ logN` and either direction, the
call on buffers whose `N` real and `N` imaginary elements are all 0 returns
true and leaves every element of both buffers equal to 0 (the scalar type
holds 0: `cv 0 = 0`). -/
theorem FFT_zero_input (cv : Int → Int) (logN : Nat) (Ft_Flag : Int)
    (h2 : 2 ≤ logN) (h14 : logN ≤ 14) (hF : Ft_Flag = FT_DIRECT ∨ Ft_Flag = FT_INVERSE)
    (h0 : cv 0 = 0) :
    FFT cv (some (List.replicate (2 ^ logN) 0)) (some (List.replicate (2 ^ logN) 0))
        (2 ^ logN) logN Ft_Flag
      = some ⟨true, some (List.replicate (2 ^ logN) 0), some (List.replicate (2 ^ logN) 0)⟩ := by
  have hz : divN cv (2 ^ logN) 0 = 0 := by simp [divN, h0]
  have h := FFT_impulse cv logN Ft_Flag 0 0 h2 h14 hF h0 h0 h0
  rw [hz, impulseBuf_zero _ Nat.one_le_two_pow] at h
  simpa [constBuf] using h

theorem FFT_zero_input_witness :
    FFT wrap16 (some (List.replicate (2 ^ 2) 0)) (some (List.replicate (2 ^ 2) 0))
        (2 ^ 2) (2 : Nat) FT_INVERSE
      = some ⟨true, some (List.replicate (2 ^ 2) 0), some (List.replicate (2 ^ 2) 0)⟩ :=
  FFT_zero_input wrap16 2 FT_INVERSE (by decide) (by decide) (Or.inr rfl) (by decide)

/-! ## Termination, index safety and the acceptance condition -/

theorem carryLoop_exit (m : Nat) :
    ∀ I fuel, I + 1 < 2 ^ (m + 1) → m + 1 ≤ fuel →
      ∃ j1 k, carryLoop fuel (bitrev (m + 1) I + 1) (2 ^ m) = some (j1, k)
        ∧ j1 + k = bitrev (m + 1) (I + 1) + 1 ∧ 1 ≤ k ∧ k ≤ 2 ^ m ∧ 1 ≤ j1 ∧ j1 ≤ k := by
  induction m with
  | zero =>
    intro I fuel hI hf
    have : I = 0 := by omega
    subst this
    obtain ⟨f, rfl⟩ : ∃ f, fuel = f + 1 := ⟨fuel - 1, by omega⟩
    exact ⟨1, 1, by simp [carryLoop, bitrev], by simp [bitrev], by omega, by simp, by omega,
      by omega⟩
  | succ m ih =>
    intro I fuel hI hf
    obtain ⟨f, rfl⟩ : ∃ f, fuel = f + 1 := ⟨fuel - 1, by omega⟩
    have hlt := bitrev_lt (m + 1) (I / 2)
    have hp : 2 ^ (m + 1 + 1) = 2 * 2 ^ (m + 1) := by rw [pow_succ']
    have hpos : 0 < 2 ^ (m + 1) := Nat.two_pow_pos _
    rcases Nat.mod_two_eq_zero_or_one I with h | h
    · have e1 : bitrev (m + 1 + 1) I = bitrev (m + 1) (I / 2) := by
        rw [bitrev, h]; simp
      have e2 : bitrev (m + 1 + 1) (I + 1) = 2 ^ (m + 1) + bitrev (m + 1) (I / 2) := by
        have h1 : (I + 1) % 2 = 1 := by omega
        have h2 : (I + 1) / 2 = I / 2 := by omega
        rw [bitrev, h1, h2]; simp
      refine ⟨bitrev (m + 1) (I / 2) + 1, 2 ^ (m + 1), ?_, by rw [e2]; omega, by omega,
        le_refl _, by omega, by omega⟩
      rw [e1, carryLoop, if_neg (by omega)]
    · have e1 : bitrev (m + 1 + 1) I = 2 ^ (m + 1) + bitrev (m + 1) (I / 2) := by
        rw [bitrev, h]; simp
      have e2 : bitrev (m + 1 + 1) (I + 1) = bitrev (m + 1) (I / 2 + 1) := by
        have h1 : (I + 1) % 2 = 0 := by omega
        have h2 : (I + 1) / 2 = I / 2 + 1 := by omega
        rw [bitrev, h1, h2]; simp
      obtain ⟨j1, k, hc, hs, hk1, hk2, hj1, hj2⟩ := ih (I / 2) f (by omega) (by omega)
      have hk3 : 2 ^ m ≤ 2 ^ (m + 1) := Nat.pow_le_pow_right (by norm_num) (by omega)
      refine ⟨j1, k, ?_, by rw [e2]; exact hs, hk1, by omega, hj1, hj2⟩
      have e3 : 2 ^ (m + 1) + bitrev (m + 1) (I / 2) + 1 - 2 ^ (m + 1)
          = bitrev (m + 1) (I / 2) + 1 := by omega
      have e4 : 2 ^ (m + 1) >>> 1 = 2 ^ m := by
        rw [Nat.shiftRight_eq_div_pow, pow_succ]; simp
      rw [e1, carryLoop, if_pos (by omega), e3, e4]
      exact hc

theorem permCounters_spec (m : Nat) :
    ∀ cnt t, t + cnt = 2 ^ (m + 1) - 1 →
      ∃ tr, permCounters (2 ^ m) cnt (t + 1) (bitrev (m + 1) t + 1) = some tr
        ∧ tr.length = cnt
        ∧ ∀ e ∈ tr, t + 1 ≤ e.1 ∧ e.1 < 2 ^ (m + 1)
            ∧ e.2.1 = bitrev (m + 1) (e.1 - 1) + 1
            ∧ 1 ≤ e.2.2.2 ∧ e.2.2.2 ≤ 2 ^ m ∧ 1 ≤ e.2.2.1 ∧ e.2.2.1 ≤ e.2.2.2 := by
  intro cnt
  induction cnt with
  | zero =>
    intro t _
    exact ⟨[], rfl, rfl, by simp⟩
  | succ cnt ih =>
    intro t ht
    have hpos : 0 < 2 ^ (m + 1) := Nat.two_pow_pos _
    have hfuel : m + 1 ≤ 2 ^ m + 1 := by
      have := @Nat.lt_two_pow m
      omega
    obtain ⟨j1, k, hc, hjk, hk1, hk2, hj1, hj2⟩ :=
      carryLoop_exit m t (2 ^ m + 1) (by omega) hfuel
    obtain ⟨tr, htr, hlen, hall⟩ := ih (t + 1) (by omega)
    rw [← hjk] at htr
    refine ⟨(t + 1, bitrev (m + 1) t + 1, j1, k) :: tr, ?_, by simp [hlen], ?_⟩
    · rw [permCounters]
      simp only [hc, htr]
    · intro e he
      rcases List.mem_cons.mp he with rfl | he
      · exact ⟨le_refl _, by omega, by simp, hk1, hk2, hj1, hj2⟩
      · obtain ⟨a, b⟩ := hall e he
        exact ⟨by omega, b⟩

/-- An accepted call on buffers of at least `N` elements each goes through its
three phases and returns true; the buffers keep their lengths. -/
theorem FFT_run_ge (cv : Int → Int) (m : Nat) (LogN Ft_Flag : Int) (R I : List Int)
    (hm1 : 1 ≤ m) (hm : m ≤ 14) (hL1 : 2 ≤ LogN) (hL2 : LogN ≤ 14)
    (hF : Ft_Flag = FT_DIRECT ∨ Ft_Flag = FT_INVERSE)
    (hR : 2 ^ m ≤ R.length) (hI : 2 ^ m ≤ I.length) :
    ∃ S P Q, stages cv (2 ^ m) LogN.toNat Ft_Flag (R, I) = some S
      ∧ permute (2 ^ m) S = some P
      ∧ (Ft_Flag = FT_INVERSE → Q = P)
      ∧ (Ft_Flag ≠ FT_INVERSE → normalize cv (2 ^ m) P = some Q)
      ∧ Q.1.length = R.length ∧ Q.2.length = I.length
      ∧ FFT cv (some R) (some I) (2 ^ m) LogN Ft_Flag = some ⟨true, some Q.1, some Q.2⟩ := by
  obtain ⟨S, hS, s1, s2⟩ := stages_total cv m LogN.toNat Ft_Flag (by omega) (R, I) R.length
    I.length hR hI rfl rfl
  obtain ⟨P, hP, p1, p2, -, -⟩ := permute_spec m R.length I.length hm1 S hR hI s1 s2
  obtain ⟨Q, hQ, q1, q2, -, -⟩ := normLoop_spec cv (2 ^ m) R.length I.length hR hI (2 ^ m) 0 P
    (by omega) p1 p2
  by_cases hinv : Ft_Flag = FT_INVERSE
  · refine ⟨S, P, P, hS, hP, fun _ => rfl, fun h => absurd hinv h, p1, p2, ?_⟩
    rw [FFT_accepted cv m LogN Ft_Flag R I hm1 hm hL1 hL2 hF, hS]
    simp only [hP, if_pos hinv]
  · refine ⟨S, P, Q, hS, hP, fun h => absurd h hinv, fun _ => hQ, q1, q2, ?_⟩
    rw [FFT_accepted cv m LogN Ft_Flag R I hm1 hm hL1 hL2 hF, hS]
    simp only [hP, if_neg hinv, normalize, hQ]

theorem pow_two_le_16384 (k : Nat) (h : (2 : Int) ^ k ≤ 16384) : k ≤ 14 := by
  by_contra hk
  have h1 : (2 : Int) ^ 15 ≤ 2 ^ k := pow_le_pow_right₀ (by norm_num) (by omega)
  norm_num at h1
  omega

/-- Every call either is turned down by the validation or is an accepted call
with `N = 2 ^ m`, `m` in [1,14]. -/
theorem FFT_cases (cv : Int → Int) (R I : List Int) (N LogN Ft_Flag : Int) :
    FFT cv (some R) (some I) N LogN Ft_Flag = some ⟨false, some R, some I⟩
      ∨ ∃ m : Nat, 1 ≤ m ∧ m ≤ 14 ∧ N = 2 ^ m ∧ 2 ≤ LogN ∧ LogN ≤ 14
          ∧ (Ft_Flag = FT_DIRECT ∨ Ft_Flag = FT_INVERSE) := by
  by_cases hN : N < 2 ∨ 16384 < N ∨ ¬ ∃ k : Nat, N = 2 ^ k
  · exact Or.inl (FFT_bad_N cv _ _ N LogN Ft_Flag hN)
  · by_cases hL : LogN < 2 ∨ LogN > 14
    · left
      simp only [FFT, if_pos hL]
      split_ifs <;> rfl
    · by_cases hF : Ft_Flag ≠ FT_DIRECT ∧ Ft_Flag ≠ FT_INVERSE
      · left
        simp only [FFT, if_pos hF]
        split_ifs <;> rfl
      · right
        simp only [not_or, not_not, not_lt] at hN
        obtain ⟨h2, h16, k, hk⟩ := hN
        have hk14 : k ≤ 14 := pow_two_le_16384 k (by rw [← hk]; exact h16)
        have hk1 : 1 ≤ k := by
          rcases k with _ | k
          · simp at hk; omega
          · omega
        refine ⟨k, hk1, hk14, hk, by omega, by omega, ?_⟩
        by_contra hc
        exact hF ⟨fun h => hc (Or.inl h), fun h => hc (Or.inr h)⟩

/-- C15: every call on buffers of at least `N` elements terminates, whether
its parameters are valid or not; for every power of two `N = 2 ^ m`, `m` in
[1,14], the `while (k < j)` loop of the reordering is left with `k ≥ 1` on
every iteration `i` in [1, N-1]; and with `ie < 2` the `j` loop makes no
iteration, so the butterfly loop `for (i = j; i < N; i += ie)` is entered only
with `ie ≥ 2`. -/
theorem FFT_terminates (cv : Int → Int) (Rdat Idat : Option (List Int)) (N LogN Ft_Flag : Int)
    (hR : ∀ R, Rdat = some R → N.toNat ≤ R.length)
    (hI : ∀ I, Idat = some I → N.toNat ≤ I.length) :
    (∃ o, FFT cv Rdat Idat N LogN Ft_Flag = some o)
      ∧ (∀ m, 1 ≤ m → m ≤ 14 →
          ∃ tr, permCounters (2 ^ m >>> 1) (2 ^ m - 1) 1 1 = some tr
            ∧ tr.length = 2 ^ m - 1
            ∧ ∀ e ∈ tr, 1 ≤ e.1 ∧ e.1 ≤ 2 ^ m - 1 ∧ 1 ≤ e.2.2.2)
      ∧ (∀ (M ie : Nat) (rw iw : Int) (s : Bufs), ie < 2 →
          jLoop cv M ie (ie >>> 1) rw iw (ie >>> 1) 0 1 0 s = some s) := by
  refine ⟨?_, ?_, ?_⟩
  · rcases Rdat with _ | R
    · exact ⟨⟨false, none, Idat⟩, by simp [FFT]⟩
    · rcases Idat with _ | I
      · exact ⟨⟨false, some R, none⟩, by simp [FFT]⟩
      · rcases FFT_cases cv R I N LogN Ft_Flag with h | ⟨m, hm1, hm, rfl, hL1, hL2, hF⟩
        · exact ⟨_, h⟩
        · have hnat : ((2 : Int) ^ m).toNat = 2 ^ m := by
            have e : ((2 : Int) ^ m) = ((2 ^ m : Nat) : Int) := by push_cast; rfl
            rw [e, Int.toNat_natCast]
          have h1 := hR R rfl
          have h2 := hI I rfl
          rw [hnat] at h1 h2
          obtain ⟨S, P, Q, -, -, -, -, -, -, h⟩ :=
            FFT_run_ge cv m LogN Ft_Flag R I hm1 hm hL1 hL2 hF h1 h2
          exact ⟨_, h⟩
  · intro m hm1 _
    obtain ⟨k, rfl⟩ : ∃ k, m = k + 1 := ⟨m - 1, by omega⟩
    have hnn : 2 ^ (k + 1) >>> 1 = 2 ^ k := by
      rw [Nat.shiftRight_eq_div_pow, pow_succ]; simp
    obtain ⟨tr, htr, hlen, hall⟩ := permCounters_spec k (2 ^ (k + 1) - 1) 0 (by omega)
    rw [bitrev_zero] at htr
    refine ⟨tr, by rw [hnn]; exact htr, hlen, ?_⟩
    intro e he
    obtain ⟨a, b, -, c, -⟩ := hall e he
    exact ⟨a, by omega, c⟩
  · intro M ie rw iw s hie
    have : ie >>> 1 = 0 := by
      rw [Nat.shiftRight_eq_div_pow]; omega
    rw [this]; rfl

theorem FFT_terminates_witness :
    (∃ o, FFT wrap16 (some [1, 2, 3, 4]) (some [5, 6, 7, 8]) 4 2 FT_DIRECT = some o)
      ∧ (∀ m, 1 ≤ m → m ≤ 14 →
          ∃ tr, permCounters (2 ^ m >>> 1) (2 ^ m - 1) 1 1 = some tr
            ∧ tr.length = 2 ^ m - 1
            ∧ ∀ e ∈ tr, 1 ≤ e.1 ∧ e.1 ≤ 2 ^ m - 1 ∧ 1 ≤ e.2.2.2)
      ∧ (∀ (M ie : Nat) (rw iw : Int) (s : Bufs), ie < 2 →
          jLoop wrap16 M ie (ie >>> 1) rw iw (ie >>> 1) 0 1 0 s = some s) :=
  FFT_terminates wrap16 (some [1, 2, 3, 4]) (some [5, 6, 7, 8]) 4 2 FT_DIRECT
    (by intro R h; cases h; decide) (by intro I h; cases h; decide)

/-- C20: on buffers of at least `N` elements, the call returns true if and
only if both buffers are present, `N` is a power of two with
`2 ≤ N ≤ 16384`, `2 ≤ LogN ≤ 14` and the flag is -1 or 1.  `N` is never
compared with `LogN`: the calls with `N = 8`, `LogN = 5` and with `N = 2`,
`LogN = 14` are accepted and transform the buffers. -/
theorem FFT_true_iff (cv : Int → Int) (Rdat Idat : Option (List Int)) (N LogN Ft_Flag : Int)
    (hR : ∀ R, Rdat = some R → N.toNat ≤ R.length)
    (hI : ∀ I, Idat = some I → N.toNat ≤ I.length) :
    ((∃ o, FFT cv Rdat Idat N LogN Ft_Flag = some o ∧ o.ret = true)
        ↔ (Rdat ≠ none ∧ Idat ≠ none ∧ (∃ k : Nat, N = 2 ^ k) ∧ 2 ≤ N ∧ N ≤ 16384
            ∧ 2 ≤ LogN ∧ LogN ≤ 14 ∧ (Ft_Flag = -1 ∨ Ft_Flag = 1)))
      ∧ FFT id (some [1, 2, 3, 4, 5, 6, 7, 8]) (some [0, 0, 0, 0, 0, 0, 0, 0]) 8 5 FT_INVERSE
          = some ⟨true,
              some [36, -228566417472, -15140, 625419893633688, -4, 228442434360, 15132,
                -625419769650592],
              some [0, -152700089196, -6268, 935786363563684, 0, 152648735868, 6268,
                -935786312210356]⟩
      ∧ FFT id (some [3, 5]) (some [1, 1]) 2 14 FT_INVERSE
          = some ⟨true, some [8, -2], some [2, 0]⟩ := by
  refine ⟨⟨?_, ?_⟩, by decide, by decide⟩
  · rintro ⟨o, ho, hret⟩
    rcases Rdat with _ | R
    · simp [FFT] at ho
      rw [← ho] at hret; cases hret
    · rcases Idat with _ | I
      · simp [FFT] at ho
        rw [← ho] at hret; cases hret
      · rcases FFT_cases cv R I N LogN Ft_Flag with h | ⟨m, hm1, hm, rfl, hL1, hL2, hF⟩
        · rw [h] at ho
          cases ho; cases hret
        · have hle : (2 : Int) ^ m ≤ 2 ^ 14 := pow_le_pow_right₀ (by norm_num) hm
          have hge : (2 : Int) ^ 1 ≤ 2 ^ m := pow_le_pow_right₀ (by norm_num) hm1
          norm_num at hle hge
          exact ⟨by simp, by simp, ⟨m, rfl⟩, hge, hle, hL1, hL2, hF⟩
  · rintro ⟨hRn, hIn, ⟨k, rfl⟩, h2, h16, hL1, hL2, hF⟩
    obtain ⟨R, rfl⟩ := Option.ne_none_iff_exists'.mp hRn
    obtain ⟨I, rfl⟩ := Option.ne_none_iff_exists'.mp hIn
    have hk14 : k ≤ 14 := pow_two_le_16384 k h16
    have hk1 : 1 ≤ k := by
      rcases k with _ | k
      · simp at h2
      · omega
    have hnat : ((2 : Int) ^ k).toNat = 2 ^ k := by
      have e : ((2 : Int) ^ k) = ((2 ^ k : Nat) : Int) := by push_cast; rfl
      rw [e, Int.toNat_natCast]
    have h1 := hR R rfl
    have h2 := hI I rfl
    rw [hnat] at h1 h2
    obtain ⟨S, P, Q, -, -, -, -, -, -, h⟩ :=
      FFT_run_ge cv k LogN Ft_Flag R I hk1 hk14 hL1 hL2 hF h1 h2
    exact ⟨_, h, rfl⟩

theorem FFT_true_iff_witness :
    ((∃ o, FFT id (some [1, 2, 3, 4]) (some [5, 6, 7, 8]) 4 3 1 = some o ∧ o.ret = true)
        ↔ ((some [1, 2, 3, 4] : Option (List Int)) ≠ none
            ∧ (some [5, 6, 7, 8] : Option (List Int)) ≠ none
            ∧ (∃ k : Nat, (4 : Int) = 2 ^ k) ∧ 2 ≤ (4 : Int) ∧ (4 : Int) ≤ 16384
            ∧ 2 ≤ (3 : Int) ∧ (3 : Int) ≤ 14 ∧ ((1 : Int) = -1 ∨ (1 : Int) = 1)))
      ∧ FFT id (some [1, 2, 3, 4, 5, 6, 7, 8]) (some [0, 0, 0, 0, 0, 0, 0, 0]) 8 5 FT_INVERSE
          = some ⟨true,
              some [36, -228566417472, -15140, 625419893633688, -4, 228442434360, 15132,
                -625419769650592],
              some [0, -152700089196, -6268, 935786363563684, 0, 152648735868, 6268,
                -935786312210356]⟩
      ∧ FFT id (some [3, 5]) (some [1, 1]) 2 14 FT_INVERSE
          = some ⟨true, some [8, -2], some [2, 0]⟩ :=
  FFT_true_iff id (some [1, 2, 3, 4]) (some [5, 6, 7, 8]) 4 3 1
    (by intro R h; cases h; decide) (by intro I h; cases h; decide)

/-! ## Stage postcondition, running rotation and stage selection -/

theorem jLoop_split (cv : Int → Int) (N ie h : Nat) (rw iw : Int) :
    ∀ d cnt j0 ru iu (s : Bufs),
      jLoop cv N ie h rw iw (d + cnt) j0 ru iu s
        = (jLoop cv N ie h rw iw d j0 ru iu s).bind (fun s1 =>
            jLoop cv N ie h rw iw cnt (j0 + d) ((twNext cv rw iw)^[d] (ru, iu)).1
              ((twNext cv rw iw)^[d] (ru, iu)).2 s1) := by
  intro d
  induction d with
  | zero =>
    intro cnt j0 ru iu s
    simp [jLoop]
  | succ d ih =>
    intro cnt j0 ru iu s
    have e : d + 1 + cnt = (d + cnt) + 1 := by omega
    rw [e, jLoop, jLoop]
    cases hi : innerLoop cv N ie h ru iu N j0 s with
    | none => rfl
    | some s1 =>
      simp only []
      rw [ih cnt (j0 + 1) _ _ s1, Function.iterate_succ_apply]
      have e2 : j0 + 1 + d = j0 + (d + 1) := by omega
      rw [e2]
      rfl

theorem twiddle_gaussian (rw iw : Int) (j : Nat) :
    (⟨((twNext id rw iw)^[j] (1, 0)).1, ((twNext id rw iw)^[j] (1, 0)).2⟩ : GaussianInt)
      = (⟨rw, iw⟩ : GaussianInt) ^ j := by
  induction j with
  | zero => rfl
  | succ j ih =>
    rw [Function.iterate_succ_apply', pow_succ, ← ih]
    apply Zsqrtd.ext
    · simp [twNext, Zsqrtd.mul_re]; ring
    · simp [twNext, Zsqrtd.mul_im]; ring

/-- C17: in exact integer arithmetic the running rotation of a stage with base
twiddle `(rw, iw)` starts at `(1, 0)`; the value `(ru_j, iu_j)` with which the
`j` loop reaches offset `j` (and which the butterflies of that offset use) is
the `j`-th power of `rw + i * iw` as a Gaussian integer; and the update is
simultaneous: `ru_(j+1) = ru_j * rw - iu_j * iw` and
`iu_(j+1) = iu_j * rw + ru_j * iw`, both from the old `ru_j`. -/
theorem twiddle_recurrence (rw iw : Int) (j : Nat) :
    (twNext id rw iw)^[0] (1, 0) = (1, 0)
      ∧ (⟨((twNext id rw iw)^[j] (1, 0)).1, ((twNext id rw iw)^[j] (1, 0)).2⟩ : GaussianInt)
          = (⟨rw, iw⟩ : GaussianInt) ^ j
      ∧ (twNext id rw iw)^[j + 1] (1, 0)
          = (((twNext id rw iw)^[j] (1, 0)).1 * rw - ((twNext id rw iw)^[j] (1, 0)).2 * iw,
             ((twNext id rw iw)^[j] (1, 0)).2 * rw + ((twNext id rw iw)^[j] (1, 0)).1 * iw)
      ∧ (∀ (N ie h cnt : Nat) (s : Bufs),
          jLoop id N ie h rw iw (j + cnt) 0 1 0 s
            = (jLoop id N ie h rw iw j 0 1 0 s).bind (fun s1 =>
                jLoop id N ie h rw iw cnt j ((twNext id rw iw)^[j] (1, 0)).1
                  ((twNext id rw iw)^[j] (1, 0)).2 s1))
      ∧ (∀ (N ie h cnt j0 : Nat) (ru iu : Int) (s : Bufs),
          jLoop id N ie h rw iw (cnt + 1) j0 ru iu s
            = (innerLoop id N ie h ru iu N j0 s).bind (fun s1 =>
                jLoop id N ie h rw iw cnt (j0 + 1) (ru * rw - iu * iw) (iu * rw + ru * iw)
                  s1)) := by
  refine ⟨rfl, twiddle_gaussian rw iw j, ?_, ?_, ?_⟩
  · rw [Function.iterate_succ_apply']
    rfl
  · intro N ie h cnt s
    have := jLoop_split id N ie h rw iw j cnt 0 1 0 s
    rw [Nat.zero_add] at this
    exact this
  · intro N ie h cnt j0 ru iu s
    rw [jLoop]
    cases innerLoop id N ie h ru iu N j0 s <;> rfl

theorem foldlM_congr_mem (l : List Nat) (f g : Bufs → Nat → Option Bufs) (s : Bufs)
    (h : ∀ k ∈ l, ∀ t, f t k = g t k) : l.foldlM f s = l.foldlM g s := by
  induction l generalizing s with
  | nil => rfl
  | cons a l ih =>
    simp only [List.foldlM_cons]
    rw [h a (List.mem_cons_self a l) s]
    cases g s a with
    | none => rfl
    | some t =>
      exact ih t (fun k hk u => h k (List.mem_cons_of_mem a hk) u)

theorem stageLoop_unroll (cv : Int → Int) (N LogN : Nat) (Ft_Flag : Int) (hLog : LogN ≤ 14) :
    ∀ cnt n (s : Bufs), 1 ≤ n → n + cnt = LogN + 1 →
      stageLoop cv N LogN Ft_Flag cnt n (N >>> (n - 1)) s
        = (List.range' n cnt).foldlM (fun t k =>
            jLoop cv N (N >>> (k - 1)) ((N >>> (k - 1)) >>> 1) (Rcoef.getD (LogN - k) 0)
              (iwOf cv Ft_Flag (Icoef.getD (LogN - k) 0)) ((N >>> (k - 1)) >>> 1) 0 1 0 t) s := by
  intro cnt
  induction cnt with
  | zero =>
    intro n s _ _
    rfl
  | succ cnt ih =>
    intro n s hn1 hn
    have hnext : (N >>> (n - 1)) >>> 1 = N >>> (n + 1 - 1) := by
      rw [← Nat.shiftRight_add]
      congr 1; omega
    rw [List.range'_succ, List.foldlM_cons, stageLoop]
    simp only [tableAt_sub _ LogN n (by omega), Rcoef_get (LogN - n) (by omega),
      Icoef_get (LogN - n) (by omega)]
    rw [← iwOf]
    cases hj : jLoop cv N (N >>> (n - 1)) ((N >>> (n - 1)) >>> 1) (Rcoef.getD (LogN - n) 0)
        (iwOf cv Ft_Flag (Icoef.getD (LogN - n) 0)) ((N >>> (n - 1)) >>> 1) 0 1 0 s with
    | none => rfl
    | some s1 =>
      simp only []
      rw [hnext, ih (n + 1) s1 (by omega) (by omega)]
      rfl

theorem Icoef_abs_le (k : Nat) : |Icoef.getD k 0| ≤ 4096 := by
  by_cases hk : k < 14
  · interval_cases k <;> simp [Icoef]
  · have : Icoef.getD k 0 = 0 := by
      rw [List.getD_eq_getElem?_getD, List.getElem?_eq_none (by simp [Icoef]; omega)]
      rfl
    rw [this]; norm_num

/-- C18: in a valid call (`N = 2 ^ logN`, `logN` in [2,14]) the stage loop is
the sequence of the `logN` stages `n = 1, ..., logN`; stage `n` has block size
`N / 2 ^ (n - 1)`, half block `2 ^ (logN - n)` and base twiddle
`rw = Rcoef[logN - n]`, `iw = Icoef[logN - n]` for the forward direction and
`iw = -Icoef[logN - n]` for the inverse one (the scalar type holds the table
values and their negations); the last stage has half block 1 and reads entry
0, which is `(-4096, 0)`. -/
theorem stage_selection (cv : Int → Int) (logN : Nat) (Ft_Flag : Int) (s : Bufs)
    (_h2 : 2 ≤ logN) (h14 : logN ≤ 14) (hcv : ∀ x : Int, |x| ≤ 4096 → cv x = x) :
    stages cv (2 ^ logN) logN Ft_Flag s
        = (List.range' 1 logN).foldlM (fun t n =>
            jLoop cv (2 ^ logN) (2 ^ logN / 2 ^ (n - 1)) (2 ^ (logN - n))
              (Rcoef.getD (logN - n) 0)
              (if Ft_Flag = FT_INVERSE then -(Icoef.getD (logN - n) 0)
                else Icoef.getD (logN - n) 0)
              (2 ^ (logN - n)) 0 1 0 t) s
      ∧ List.range' 1 logN = (List.range logN).map (fun i => i + 1)
      ∧ (∀ n, 1 ≤ n → n ≤ logN → 2 * 2 ^ (logN - n) = 2 ^ logN / 2 ^ (n - 1))
      ∧ 2 ^ (logN - logN) = 1
      ∧ Rcoef.getD (logN - logN) 0 = -4096 ∧ Icoef.getD (logN - logN) 0 = 0 := by
  have hblock : ∀ n, 1 ≤ n → n ≤ logN → 2 * 2 ^ (logN - n) = 2 ^ logN / 2 ^ (n - 1) := by
    intro n hn1 hn
    rw [Nat.pow_div (by omega) (by norm_num), ← pow_succ']
    congr 1; omega
  refine ⟨?_, ?_, hblock, by simp, by simp [Rcoef], by simp [Icoef]⟩
  · have h := stageLoop_unroll cv (2 ^ logN) logN Ft_Flag h14 logN 1 s (le_refl 1) (by omega)
    rw [Nat.sub_self, Nat.shiftRight_zero] at h
    rw [stages, h]
    apply foldlM_congr_mem
    intro k hk t
    rw [List.mem_range'_1] at hk
    have e1 : 2 ^ logN >>> (k - 1) = 2 ^ logN / 2 ^ (k - 1) := Nat.shiftRight_eq_div_pow _ _
    have e2 : (2 ^ logN >>> (k - 1)) >>> 1 = 2 ^ (logN - k) := by
      rw [e1, ← hblock k hk.1 (by omega), Nat.shiftRight_eq_div_pow]
      omega
    have e3 : iwOf cv Ft_Flag (Icoef.getD (logN - k) 0)
        = if Ft_Flag = FT_INVERSE then -(Icoef.getD (logN - k) 0)
            else Icoef.getD (logN - k) 0 := by
      rw [iwOf, hcv _ (by rw [abs_neg]; exact Icoef_abs_le _)]
    rw [e2, e1, e3]
  · rw [List.range'_eq_map_range]
    apply List.map_congr_left
    intro a _
    omega

theorem stage_selection_witness :
    stages id (2 ^ 2) 2 FT_INVERSE ([1, 2, 3, 4], [5, 6, 7, 8])
        = (List.range' 1 2).foldlM (fun t n =>
            jLoop id (2 ^ 2) (2 ^ 2 / 2 ^ (n - 1)) (2 ^ (2 - n))
              (Rcoef.getD (2 - n) 0)
              (if FT_INVERSE = FT_INVERSE then -(Icoef.getD (2 - n) 0)
                else Icoef.getD (2 - n) 0)
              (2 ^ (2 - n)) 0 1 0 t) ([1, 2, 3, 4], [5, 6, 7, 8])
      ∧ List.range' 1 2 = (List.range 2).map (fun i => i + 1)
      ∧ (∀ n, 1 ≤ n → n ≤ 2 → 2 * 2 ^ (2 - n) = 2 ^ 2 / 2 ^ (n - 1))
      ∧ 2 ^ (2 - 2) = 1
      ∧ Rcoef.getD (2 - 2) 0 = -4096 ∧ Icoef.getD (2 - 2) 0 = 0 :=
  stage_selection id 2 FT_INVERSE ([1, 2, 3, 4], [5, 6, 7, 8]) (by decide) (by decide)
    (fun _ _ => rfl)

/-! ## Additivity -/

theorem tdiv_bounds (x n : Int) (hn : 0 < n) :
    (0 ≤ x → n * x.tdiv n ≤ x ∧ x < n * x.tdiv n + n)
      ∧ (x ≤ 0 → x ≤ n * x.tdiv n ∧ n * x.tdiv n - n < x) := by
  constructor
  · intro hx
    rw [Int.tdiv_eq_ediv hx (le_of_lt hn)]
    have h1 := Int.ediv_add_emod x n
    have h2 := Int.emod_nonneg x (ne_of_gt hn)
    have h3 := Int.emod_lt_of_pos x hn
    constructor <;> omega
  · intro hx
    obtain ⟨y, rfl⟩ : ∃ y, x = -y := ⟨-x, by omega⟩
    have hy : 0 ≤ y := by omega
    rw [Int.neg_tdiv, Int.tdiv_eq_ediv hy (le_of_lt hn)]
    have h1 := Int.ediv_add_emod y n
    have h2 := Int.emod_nonneg y (ne_of_gt hn)
    have h3 := Int.emod_lt_of_pos y hn
    have h4 : n * -(y / n) = -(n * (y / n)) := by ring
    rw [h4]
    constructor <;> omega

theorem tdiv_add_within_one (a b n : Int) (hn : 0 < n) :
    |(a + b).tdiv n - (a.tdiv n + b.tdiv n)| ≤ 1 := by
  obtain ⟨ap, an⟩ := tdiv_bounds a n hn
  obtain ⟨bp, bn⟩ := tdiv_bounds b n hn
  obtain ⟨cp, cn⟩ := tdiv_bounds (a + b) n hn
  have hd : n * ((a + b).tdiv n - (a.tdiv n + b.tdiv n))
      = n * (a + b).tdiv n - n * a.tdiv n - n * b.tdiv n := by ring
  have key : -(2 * n) < n * ((a + b).tdiv n - (a.tdiv n + b.tdiv n))
      ∧ n * ((a + b).tdiv n - (a.tdiv n + b.tdiv n)) < 2 * n := by
    rw [hd]
    rcases le_total 0 a with ha | ha
    · have h1 := ap ha
      rcases le_total 0 b with hb | hb
      · have h2 := bp hb
        rcases le_total 0 (a + b) with hc | hc
        · have h3 := cp hc
          constructor <;> omega
        · have h3 := cn hc
          constructor <;> omega
      · have h2 := bn hb
        rcases le_total 0 (a + b) with hc | hc
        · have h3 := cp hc
          constructor <;> omega
        · have h3 := cn hc
          constructor <;> omega
    · have h1 := an ha
      rcases le_total 0 b with hb | hb
      · have h2 := bp hb
        rcases le_total 0 (a + b) with hc | hc
        · have h3 := cp hc
          constructor <;> omega
        · have h3 := cn hc
          constructor <;> omega
      · have h2 := bn hb
        rcases le_total 0 (a + b) with hc | hc
        · have h3 := cp hc
          constructor <;> omega
        · have h3 := cn hc
          constructor <;> omega
  generalize (a + b).tdiv n - (a.tdiv n + b.tdiv n) = d at key
  rw [abs_le]
  constructor
  · by_contra hlt
    have h2 : d ≤ -2 := by omega
    have := mul_le_mul_of_nonneg_left h2 (le_of_lt hn)
    omega
  · by_contra hlt
    have h2 : 2 ≤ d := by omega
    have := mul_le_mul_of_nonneg_left h2 (le_of_lt hn)
    omega

theorem addBuf_getElem (x y : List Int) (i : Nat) (a b : Int)
    (hx : x[i]? = some a) (hy : y[i]? = some b) : (addBuf x y)[i]? = some (a + b) := by
  rw [addBuf, List.getElem?_zipWith, hx, hy]

theorem addBuf_set (x y : List Int) (i : Nat) (a b : Int) :
    addBuf (x.set i a) (y.set i b) = (addBuf x y).set i (a + b) := by
  induction x generalizing y i with
  | nil => simp [addBuf]
  | cons u x ih =>
    cases y with
    | nil => simp [addBuf]
    | cons v y =>
      cases i with
      | zero => simp [addBuf]
      | succ i =>
        have := ih y i
        simp only [addBuf] at this ⊢
        simp [this]

theorem addBuf_length (x y : List Int) (N : Nat) (hx : x.length = N) (hy : y.length = N) :
    (addBuf x y).length = N := by
  simp [addBuf, hx, hy]

theorem addBuf_getD (x y : List Int) (p : Nat) (h : x.length = y.length) :
    (addBuf x y).getD p 0 = x.getD p 0 + y.getD p 0 := by
  by_cases hp : p < x.length
  · have h1 := getElem_opt_eq_getD x p hp
    have h2 := getElem_opt_eq_getD y p (by omega)
    rw [List.getD_eq_getElem?_getD (addBuf x y), addBuf_getElem x y p _ _ h1 h2]
    rfl
  · have e1 : x.getD p 0 = 0 := by
      rw [List.getD_eq_getElem?_getD, List.getElem?_eq_none (by omega)]; rfl
    have e2 : y.getD p 0 = 0 := by
      rw [List.getD_eq_getElem?_getD, List.getElem?_eq_none (by omega)]; rfl
    have e3 : (addBuf x y).getD p 0 = 0 := by
      rw [List.getD_eq_getElem?_getD, List.getElem?_eq_none (by simp [addBuf]; omega)]; rfl
    rw [e1, e2, e3]; rfl

theorem butterfly_add (ru iu : Int) (i io : Nat) (s t s1 t1 : Bufs)
    (hs : butterfly id ru iu i io s = some s1) (ht : butterfly id ru iu i io t = some t1) :
    butterfly id ru iu i io (addBufs s t) = some (addBufs s1 t1) := by
  unfold butterfly at hs ht ⊢
  split at hs
  · rename_i a1 a2 a3 a4 e1 e2 e3 e4
    split at ht
    · rename_i b1 b2 b3 b4 f1 f2 f3 f4
      simp only [Option.some.injEq, id] at hs ht
      subst hs ht
      simp only [addBufs, addBuf_getElem _ _ _ _ _ e1 f1, addBuf_getElem _ _ _ _ _ e2 f2,
        addBuf_getElem _ _ _ _ _ e3 f3, addBuf_getElem _ _ _ _ _ e4 f4, addBuf_set, id]
      have q1 : (a1 + b1 - (a2 + b2)) * ru - (a3 + b3 - (a4 + b4)) * iu
          = (a1 - a2) * ru - (a3 - a4) * iu + ((b1 - b2) * ru - (b3 - b4) * iu) := by ring
      have q2 : (a3 + b3 - (a4 + b4)) * ru + (a1 + b1 - (a2 + b2)) * iu
          = (a3 - a4) * ru + (a1 - a2) * iu + ((b3 - b4) * ru + (b1 - b2) * iu) := by ring
      have q3 : a1 + b1 + (a2 + b2) = a1 + a2 + (b1 + b2) := by ring
      have q4 : a3 + b3 + (a4 + b4) = a3 + a4 + (b3 + b4) := by ring
      rw [q1, q2, q3, q4]
    · cases ht
  · cases hs

theorem innerLoop_add (N ie h : Nat) (ru iu : Int) :
    ∀ fuel i (s t s1 t1 : Bufs),
      innerLoop id N ie h ru iu fuel i s = some s1 →
      innerLoop id N ie h ru iu fuel i t = some t1 →
      innerLoop id N ie h ru iu fuel i (addBufs s t) = some (addBufs s1 t1) := by
  intro fuel
  induction fuel with
  | zero =>
    intro i s t s1 t1 hs ht
    simp only [innerLoop] at hs ht ⊢
    split_ifs at hs ht ⊢ with hi
    cases hs; cases ht; rfl
  | succ fuel ih =>
    intro i s t s1 t1 hs ht
    simp only [innerLoop] at hs ht ⊢
    split_ifs at hs ht ⊢ with hi
    · cases hbs : butterfly id ru iu i (i + h) s with
      | none => rw [hbs] at hs; cases hs
      | some s2 =>
        cases hbt : butterfly id ru iu i (i + h) t with
        | none => rw [hbt] at ht; cases ht
        | some t2 =>
          rw [hbs] at hs
          rw [hbt] at ht
          rw [butterfly_add ru iu i (i + h) s t s2 t2 hbs hbt]
          exact ih (i + ie) s2 t2 s1 t1 hs ht
    · cases hs; cases ht; rfl

theorem jLoop_add (N ie h : Nat) (rw iw : Int) :
    ∀ cnt j ru iu (s t s1 t1 : Bufs),
      jLoop id N ie h rw iw cnt j ru iu s = some s1 →
      jLoop id N ie h rw iw cnt j ru iu t = some t1 →
      jLoop id N ie h rw iw cnt j ru iu (addBufs s t) = some (addBufs s1 t1) := by
  intro cnt
  induction cnt with
  | zero =>
    intro j ru iu s t s1 t1 hs ht
    simp only [jLoop] at hs ht ⊢
    cases hs; cases ht; rfl
  | succ cnt ih =>
    intro j ru iu s t s1 t1 hs ht
    simp only [jLoop] at hs ht ⊢
    cases his : innerLoop id N ie h ru iu N j s with
    | none => rw [his] at hs; cases hs
    | some s2 =>
      cases hit : innerLoop id N ie h ru iu N j t with
      | none => rw [hit] at ht; cases ht
      | some t2 =>
        rw [his] at hs
        rw [hit] at ht
        rw [innerLoop_add N ie h ru iu N j s t s2 t2 his hit]
        exact ih _ _ _ s2 t2 s1 t1 hs ht

theorem stageLoop_add (N LogN : Nat) (Ft_Flag : Int) :
    ∀ cnt n ie (s t s1 t1 : Bufs),
      stageLoop id N LogN Ft_Flag cnt n ie s = some s1 →
      stageLoop id N LogN Ft_Flag cnt n ie t = some t1 →
      stageLoop id N LogN Ft_Flag cnt n ie (addBufs s t) = some (addBufs s1 t1) := by
  intro cnt
  induction cnt with
  | zero =>
    intro n ie s t s1 t1 hs ht
    simp only [stageLoop] at hs ht ⊢
    cases hs; cases ht; rfl
  | succ cnt ih =>
    intro n ie s t s1 t1 hs ht
    simp only [stageLoop] at hs ht ⊢
    split at hs
    · rename_i rw iw0 e1 e2
      simp only [e1, e2] at ht ⊢
      cases hjs : jLoop id N ie (ie >>> 1) rw (if Ft_Flag = FT_INVERSE then id (-iw0) else iw0)
          (ie >>> 1) 0 1 0 s with
      | none => rw [hjs] at hs; cases hs
      | some s2 =>
        cases hjt : jLoop id N ie (ie >>> 1) rw
            (if Ft_Flag = FT_INVERSE then id (-iw0) else iw0) (ie >>> 1) 0 1 0 t with
        | none => rw [hjt] at ht; cases ht
        | some t2 =>
          rw [hjs] at hs
          rw [hjt] at ht
          rw [jLoop_add N ie (ie >>> 1) rw _ (ie >>> 1) 0 1 0 s t s2 t2 hjs hjt]
          exact ih _ _ s2 t2 s1 t1 hs ht
    · cases hs

theorem swapStep_add (io in_ : Nat) (s t s1 t1 : Bufs)
    (hs : swapStep io in_ s = some s1) (ht : swapStep io in_ t = some t1) :
    swapStep io in_ (addBufs s t) = some (addBufs s1 t1) := by
  unfold swapStep at hs ht ⊢
  split at hs
  · rename_i a1 a2 a3 a4 e1 e2 e3 e4
    split at ht
    · rename_i b1 b2 b3 b4 f1 f2 f3 f4
      simp only [Option.some.injEq] at hs ht
      subst hs ht
      simp only [addBufs, addBuf_getElem _ _ _ _ _ e1 f1, addBuf_getElem _ _ _ _ _ e2 f2,
        addBuf_getElem _ _ _ _ _ e3 f3, addBuf_getElem _ _ _ _ _ e4 f4, addBuf_set]
    · cases ht
  · cases hs

theorem swapAt_add (io in_ : Int) (s t s1 t1 : Bufs)
    (hs : swapAt io in_ s = some s1) (ht : swapAt io in_ t = some t1) :
    swapAt io in_ (addBufs s t) = some (addBufs s1 t1) := by
  unfold swapAt at hs ht ⊢
  split_ifs at hs ht ⊢
  exact swapStep_add _ _ s t s1 t1 hs ht

theorem permLoop_add (nn : Nat) :
    ∀ cnt i j (s t s1 t1 : Bufs),
      permLoop nn cnt i j s = some s1 →
      permLoop nn cnt i j t = some t1 →
      permLoop nn cnt i j (addBufs s t) = some (addBufs s1 t1) := by
  intro cnt
  induction cnt with
  | zero =>
    intro i j s t s1 t1 hs ht
    simp only [permLoop] at hs ht ⊢
    cases hs; cases ht; rfl
  | succ cnt ih =>
    intro i j s t s1 t1 hs ht
    simp only [permLoop] at hs ht ⊢
    cases hss : (if i < j then swapAt ((i : Int) - 1) ((j : Int) - 1) s else some s) with
    | none => rw [hss] at hs; cases hs
    | some s2 =>
      cases hst : (if i < j then swapAt ((i : Int) - 1) ((j : Int) - 1) t else some t) with
      | none => rw [hst] at ht; cases ht
      | some t2 =>
        rw [hss] at hs
        rw [hst] at ht
        have hsum : (if i < j then swapAt ((i : Int) - 1) ((j : Int) - 1) (addBufs s t)
            else some (addBufs s t)) = some (addBufs s2 t2) := by
          split_ifs at hss hst ⊢ with hij
          · exact swapAt_add _ _ s t s2 t2 hss hst
          · cases hss; cases hst; rfl
        rw [hsum]
        cases hc : carryLoop (nn + 1) j nn with
        | none => rw [hc] at hs; cases hs
        | some jk =>
          rw [hc] at hs ht
          exact ih _ _ s2 t2 s1 t1 hs ht

/-- In exact integer arithmetic the stage loop followed by the reordering loop
is additive: run on an elementwise sum, they leave the elementwise sum of what
they leave on the two summands. -/
theorem stages_permute_add (N LogN : Nat) (Ft_Flag : Int) (s t s1 t1 p1 q1 : Bufs)
    (hs : stages id N LogN Ft_Flag s = some s1) (ht : stages id N LogN Ft_Flag t = some t1)
    (hp : permute N s1 = some p1) (hq : permute N t1 = some q1) :
    stages id N LogN Ft_Flag (addBufs s t) = some (addBufs s1 t1)
      ∧ permute N (addBufs s1 t1) = some (addBufs p1 q1) :=
  ⟨stageLoop_add N LogN Ft_Flag LogN 1 N s t s1 t1 hs ht,
   permLoop_add (N >>> 1) (N - 1) 1 1 s1 t1 p1 q1 hp hq⟩

/-- C11: in exact integer arithmetic, for every `logN` in [2,14],
`N = 2 ^ logN`, either direction and all inputs `x`, `y` of length `N`, the
three calls on `x`, on `y` and on the elementwise sum `x + y` return true, and
every real and imaginary element of the transform of `x + y` differs from the
sum of the elements of the two transforms at the same position by at most 1. -/
theorem FFT_linear_within_one (logN : Nat) (Ft_Flag : Int) (xr xi yr yi : List Int)
    (h2 : 2 ≤ logN) (h14 : logN ≤ 14) (hF : Ft_Flag = FT_DIRECT ∨ Ft_Flag = FT_INVERSE)
    (hxr : xr.length = 2 ^ logN) (hxi : xi.length = 2 ^ logN)
    (hyr : yr.length = 2 ^ logN) (hyi : yi.length = 2 ^ logN) :
    ∃ Xr Xi Yr Yi Zr Zi,
      FFT id (some xr) (some xi) (2 ^ logN) logN Ft_Flag = some ⟨true, some Xr, some Xi⟩
      ∧ FFT id (some yr) (some yi) (2 ^ logN) logN Ft_Flag = some ⟨true, some Yr, some Yi⟩
      ∧ FFT id (some (List.zipWith (· + ·) xr yr)) (some (List.zipWith (· + ·) xi yi))
          (2 ^ logN) logN Ft_Flag = some ⟨true, some Zr, some Zi⟩
      ∧ ∀ p, p < 2 ^ logN →
          |Zr.getD p 0 - (Xr.getD p 0 + Yr.getD p 0)| ≤ 1
          ∧ |Zi.getD p 0 - (Xi.getD p 0 + Yi.getD p 0)| ≤ 1 := by
  obtain ⟨Sx, Px, hSx, -, -, hPx, px1, px2, -, hx⟩ :=
    FFT_run id logN logN Ft_Flag xr xi (by omega) h14 (by omega) (by omega) hF hxr hxi
  obtain ⟨Sy, Py, hSy, -, -, hPy, py1, py2, -, hy⟩ :=
    FFT_run id logN logN Ft_Flag yr yi (by omega) h14 (by omega) (by omega) hF hyr hyi
  obtain ⟨Sz, Pz, hSz, -, -, hPz, -, -, -, hz⟩ :=
    FFT_run id logN logN Ft_Flag (addBuf xr yr) (addBuf xi yi) (by omega) h14 (by omega)
      (by omega) hF (addBuf_length _ _ _ hxr hyr) (addBuf_length _ _ _ hxi hyi)
  obtain ⟨a1, a2⟩ := stages_permute_add (2 ^ logN) (logN : Int).toNat Ft_Flag (xr, xi) (yr, yi)
    Sx Sy Px Py hSx hSy hPx hPy
  have e1 : Sz = addBufs Sx Sy := by
    have : some Sz = some (addBufs Sx Sy) := by rw [← hSz, ← a1]; rfl
    exact Option.some.inj this
  subst e1
  have e2 : Pz = addBufs Px Py := by
    have : some Pz = some (addBufs Px Py) := by rw [← hPz, ← a2]
    exact Option.some.inj this
  subst e2
  refine ⟨_, _, _, _, _, _, hx, hy, hz, ?_⟩
  intro p hp
  have hpos : (0 : Int) < ((2 ^ logN : Nat) : Int) := by positivity
  by_cases hinv : Ft_Flag = FT_INVERSE
  · simp only [if_pos hinv, addBufs, addBuf_getD _ _ _ (px1.trans py1.symm),
      addBuf_getD _ _ _ (px2.trans py2.symm), sub_self, abs_zero]
    exact ⟨by norm_num, by norm_num⟩
  · simp only [if_neg hinv, addBufs]
    rw [getD_map (addBuf Px.1 Py.1) _ _ (by rw [addBuf_length _ _ _ px1 py1]; exact hp),
      getD_map (addBuf Px.2 Py.2) _ _ (by rw [addBuf_length _ _ _ px2 py2]; exact hp),
      getD_map Px.1 _ _ (by omega), getD_map Px.2 _ _ (by omega),
      getD_map Py.1 _ _ (by omega), getD_map Py.2 _ _ (by omega),
      addBuf_getD _ _ _ (px1.trans py1.symm), addBuf_getD _ _ _ (px2.trans py2.symm)]
    simp only [divN, id]
    exact ⟨tdiv_add_within_one _ _ _ hpos, tdiv_add_within_one _ _ _ hpos⟩

theorem FFT_linear_within_one_witness :
    ∃ Xr Xi Yr Yi Zr Zi,
      FFT id (some [5, 1, 2, 7]) (some [0, 3, 0, 1]) (2 ^ 2) (2 : Nat) FT_DIRECT
          = some ⟨true, some Xr, some Xi⟩
      ∧ FFT id (some [2, 2, 9, 1]) (some [1, 0, 4, 0]) (2 ^ 2) (2 : Nat) FT_DIRECT
          = some ⟨true, some Yr, some Yi⟩
      ∧ FFT id (some (List.zipWith (· + ·) [5, 1, 2, 7] [2, 2, 9, 1]))
          (some (List.zipWith (· + ·) [0, 3, 0, 1] [1, 0, 4, 0]))
          (2 ^ 2) (2 : Nat) FT_DIRECT = some ⟨true, some Zr, some Zi⟩
      ∧ ∀ p, p < 2 ^ 2 →
          |Zr.getD p 0 - (Xr.getD p 0 + Yr.getD p 0)| ≤ 1
          ∧ |Zi.getD p 0 - (Xi.getD p 0 + Yi.getD p 0)| ≤ 1 :=
  FFT_linear_within_one 2 FT_DIRECT [5, 1, 2, 7] [0, 3, 0, 1] [2, 2, 9, 1] [1, 0, 4, 0]
    (by decide) (by decide) (Or.inl rfl) rfl rfl rfl rfl

/-! ## The twiddle table -/

theorem cos_half_step (k : Nat) (lo hi lo1 hi1 : ℝ)
    (h : lo ≤ Real.cos (Real.pi / 2 ^ k) ∧ Real.cos (Real.pi / 2 ^ k) ≤ hi)
    (h1 : lo1 ^ 2 ≤ (1 + lo) / 2) (h2 : (1 + hi) / 2 ≤ hi1 ^ 2) (h3 : 0 ≤ hi1) :
    lo1 ≤ Real.cos (Real.pi / 2 ^ (k + 1)) ∧ Real.cos (Real.pi / 2 ^ (k + 1)) ≤ hi1 := by
  have hang : 2 * (Real.pi / 2 ^ (k + 1)) = Real.pi / 2 ^ k := by
    rw [pow_succ]; field_simp; ring
  have hsq : Real.cos (Real.pi / 2 ^ (k + 1)) ^ 2 = (1 + Real.cos (Real.pi / 2 ^ k)) / 2 := by
    rw [Real.cos_sq, hang]; ring
  have hpi := Real.pi_pos
  have hle : Real.pi / 2 ^ (k + 1) ≤ Real.pi / 2 := by
    apply div_le_div_of_nonneg_left (le_of_lt hpi) (by norm_num)
    calc (2 : ℝ) = 2 ^ 1 := by norm_num
      _ ≤ 2 ^ (k + 1) := pow_le_pow_right₀ (by norm_num) (by omega)
  have hnn : 0 ≤ Real.cos (Real.pi / 2 ^ (k + 1)) :=
    Real.cos_nonneg_of_neg_pi_div_two_le_of_le
      (le_trans (by linarith) (div_nonneg (le_of_lt hpi) (by positivity))) hle
  constructor
  · by_contra hc
    push_neg at hc
    nlinarith [h.1]
  · by_contra hc
    push_neg at hc
    nlinarith [h.2]

theorem sin_from_cos (k : Nat) (lo hi a b : ℝ)
    (h : lo ≤ Real.cos (Real.pi / 2 ^ k) ∧ Real.cos (Real.pi / 2 ^ k) ≤ hi)
    (hlo : 0 ≤ lo) (ha : 0 ≤ a) (h1 : a ^ 2 < 4096 ^ 2 * (1 - hi ^ 2))
    (h2 : 4096 ^ 2 * (1 - lo ^ 2) < b ^ 2) (hb : 0 ≤ b) :
    a < 4096 * Real.sin (Real.pi / 2 ^ k) ∧ 4096 * Real.sin (Real.pi / 2 ^ k) < b := by
  have hpi := Real.pi_pos
  have hle : Real.pi / 2 ^ k ≤ Real.pi :=
    div_le_self (le_of_lt hpi) (one_le_pow₀ (by norm_num))
  have hnn : 0 ≤ Real.sin (Real.pi / 2 ^ k) :=
    Real.sin_nonneg_of_nonneg_of_le_pi (div_nonneg (le_of_lt hpi) (by positivity)) hle
  have hsq := Real.sin_sq (Real.pi / 2 ^ k)
  have hc1 : Real.cos (Real.pi / 2 ^ k) ^ 2 ≤ hi ^ 2 :=
    pow_le_pow_left₀ (le_trans hlo h.1) h.2 2
  have hc2 : lo ^ 2 ≤ Real.cos (Real.pi / 2 ^ k) ^ 2 := pow_le_pow_left₀ hlo h.1 2
  constructor
  · by_contra hc
    push_neg at hc
    nlinarith
  · by_contra hc
    push_neg at hc
    nlinarith

theorem cos_table_1 :
    (0 : ℝ) ≤ Real.cos (Real.pi / 2 ^ 1) ∧ Real.cos (Real.pi / 2 ^ 1) ≤ (0 : ℝ) := by
  rw [pow_one, Real.cos_pi_div_two]
  exact ⟨le_refl _, le_refl _⟩

theorem cos_table_2 :
    (707106781186547 / 1000000000000000 : ℝ) ≤ Real.cos (Real.pi / 2 ^ 2)
      ∧ Real.cos (Real.pi / 2 ^ 2) ≤ (707106781186548 / 1000000000000000 : ℝ) :=
  cos_half_step 1 _ _ _ _ cos_table_1 (by norm_num) (by norm_num) (by norm_num)

theorem cos_table_3 :
    (923879532511286 / 1000000000000000 : ℝ) ≤ Real.cos (Real.pi / 2 ^ 3)
      ∧ Real.cos (Real.pi / 2 ^ 3) ≤ (923879532511287 / 1000000000000000 : ℝ) :=
  cos_half_step 2 _ _ _ _ cos_table_2 (by norm_num) (by norm_num) (by norm_num)

theorem cos_table_4 :
    (980785280403230 / 1000000000000000 : ℝ) ≤ Real.cos (Real.pi / 2 ^ 4)
      ∧ Real.cos (Real.pi / 2 ^ 4) ≤ (980785280403231 / 1000000000000000 : ℝ) :=
  cos_half_step 3 _ _ _ _ cos_table_3 (by norm_num) (by norm_num) (by norm_num)

theorem cos_table_5 :
    (995184726672196 / 1000000000000000 : ℝ) ≤ Real.cos (Real.pi / 2 ^ 5)
      ∧ Real.cos (Real.pi / 2 ^ 5) ≤ (995184726672198 / 1000000000000000 : ℝ) :=
  cos_half_step 4 _ _ _ _ cos_table_4 (by norm_num) (by norm_num) (by norm_num)

theorem cos_table_6 :
    (998795456205172 / 1000000000000000 : ℝ) ≤ Real.cos (Real.pi / 2 ^ 6)
      ∧ Real.cos (Real.pi / 2 ^ 6) ≤ (998795456205173 / 1000000000000000 : ℝ) :=
  cos_half_step 5 _ _ _ _ cos_table_5 (by norm_num) (by norm_num) (by norm_num)

theorem cos_table_7 :
    (999698818696204 / 1000000000000000 : ℝ) ≤ Real.cos (Real.pi / 2 ^ 7)
      ∧ Real.cos (Real.pi / 2 ^ 7) ≤ (999698818696205 / 1000000000000000 : ℝ) :=
  cos_half_step 6 _ _ _ _ cos_table_6 (by norm_num) (by norm_num) (by norm_num)

theorem cos_table_8 :
    (999924701839144 / 1000000000000000 : ℝ) ≤ Real.cos (Real.pi / 2 ^ 8)
      ∧ Real.cos (Real.pi / 2 ^ 8) ≤ (999924701839145 / 1000000000000000 : ℝ) :=
  cos_half_step 7 _ _ _ _ cos_table_7 (by norm_num) (by norm_num) (by norm_num)

theorem cos_table_9 :
    (999981175282601 / 1000000000000000 : ℝ) ≤ Real.cos (Real.pi / 2 ^ 9)
      ∧ Real.cos (Real.pi / 2 ^ 9) ≤ (999981175282602 / 1000000000000000 : ℝ) :=
  cos_half_step 8 _ _ _ _ cos_table_8 (by norm_num) (by norm_num) (by norm_num)

theorem cos_table_10 :
    (999995293809576 / 1000000000000000 : ℝ) ≤ Real.cos (Real.pi / 2 ^ 10)
      ∧ Real.cos (Real.pi / 2 ^ 10) ≤ (999995293809577 / 1000000000000000 : ℝ) :=
  cos_half_step 9 _ _ _ _ cos_table_9 (by norm_num) (by norm_num) (by norm_num)

theorem cos_table_11 :
    (999998823451701 / 1000000000000000 : ℝ) ≤ Real.cos (Real.pi / 2 ^ 11)
      ∧ Real.cos (Real.pi / 2 ^ 11) ≤ (999998823451703 / 1000000000000000 : ℝ) :=
  cos_half_step 10 _ _ _ _ cos_table_10 (by norm_num) (by norm_num) (by norm_num)

theorem cos_table_12 :
    (999999705862881 / 1000000000000000 : ℝ) ≤ Real.cos (Real.pi / 2 ^ 12)
      ∧ Real.cos (Real.pi / 2 ^ 12) ≤ (999999705862883 / 1000000000000000 : ℝ) :=
  cos_half_step 11 _ _ _ _ cos_table_11 (by norm_num) (by norm_num) (by norm_num)

theorem cos_table_13 :
    (999999926465717 / 1000000000000000 : ℝ) ≤ Real.cos (Real.pi / 2 ^ 13)
      ∧ Real.cos (Real.pi / 2 ^ 13) ≤ (999999926465719 / 1000000000000000 : ℝ) :=
  cos_half_step 12 _ _ _ _ cos_table_12 (by norm_num) (by norm_num) (by norm_num)

theorem table_entry_0 : tableEntryIs 0 0 := by
  unfold tableEntryIs
  simp [Rcoef, Icoef]

theorem table_entry_1 : tableEntryIs 1 1 := by
  have hc := cos_table_1
  have hs := sin_from_cos 1 _ _ (4096 - 1 / 2) (4096 + 1 / 2) hc (by norm_num) (by norm_num)
    (by norm_num) (by norm_num) (by norm_num)
  unfold tableEntryIs
  have hR : ((Rcoef.getD 1 0 : Int) : ℝ) = 0 := by simp [Rcoef]
  have hI : ((|Icoef.getD 1 0| : Int) : ℝ) = 4096 := by simp [Icoef]
  rw [hR, hI, abs_lt, abs_lt]
  refine ⟨⟨?_, ?_⟩, ⟨?_, ?_⟩⟩ <;> linarith [hc.1, hc.2, hs.1, hs.2]

theorem table_entry_2 : tableEntryIs 2 2 := by
  have hc := cos_table_2
  have hs := sin_from_cos 2 _ _ (2896 - 1 / 2) (2896 + 1 / 2) hc (by norm_num) (by norm_num)
    (by norm_num) (by norm_num) (by norm_num)
  unfold tableEntryIs
  have hR : ((Rcoef.getD 2 0 : Int) : ℝ) = 2896 := by simp [Rcoef]
  have hI : ((|Icoef.getD 2 0| : Int) : ℝ) = 2896 := by simp [Icoef]
  rw [hR, hI, abs_lt, abs_lt]
  refine ⟨⟨?_, ?_⟩, ⟨?_, ?_⟩⟩ <;> linarith [hc.1, hc.2, hs.1, hs.2]

theorem table_entry_3 : tableEntryIs 3 3 := by
  have hc := cos_table_3
  have hs := sin_from_cos 3 _ _ (1567 - 1 / 2) (1567 + 1 / 2) hc (by norm_num) (by norm_num)
    (by norm_num) (by norm_num) (by norm_num)
  unfold tableEntryIs
  have hR : ((Rcoef.getD 3 0 : Int) : ℝ) = 3784 := by simp [Rcoef]
  have hI : ((|Icoef.getD 3 0| : Int) : ℝ) = 1567 := by simp [Icoef]
  rw [hR, hI, abs_lt, abs_lt]
  refine ⟨⟨?_, ?_⟩, ⟨?_, ?_⟩⟩ <;> linarith [hc.1, hc.2, hs.1, hs.2]

theorem table_entry_4 : tableEntryIs 4 4 := by
  have hc := cos_table_4
  have hs := sin_from_cos 4 _ _ (799 - 1 / 2) (799 + 1 / 2) hc (by norm_num) (by norm_num)
    (by norm_num) (by norm_num) (by norm_num)
  unfold tableEntryIs
  have hR : ((Rcoef.getD 4 0 : Int) : ℝ) = 4017 := by simp [Rcoef]
  have hI : ((|Icoef.getD 4 0| : Int) : ℝ) = 799 := by simp [Icoef]
  rw [hR, hI, abs_lt, abs_lt]
  refine ⟨⟨?_, ?_⟩, ⟨?_, ?_⟩⟩ <;> linarith [hc.1, hc.2, hs.1, hs.2]

theorem table_entry_5 : tableEntryIs 5 5 := by
  have hc := cos_table_5
  have hs := sin_from_cos 5 _ _ (401 - 1 / 2) (401 + 1 / 2) hc (by norm_num) (by norm_num)
    (by norm_num) (by norm_num) (by norm_num)
  unfold tableEntryIs
  have hR : ((Rcoef.getD 5 0 : Int) : ℝ) = 4076 := by simp [Rcoef]
  have hI : ((|Icoef.getD 5 0| : Int) : ℝ) = 401 := by simp [Icoef]
  rw [hR, hI, abs_lt, abs_lt]
  refine ⟨⟨?_, ?_⟩, ⟨?_, ?_⟩⟩ <;> linarith [hc.1, hc.2, hs.1, hs.2]

theorem table_entry_6 : tableEntryIs 6 6 := by
  have hc := cos_table_6
  have hs := sin_from_cos 6 _ _ (201 - 1 / 2) (201 + 1 / 2) hc (by norm_num) (by norm_num)
    (by norm_num) (by norm_num) (by norm_num)
  unfold tableEntryIs
  have hR : ((Rcoef.getD 6 0 : Int) : ℝ) = 4091 := by simp [Rcoef]
  have hI : ((|Icoef.getD 6 0| : Int) : ℝ) = 201 := by simp [Icoef]
  rw [hR, hI, abs_lt, abs_lt]
  refine ⟨⟨?_, ?_⟩, ⟨?_, ?_⟩⟩ <;> linarith [hc.1, hc.2, hs.1, hs.2]

theorem table_entry_7 : tableEntryIs 7 7 := by
  have hc := cos_table_7
  have hs := sin_from_cos 7 _ _ (101 - 1 / 2) (101 + 1 / 2) hc (by norm_num) (by norm_num)
    (by norm_num) (by norm_num) (by norm_num)
  unfold tableEntryIs
  have hR : ((Rcoef.getD 7 0 : Int) : ℝ) = 4095 := by simp [Rcoef]
  have hI : ((|Icoef.getD 7 0| : Int) : ℝ) = 101 := by simp [Icoef]
  rw [hR, hI, abs_lt, abs_lt]
  refine ⟨⟨?_, ?_⟩, ⟨?_, ?_⟩⟩ <;> linarith [hc.1, hc.2, hs.1, hs.2]

theorem table_entry_8 : tableEntryIs 8 8 := by
  have hc := cos_table_8
  have hs := sin_from_cos 8 _ _ (50 - 1 / 2) (50 + 1 / 2) hc (by norm_num) (by norm_num)
    (by norm_num) (by norm_num) (by norm_num)
  unfold tableEntryIs
  have hR : ((Rcoef.getD 8 0 : Int) : ℝ) = 4096 := by simp [Rcoef]
  have hI : ((|Icoef.getD 8 0| : Int) : ℝ) = 50 := by simp [Icoef]
  rw [hR, hI, abs_lt, abs_lt]
  refine ⟨⟨?_, ?_⟩, ⟨?_, ?_⟩⟩ <;> linarith [hc.1, hc.2, hs.1, hs.2]

theorem table_entry_9 : tableEntryIs 9 9 := by
  have hc := cos_table_9
  have hs := sin_from_cos 9 _ _ (25 - 1 / 2) (25 + 1 / 2) hc (by norm_num) (by norm_num)
    (by norm_num) (by norm_num) (by norm_num)
  unfold tableEntryIs
  have hR : ((Rcoef.getD 9 0 : Int) : ℝ) = 4096 := by simp [Rcoef]
  have hI : ((|Icoef.getD 9 0| : Int) : ℝ) = 25 := by simp [Icoef]
  rw [hR, hI, abs_lt, abs_lt]
  refine ⟨⟨?_, ?_⟩, ⟨?_, ?_⟩⟩ <;> linarith [hc.1, hc.2, hs.1, hs.2]

theorem table_entry_10 : tableEntryIs 10 10 := by
  have hc := cos_table_10
  have hs := sin_from_cos 10 _ _ (13 - 1 / 2) (13 + 1 / 2) hc (by norm_num) (by norm_num)
    (by norm_num) (by norm_num) (by norm_num)
  unfold tableEntryIs
  have hR : ((Rcoef.getD 10 0 : Int) : ℝ) = 4096 := by simp [Rcoef]
  have hI : ((|Icoef.getD 10 0| : Int) : ℝ) = 13 := by simp [Icoef]
  rw [hR, hI, abs_lt, abs_lt]
  refine ⟨⟨?_, ?_⟩, ⟨?_, ?_⟩⟩ <;> linarith [hc.1, hc.2, hs.1, hs.2]

theorem table_entry_11 : tableEntryIs 11 11 := by
  have hc := cos_table_11
  have hs := sin_from_cos 11 _ _ (6 - 1 / 2) (6 + 1 / 2) hc (by norm_num) (by norm_num)
    (by norm_num) (by norm_num) (by norm_num)
  unfold tableEntryIs
  have hR : ((Rcoef.getD 11 0 : Int) : ℝ) = 4096 := by simp [Rcoef]
  have hI : ((|Icoef.getD 11 0| : Int) : ℝ) = 6 := by simp [Icoef]
  rw [hR, hI, abs_lt, abs_lt]
  refine ⟨⟨?_, ?_⟩, ⟨?_, ?_⟩⟩ <;> linarith [hc.1, hc.2, hs.1, hs.2]

theorem table_entry_12 : tableEntryIs 12 12 := by
  have hc := cos_table_12
  have hs := sin_from_cos 12 _ _ (3 - 1 / 2) (3 + 1 / 2) hc (by norm_num) (by norm_num)
    (by norm_num) (by norm_num) (by norm_num)
  unfold tableEntryIs
  have hR : ((Rcoef.getD 12 0 : Int) : ℝ) = 4096 := by simp [Rcoef]
  have hI : ((|Icoef.getD 12 0| : Int) : ℝ) = 3 := by simp [Icoef]
  rw [hR, hI, abs_lt, abs_lt]
  refine ⟨⟨?_, ?_⟩, ⟨?_, ?_⟩⟩ <;> linarith [hc.1, hc.2, hs.1, hs.2]

theorem table_entry_13 : tableEntryIs 13 13 := by
  have hc := cos_table_13
  have hs := sin_from_cos 13 _ _ (2 - 1 / 2) (2 + 1 / 2) hc (by norm_num) (by norm_num)
    (by norm_num) (by norm_num) (by norm_num)
  unfold tableEntryIs
  have hR : ((Rcoef.getD 13 0 : Int) : ℝ) = 4096 := by simp [Rcoef]
  have hI : ((|Icoef.getD 13 0| : Int) : ℝ) = 2 := by simp [Icoef]
  rw [hR, hI, abs_lt, abs_lt]
  refine ⟨⟨?_, ?_⟩, ⟨?_, ?_⟩⟩ <;> linarith [hc.1, hc.2, hs.1, hs.2]

/-- C14, counterexample: with the entries numbered 1 to 14 and the `k`-th
entry paired with `π / 2 ^ k`, the first entry fails: `Rcoef` starts with
-4096 while `4096 * cos (π / 2)` is 0.  With the entries numbered from 0, the
table has no entry 14. -/
theorem twiddle_table_not_one_to_fourteen :
    ¬ tableEntryIs (1 - 1) 1
      ∧ ¬ (∀ k, 1 ≤ k → k ≤ 14 → tableEntryIs (k - 1) k)
      ∧ Rcoef[14]? = none ∧ Icoef[14]? = none := by
  have h1 : ¬ tableEntryIs (1 - 1) 1 := by
    unfold tableEntryIs
    have hR : ((Rcoef.getD (1 - 1) 0 : Int) : ℝ) = -4096 := by simp [Rcoef]
    rw [hR, pow_one, Real.cos_pi_div_two]
    intro h
    have := h.1
    rw [abs_lt] at this
    norm_num at this
  exact ⟨h1, fun h => h1 (h 1 (le_refl 1) (by norm_num)), by simp [Rcoef], by simp [Icoef]⟩

/-- C14 as amended: the table has exactly 14 entries, at indices 0 to 13, and
for every `k` in [0,13] the entry at index `k` holds the cosine and the sine of
`π / 2 ^ k` scaled by 4096: `Rcoef[k]` is the integer nearest to
`4096 * cos (π / 2 ^ k)`, and `Icoef[k]` is at most 0 with magnitude the
integer nearest to `4096 * sin (π / 2 ^ k)`. -/
theorem twiddle_table (k : Nat) (hk : k < 14) :
    Rcoef.length = 14 ∧ Icoef.length = 14 ∧ tableEntryIs k k ∧ Icoef.getD k 0 ≤ 0 := by
  refine ⟨by simp [Rcoef], by simp [Icoef], ?_, ?_⟩
  · interval_cases k
    · exact table_entry_0
    · exact table_entry_1
    · exact table_entry_2
    · exact table_entry_3
    · exact table_entry_4
    · exact table_entry_5
    · exact table_entry_6
    · exact table_entry_7
    · exact table_entry_8
    · exact table_entry_9
    · exact table_entry_10
    · exact table_entry_11
    · exact table_entry_12
    · exact table_entry_13
  · interval_cases k <;> simp [Icoef]

theorem twiddle_table_witness :
    Rcoef.length = 14 ∧ Icoef.length = 14 ∧ tableEntryIs 7 7 ∧ Icoef.getD 7 0 ≤ 0 :=
  twiddle_table 7 (by decide)

/-! ## Constant input and exact additivity -/

/-- C23: in exact integer arithmetic, for every `logN` in [2,14],
`N = 2 ^ logN` and all integers `c`, `d`, the forward call on the input
`re[n] = c`, `im[n] = d` for all `n` returns `re[0] = c`, `im[0] = d` and 0 at
every other position; the inverse call on the same input returns
`re[0] = N * c`, `im[0] = N * d` and 0 elsewhere. -/
theorem FFT_constant_input (logN : Nat) (c d : Int) (h2 : 2 ≤ logN) (h14 : logN ≤ 14) :
    FFT id (some (List.replicate (2 ^ logN) c)) (some (List.replicate (2 ^ logN) d))
        (2 ^ logN) logN FT_DIRECT
        = some ⟨true, some (c :: List.replicate (2 ^ logN - 1) 0),
            some (d :: List.replicate (2 ^ logN - 1) 0)⟩
      ∧ FFT id (some (List.replicate (2 ^ logN) c)) (some (List.replicate (2 ^ logN) d))
        (2 ^ logN) logN FT_INVERSE
        = some ⟨true, some (2 ^ logN * c :: List.replicate (2 ^ logN - 1) 0),
            some (2 ^ logN * d :: List.replicate (2 ^ logN - 1) 0)⟩ := by
  have hpow : (((2 ^ logN : Nat) : Int)) = (2 : Int) ^ logN := by push_cast; rfl
  have hne : ((2 : Int) ^ logN) ≠ 0 := by positivity
  have hdiv : ∀ x : Int, divN id (2 ^ logN) (2 ^ logN * x) = x := by
    intro x
    rw [divN, hpow, Int.mul_tdiv_cancel_left _ hne]
    rfl
  have hf := FFT_const id logN FT_DIRECT c d h2 h14 (Or.inl rfl) rfl (fun _ _ => rfl)
    (fun _ _ => rfl)
  have hi := FFT_const id logN FT_INVERSE c d h2 h14 (Or.inr rfl) rfl (fun _ _ => rfl)
    (fun _ _ => rfl)
  rw [if_neg (by decide), if_neg (by decide), hdiv, hdiv] at hf
  rw [if_pos rfl, if_pos rfl] at hi
  exact ⟨hf, hi⟩

theorem FFT_constant_input_witness :
    FFT id (some (List.replicate (2 ^ 3) 5)) (some (List.replicate (2 ^ 3) (-7)))
        (2 ^ 3) (3 : Nat) FT_DIRECT
        = some ⟨true, some (5 :: List.replicate (2 ^ 3 - 1) 0),
            some (-7 :: List.replicate (2 ^ 3 - 1) 0)⟩
      ∧ FFT id (some (List.replicate (2 ^ 3) 5)) (some (List.replicate (2 ^ 3) (-7)))
        (2 ^ 3) (3 : Nat) FT_INVERSE
        = some ⟨true, some (2 ^ 3 * 5 :: List.replicate (2 ^ 3 - 1) 0),
            some (2 ^ 3 * (-7) :: List.replicate (2 ^ 3 - 1) 0)⟩ :=
  FFT_constant_input 3 5 (-7) (by decide) (by decide)

/-- C24: in exact integer arithmetic, for every accepted `N = 2 ^ m` (`m` in
[1,14]) and `LogN` in [2,14] and all inputs `x`, `y` of length `N`, the
inverse transform of the elementwise sum `x + y` is, element for element, the
sum of the inverse transforms of `x` and of `y`.  In the forward direction the
buffers `Px`, `Py` left by the reordering loop are additive in the same way,
and each forward result is those buffers divided by `N` with truncation: the
division is the only step that is not additive. -/
theorem FFT_inverse_additive (m : Nat) (LogN : Int) (xr xi yr yi : List Int)
    (hm1 : 1 ≤ m) (hm : m ≤ 14) (hL1 : 2 ≤ LogN) (hL2 : LogN ≤ 14)
    (hxr : xr.length = 2 ^ m) (hxi : xi.length = 2 ^ m)
    (hyr : yr.length = 2 ^ m) (hyi : yi.length = 2 ^ m) :
    (∃ Xr Xi Yr Yi,
        FFT id (some xr) (some xi) (2 ^ m) LogN FT_INVERSE = some ⟨true, some Xr, some Xi⟩
        ∧ FFT id (some yr) (some yi) (2 ^ m) LogN FT_INVERSE = some ⟨true, some Yr, some Yi⟩
        ∧ FFT id (some (List.zipWith (· + ·) xr yr)) (some (List.zipWith (· + ·) xi yi))
            (2 ^ m) LogN FT_INVERSE
          = some ⟨true, some (List.zipWith (· + ·) Xr Yr), some (List.zipWith (· + ·) Xi Yi)⟩)
      ∧ (∃ Sx Sy Px Py : Bufs,
        stages id (2 ^ m) LogN.toNat FT_DIRECT (xr, xi) = some Sx
        ∧ permute (2 ^ m) Sx = some Px
        ∧ stages id (2 ^ m) LogN.toNat FT_DIRECT (yr, yi) = some Sy
        ∧ permute (2 ^ m) Sy = some Py
        ∧ stages id (2 ^ m) LogN.toNat FT_DIRECT
            (List.zipWith (· + ·) xr yr, List.zipWith (· + ·) xi yi)
          = some (List.zipWith (· + ·) Sx.1 Sy.1, List.zipWith (· + ·) Sx.2 Sy.2)
        ∧ permute (2 ^ m) (List.zipWith (· + ·) Sx.1 Sy.1, List.zipWith (· + ·) Sx.2 Sy.2)
          = some (List.zipWith (· + ·) Px.1 Py.1, List.zipWith (· + ·) Px.2 Py.2)
        ∧ FFT id (some xr) (some xi) (2 ^ m) LogN FT_DIRECT
          = some ⟨true, some (Px.1.map (fun v => Int.tdiv v (2 ^ m : Nat))),
              some (Px.2.map (fun v => Int.tdiv v (2 ^ m : Nat)))⟩
        ∧ FFT id (some yr) (some yi) (2 ^ m) LogN FT_DIRECT
          = some ⟨true, some (Py.1.map (fun v => Int.tdiv v (2 ^ m : Nat))),
              some (Py.2.map (fun v => Int.tdiv v (2 ^ m : Nat)))⟩
        ∧ FFT id (some (List.zipWith (· + ·) xr yr)) (some (List.zipWith (· + ·) xi yi))
            (2 ^ m) LogN FT_DIRECT
          = some ⟨true,
              some ((List.zipWith (· + ·) Px.1 Py.1).map (fun v => Int.tdiv v (2 ^ m : Nat))),
              some ((List.zipWith (· + ·) Px.2 Py.2).map
                (fun v => Int.tdiv v (2 ^ m : Nat)))⟩) := by
  have run : ∀ Ft_Flag, Ft_Flag = FT_DIRECT ∨ Ft_Flag = FT_INVERSE →
      ∃ Sx Sy Px Py : Bufs,
        stages id (2 ^ m) LogN.toNat Ft_Flag (xr, xi) = some Sx
        ∧ permute (2 ^ m) Sx = some Px
        ∧ stages id (2 ^ m) LogN.toNat Ft_Flag (yr, yi) = some Sy
        ∧ permute (2 ^ m) Sy = some Py
        ∧ stages id (2 ^ m) LogN.toNat Ft_Flag (addBuf xr yr, addBuf xi yi)
          = some (addBufs Sx Sy)
        ∧ permute (2 ^ m) (addBufs Sx Sy) = some (addBufs Px Py)
        ∧ FFT id (some xr) (some xi) (2 ^ m) LogN Ft_Flag
          = some ⟨true,
              some (if Ft_Flag = FT_INVERSE then Px.1 else Px.1.map (divN id (2 ^ m))),
              some (if Ft_Flag = FT_INVERSE then Px.2 else Px.2.map (divN id (2 ^ m)))⟩
        ∧ FFT id (some yr) (some yi) (2 ^ m) LogN Ft_Flag
          = some ⟨true,
              some (if Ft_Flag = FT_INVERSE then Py.1 else Py.1.map (divN id (2 ^ m))),
              some (if Ft_Flag = FT_INVERSE then Py.2 else Py.2.map (divN id (2 ^ m)))⟩
        ∧ FFT id (some (addBuf xr yr)) (some (addBuf xi yi)) (2 ^ m) LogN Ft_Flag
          = some ⟨true,
              some (if Ft_Flag = FT_INVERSE then (addBufs Px Py).1
                else (addBufs Px Py).1.map (divN id (2 ^ m))),
              some (if Ft_Flag = FT_INVERSE then (addBufs Px Py).2
                else (addBufs Px Py).2.map (divN id (2 ^ m)))⟩ := by
    intro Ft_Flag hF
    obtain ⟨Sx, Px, hSx, -, -, hPx, -, -, -, hx⟩ :=
      FFT_run id m LogN Ft_Flag xr xi hm1 hm hL1 hL2 hF hxr hxi
    obtain ⟨Sy, Py, hSy, -, -, hPy, -, -, -, hy⟩ :=
      FFT_run id m LogN Ft_Flag yr yi hm1 hm hL1 hL2 hF hyr hyi
    obtain ⟨Sz, Pz, hSz, -, -, hPz, -, -, -, hz⟩ :=
      FFT_run id m LogN Ft_Flag (addBuf xr yr) (addBuf xi yi) hm1 hm hL1 hL2 hF
        (addBuf_length _ _ _ hxr hyr) (addBuf_length _ _ _ hxi hyi)
    obtain ⟨a1, a2⟩ := stages_permute_add (2 ^ m) LogN.toNat Ft_Flag (xr, xi) (yr, yi)
      Sx Sy Px Py hSx hSy hPx hPy
    have e1 : Sz = addBufs Sx Sy := by
      have : some Sz = some (addBufs Sx Sy) := by rw [← hSz, ← a1]; rfl
      exact Option.some.inj this
    subst e1
    have e2 : Pz = addBufs Px Py := by
      have : some Pz = some (addBufs Px Py) := by rw [← hPz, ← a2]
      exact Option.some.inj this
    subst e2
    exact ⟨Sx, Sy, Px, Py, hSx, hPx, hSy, hPy, hSz, hPz, hx, hy, hz⟩
  constructor
  · obtain ⟨Sx, Sy, Px, Py, -, -, -, -, -, -, hx, hy, hz⟩ := run FT_INVERSE (Or.inr rfl)
    rw [if_pos rfl, if_pos rfl] at hx hy hz
    exact ⟨Px.1, Px.2, Py.1, Py.2, hx, hy, hz⟩
  · obtain ⟨Sx, Sy, Px, Py, h1, h2, h3, h4, h5, h6, hx, hy, hz⟩ := run FT_DIRECT (Or.inl rfl)
    rw [if_neg (by decide), if_neg (by decide)] at hx hy hz
    exact ⟨Sx, Sy, Px, Py, h1, h2, h3, h4, h5, h6, hx, hy, hz⟩

theorem FFT_inverse_additive_witness :
    (∃ Xr Xi Yr Yi,
        FFT id (some [1, 2, 3, 4]) (some [5, 6, 7, 8]) (2 ^ 2) 2 FT_INVERSE = some ⟨true, some Xr, some Xi⟩
        ∧ FFT id (some [9, 0, 2, 1]) (some [3, 3, 0, 4]) (2 ^ 2) 2 FT_INVERSE = some ⟨true, some Yr, some Yi⟩
        ∧ FFT id (some (List.zipWith (· + ·) [1, 2, 3, 4] [9, 0, 2, 1])) (some (List.zipWith (· + ·) [5, 6, 7, 8] [3, 3, 0, 4]))
            (2 ^ 2) 2 FT_INVERSE
          = some ⟨true, some (List.zipWith (· + ·) Xr Yr), some (List.zipWith (· + ·) Xi Yi)⟩)
      ∧ (∃ Sx Sy Px Py : Bufs,
        stages id (2 ^ 2) (2 : Int).toNat FT_DIRECT ([1, 2, 3, 4], [5, 6, 7, 8]) = some Sx
        ∧ permute (2 ^ 2) Sx = some Px
        ∧ stages id (2 ^ 2) (2 : Int).toNat FT_DIRECT ([9, 0, 2, 1], [3, 3, 0, 4]) = some Sy
        ∧ permute (2 ^ 2) Sy = some Py
        ∧ stages id (2 ^ 2) (2 : Int).toNat FT_DIRECT
            (List.zipWith (· + ·) [1, 2, 3, 4] [9, 0, 2, 1], List.zipWith (· + ·) [5, 6, 7, 8] [3, 3, 0, 4])
          = some (List.zipWith (· + ·) Sx.1 Sy.1, List.zipWith (· + ·) Sx.2 Sy.2)
        ∧ permute (2 ^ 2) (List.zipWith (· + ·) Sx.1 Sy.1, List.zipWith (· + ·) Sx.2 Sy.2)
          = some (List.zipWith (· + ·) Px.1 Py.1, List.zipWith (· + ·) Px.2 Py.2)
        ∧ FFT id (some [1, 2, 3, 4]) (some [5, 6, 7, 8]) (2 ^ 2) 2 FT_DIRECT
          = some ⟨true, some (Px.1.map (fun v => Int.tdiv v (2 ^ 2 : Nat))),
              some (Px.2.map (fun v => Int.tdiv v (2 ^ 2 : Nat)))⟩
        ∧ FFT id (some [9, 0, 2, 1]) (some [3, 3, 0, 4]) (2 ^ 2) 2 FT_DIRECT
          = some ⟨true, some (Py.1.map (fun v => Int.tdiv v (2 ^ 2 : Nat))),
              some (Py.2.map (fun v => Int.tdiv v (2 ^ 2 : Nat)))⟩
        ∧ FFT id (some (List.zipWith (· + ·) [1, 2, 3, 4] [9, 0, 2, 1])) (some (List.zipWith (· + ·) [5, 6, 7, 8] [3, 3, 0, 4]))
            (2 ^ 2) 2 FT_DIRECT
          = some ⟨true,
              some ((List.zipWith (· + ·) Px.1 Py.1).map (fun v => Int.tdiv v (2 ^ 2 : Nat))),
              some ((List.zipWith (· + ·) Px.2 Py.2).map
                (fun v => Int.tdiv v (2 ^ 2 : Nat)))⟩) :=
  FFT_inverse_additive 2 2 [1, 2, 3, 4] [5, 6, 7, 8] [9, 0, 2, 1] [3, 3, 0, 4] (by decide)
    (by decide) (by decide) (by decide) rfl rfl rfl rfl

/-! ## Conjugation symmetry -/

theorem negBuf_getElem (x : List Int) (i : Nat) (a : Int) (hx : x[i]? = some a) :
    (negBuf x)[i]? = some (-a) := by
  rw [negBuf, List.getElem?_map, hx]
  rfl

theorem negBuf_set (x : List Int) (i : Nat) (a : Int) :
    negBuf (x.set i a) = (negBuf x).set i (-a) := by
  induction x generalizing i with
  | nil => simp [negBuf]
  | cons u x ih =>
    cases i with
    | zero => simp [negBuf]
    | succ i =>
      have := ih i
      simp only [negBuf] at this ⊢
      simp [this]

theorem butterfly_conj (ru iu : Int) (i io : Nat) (s s1 : Bufs)
    (hs : butterfly id ru iu i io s = some s1) :
    butterfly id ru (-iu) i io (conjBufs s) = some (conjBufs s1) := by
  unfold butterfly at hs ⊢
  split at hs
  · rename_i a1 a2 a3 a4 e1 e2 e3 e4
    simp only [Option.some.injEq, id] at hs
    subst hs
    simp only [conjBufs, e1, e2, negBuf_getElem _ _ _ e3, negBuf_getElem _ _ _ e4, negBuf_set,
      id]
    have q1 : (a1 - a2) * ru - (-a3 - -a4) * -iu = (a1 - a2) * ru - (a3 - a4) * iu := by ring
    have q2 : (-a3 - -a4) * ru + (a1 - a2) * -iu = -((a3 - a4) * ru + (a1 - a2) * iu) := by
      ring
    have q3 : -a3 + -a4 = -(a3 + a4) := by ring
    rw [q1, q2, q3]
  · cases hs

theorem innerLoop_conj (N ie h : Nat) (ru iu : Int) :
    ∀ fuel i (s s1 : Bufs),
      innerLoop id N ie h ru iu fuel i s = some s1 →
      innerLoop id N ie h ru (-iu) fuel i (conjBufs s) = some (conjBufs s1) := by
  intro fuel
  induction fuel with
  | zero =>
    intro i s s1 hs
    simp only [innerLoop] at hs ⊢
    split_ifs at hs ⊢ with hi
    cases hs; rfl
  | succ fuel ih =>
    intro i s s1 hs
    simp only [innerLoop] at hs ⊢
    split_ifs at hs ⊢ with hi
    · cases hbs : butterfly id ru iu i (i + h) s with
      | none => rw [hbs] at hs; cases hs
      | some s2 =>
        rw [hbs] at hs
        rw [butterfly_conj ru iu i (i + h) s s2 hbs]
        exact ih (i + ie) s2 s1 hs
    · cases hs; rfl

theorem jLoop_conj (N ie h : Nat) (rw iw : Int) :
    ∀ cnt j ru iu (s s1 : Bufs),
      jLoop id N ie h rw iw cnt j ru iu s = some s1 →
      jLoop id N ie h rw (-iw) cnt j ru (-iu) (conjBufs s) = some (conjBufs s1) := by
  intro cnt
  induction cnt with
  | zero =>
    intro j ru iu s s1 hs
    simp only [jLoop] at hs ⊢
    cases hs; rfl
  | succ cnt ih =>
    intro j ru iu s s1 hs
    simp only [jLoop] at hs ⊢
    cases his : innerLoop id N ie h ru iu N j s with
    | none => rw [his] at hs; cases hs
    | some s2 =>
      rw [his] at hs
      rw [innerLoop_conj N ie h ru iu N j s s2 his]
      have q1 : id (ru * rw - -iu * -iw) = id (ru * rw - iu * iw) := by
        simp only [id]; ring
      have q2 : id (-iu * rw + ru * -iw) = -id (iu * rw + ru * iw) := by
        simp only [id]; ring
      simp only [q1, q2]
      exact ih _ _ _ s2 s1 hs

theorem stageLoop_conj (N LogN : Nat) :
    ∀ cnt n ie (s s1 : Bufs),
      stageLoop id N LogN FT_DIRECT cnt n ie s = some s1 →
      stageLoop id N LogN FT_INVERSE cnt n ie (conjBufs s) = some (conjBufs s1) := by
  intro cnt
  induction cnt with
  | zero =>
    intro n ie s s1 hs
    simp only [stageLoop] at hs ⊢
    cases hs; rfl
  | succ cnt ih =>
    intro n ie s s1 hs
    simp only [stageLoop] at hs ⊢
    split at hs
    · rename_i rw iw0 e1 e2
      have c1 : ¬ (FT_DIRECT = FT_INVERSE) := by decide
      simp only [if_neg c1] at hs
      simp only [if_true, id]
      cases hjs : jLoop id N ie (ie >>> 1) rw iw0 (ie >>> 1) 0 1 0 s with
      | none => rw [hjs] at hs; cases hs
      | some s2 =>
        rw [hjs] at hs
        have := jLoop_conj N ie (ie >>> 1) rw iw0 (ie >>> 1) 0 1 0 s s2 hjs
        rw [neg_zero] at this
        rw [this]
        exact ih _ _ s2 s1 hs
    · cases hs

theorem swapStep_conj (io in_ : Nat) (s s1 : Bufs) (hs : swapStep io in_ s = some s1) :
    swapStep io in_ (conjBufs s) = some (conjBufs s1) := by
  unfold swapStep at hs ⊢
  split at hs
  · rename_i a1 a2 a3 a4 e1 e2 e3 e4
    simp only [Option.some.injEq] at hs
    subst hs
    simp only [conjBufs, e1, e3, negBuf_getElem _ _ _ e2, negBuf_getElem _ _ _ e4, negBuf_set]
  · cases hs

theorem swapAt_conj (io in_ : Int) (s s1 : Bufs) (hs : swapAt io in_ s = some s1) :
    swapAt io in_ (conjBufs s) = some (conjBufs s1) := by
  unfold swapAt at hs ⊢
  split_ifs at hs ⊢
  exact swapStep_conj _ _ s s1 hs

theorem permLoop_conj (nn : Nat) :
    ∀ cnt i j (s s1 : Bufs),
      permLoop nn cnt i j s = some s1 →
      permLoop nn cnt i j (conjBufs s) = some (conjBufs s1) := by
  intro cnt
  induction cnt with
  | zero =>
    intro i j s s1 hs
    simp only [permLoop] at hs ⊢
    cases hs; rfl
  | succ cnt ih =>
    intro i j s s1 hs
    simp only [permLoop] at hs ⊢
    cases hss : (if i < j then swapAt ((i : Int) - 1) ((j : Int) - 1) s else some s) with
    | none => rw [hss] at hs; cases hs
    | some s2 =>
      rw [hss] at hs
      have hc : (if i < j then swapAt ((i : Int) - 1) ((j : Int) - 1) (conjBufs s)
          else some (conjBufs s)) = some (conjBufs s2) := by
        split_ifs at hss ⊢ with hij
        · exact swapAt_conj _ _ s s2 hss
        · cases hss; rfl
      rw [hc]
      cases hcl : carryLoop (nn + 1) j nn with
      | none => rw [hcl] at hs; cases hs
      | some jk =>
        rw [hcl] at hs
        exact ih _ _ s2 s1 hs

/-- C21: in exact integer arithmetic, for every accepted `N = 2 ^ m` (`m` in
[1,14]) and `LogN` in [2,14] and every input `(re, im)` of length `N`, let
`(R, I)` be the buffers of the forward call just before the division by `N`
(the forward call returns them divided by `N`).  The inverse call on the
conjugate input `(re, -im)` returns exactly `(R, -I)`. -/
theorem FFT_conjugation (m : Nat) (LogN : Int) (re im : List Int)
    (hm1 : 1 ≤ m) (hm : m ≤ 14) (hL1 : 2 ≤ LogN) (hL2 : LogN ≤ 14)
    (hre : re.length = 2 ^ m) (him : im.length = 2 ^ m) :
    ∃ S P : Bufs,
      stages id (2 ^ m) LogN.toNat FT_DIRECT (re, im) = some S
      ∧ permute (2 ^ m) S = some P
      ∧ FFT id (some re) (some im) (2 ^ m) LogN FT_DIRECT
          = some ⟨true, some (P.1.map (fun v => Int.tdiv v (2 ^ m : Nat))),
              some (P.2.map (fun v => Int.tdiv v (2 ^ m : Nat)))⟩
      ∧ FFT id (some re) (some (im.map (fun v => -v))) (2 ^ m) LogN FT_INVERSE
          = some ⟨true, some P.1, some (P.2.map (fun v => -v))⟩ := by
  obtain ⟨S, P, hS, -, -, hP, -, -, -, hf⟩ :=
    FFT_run id m LogN FT_DIRECT re im hm1 hm hL1 hL2 (Or.inl rfl) hre him
  obtain ⟨S2, P2, hS2, -, -, hP2, -, -, -, hi⟩ :=
    FFT_run id m LogN FT_INVERSE re (negBuf im) hm1 hm hL1 hL2 (Or.inr rfl) hre
      (by simp [negBuf, him])
  have a1 : stages id (2 ^ m) LogN.toNat FT_INVERSE (re, negBuf im) = some (conjBufs S) :=
    stageLoop_conj (2 ^ m) LogN.toNat LogN.toNat 1 (2 ^ m) (re, im) S hS
  have a2 : permute (2 ^ m) (conjBufs S) = some (conjBufs P) :=
    permLoop_conj (2 ^ m >>> 1) (2 ^ m - 1) 1 1 S P hP
  have e1 : S2 = conjBufs S := by
    have : some S2 = some (conjBufs S) := by rw [← hS2, ← a1]
    exact Option.some.inj this
  subst e1
  have e2 : P2 = conjBufs P := by
    have : some P2 = some (conjBufs P) := by rw [← hP2, ← a2]
    exact Option.some.inj this
  subst e2
  rw [if_neg (by decide), if_neg (by decide)] at hf
  rw [if_pos rfl, if_pos rfl] at hi
  exact ⟨S, P, hS, hP, hf, hi⟩

theorem FFT_conjugation_witness :
    ∃ S P : Bufs,
      stages id (2 ^ 2) (2 : Int).toNat FT_DIRECT ([1, 2, 3, 4], [5, 6, 7, 8]) = some S
      ∧ permute (2 ^ 2) S = some P
      ∧ FFT id (some [1, 2, 3, 4]) (some [5, 6, 7, 8]) (2 ^ 2) 2 FT_DIRECT
          = some ⟨true, some (P.1.map (fun v => Int.tdiv v (2 ^ 2 : Nat))),
              some (P.2.map (fun v => Int.tdiv v (2 ^ 2 : Nat)))⟩
      ∧ FFT id (some [1, 2, 3, 4]) (some ([5, 6, 7, 8].map (fun v => -v))) (2 ^ 2) 2 FT_INVERSE
          = some ⟨true, some P.1, some (P.2.map (fun v => -v))⟩ :=
  FFT_conjugation 2 2 [1, 2, 3, 4] [5, 6, 7, 8] (by decide) (by decide) (by decide) (by decide)
    rfl rfl

/-! ## The bin at index 0 -/

theorem sum_range_getD (l : List Int) :
    ∑ p in Finset.range l.length, l.getD p 0 = l.sum := by
  induction l with
  | nil => simp
  | cons a l ih =>
    rw [List.length_cons, Finset.sum_range_succ', List.sum_cons, ← ih]
    simp [add_comm]

/-- Stage loop of a valid call in exact arithmetic: position 0 ends up holding
the sum of all real elements and the sum of all imaginary elements. -/
theorem stages_sum (m : Nat) (Ft_Flag : Int) (hm : m ≤ 14) (s : Bufs)
    (h1 : s.1.length = 2 ^ m) (h2 : s.2.length = 2 ^ m) :
    ∃ s1, stages id (2 ^ m) m Ft_Flag s = some s1
      ∧ s1.1.length = 2 ^ m ∧ s1.2.length = 2 ^ m
      ∧ smp s1 0 = (s.1.sum, s.2.sum) := by
  have key := stageLoop_inv id (2 ^ m) m Ft_Flag
    (fun n ie t => ie = 2 ^ m >>> (n - 1) ∧ t.1.length = 2 ^ m ∧ t.2.length = 2 ^ m
      ∧ ∑ p in Finset.range ie, t.1.getD p 0 = s.1.sum
      ∧ ∑ p in Finset.range ie, t.2.getD p 0 = s.2.sum) hm
    (by
      intro n ie t hn1 hn ⟨hie, l1, l2, hA, hB⟩
      subst hie
      have hnext : (2 ^ m >>> (n - 1)) >>> 1 = 2 ^ m >>> (n + 1 - 1) := by
        rw [← Nat.shiftRight_add]
        congr 1; omega
      obtain ⟨h, c, hh, hh2, hie2, hc⟩ := stage_shape_lt m (n - 1) (by omega)
      generalize 2 ^ m >>> (n - 1) = ie at *
      have hc1 : 0 < c := by
        rcases Nat.eq_zero_or_pos c with h0 | h0
        · rw [h0, Nat.zero_mul] at hc
          have := Nat.two_pow_pos m
          omega
        · exact h0
      obtain ⟨t1, ht1, m1, m2, hpair, -⟩ := stage_pointwise id (Rcoef.getD (m - n) 0)
        (iwOf id Ft_Flag (Icoef.getD (m - n) 0)) (2 ^ m) ie h c (2 ^ m) (2 ^ m) hc (le_refl _)
        (le_refl _) hh hie2 t l1 l2
      refine ⟨t1, by rw [hh2]; exact ht1, hnext, m1, m2, ?_⟩
      rw [hh2]
      have hval : ∀ j, j < h → t1.1.getD j 0 = t.1.getD j 0 + t.1.getD (h + j) 0
          ∧ t1.2.getD j 0 = t.2.getD j 0 + t.2.getD (h + j) 0 := by
        intro j hj
        have := (hpair 0 j hc1 hj).1
        rw [Nat.zero_mul, Nat.zero_add, Nat.add_comm j h] at this
        simp only [smp, bfTop, id, Prod.mk.injEq] at this
        exact this
      have hsplit : ∀ f : Nat → Int, ∑ p in Finset.range ie, f p
          = ∑ j in Finset.range h, (f j + f (h + j)) := by
        intro f
        have e : ie = h + h := by omega
        rw [e, Finset.sum_range_add, Finset.sum_add_distrib]
      constructor
      · rw [← hA, hsplit]
        exact Finset.sum_congr rfl (fun j hj => (hval j (Finset.mem_range.mp hj)).1)
      · rw [← hB, hsplit]
        exact Finset.sum_congr rfl (fun j hj => (hval j (Finset.mem_range.mp hj)).2))
    m 1 (2 ^ m) s (le_refl 1) (by omega)
    ⟨rfl, h1, h2, by rw [← h1]; exact sum_range_getD s.1, by rw [← h2]; exact sum_range_getD s.2⟩
  obtain ⟨s1, hs1, hie, l1, l2, hA, hB⟩ := key
  refine ⟨s1, hs1, l1, l2, ?_⟩
  have e1 : 2 ^ m >>> m = 1 := by
    rw [Nat.shiftRight_eq_div_pow]
    exact Nat.div_self (Nat.two_pow_pos m)
  rw [e1] at hA hB
  simp only [Finset.sum_range_one] at hA hB
  simp only [smp, hA, hB]

/-- C22: in exact integer arithmetic, for every `logN` in [2,14],
`N = 2 ^ logN` and every input `(re, im)` of length `N`, the inverse call
leaves at index 0 the sum of all `re[n]` and the sum of all `im[n]`, and the
forward call leaves those two sums each divided by `N` with truncation.  Index
0 is the sum branch of block 0, offset 0 in every stage (it receives
`x[0] + x[h]`, unrotated), and the bit reversal maps 0 to 0. -/
theorem FFT_dc_bin (logN : Nat) (re im : List Int) (h2 : 2 ≤ logN) (h14 : logN ≤ 14)
    (hre : re.length = 2 ^ logN) (him : im.length = 2 ^ logN) :
    (∃ Ri Ii, FFT id (some re) (some im) (2 ^ logN) logN FT_INVERSE
          = some ⟨true, some Ri, some Ii⟩
        ∧ Ri[0]? = some re.sum ∧ Ii[0]? = some im.sum)
      ∧ (∃ Rf If, FFT id (some re) (some im) (2 ^ logN) logN FT_DIRECT
          = some ⟨true, some Rf, some If⟩
        ∧ Rf[0]? = some (Int.tdiv re.sum (2 ^ logN))
        ∧ If[0]? = some (Int.tdiv im.sum (2 ^ logN)))
      ∧ bitrev logN 0 = 0
      ∧ (∀ (rw iw : Int) (h c : Nat) (s : Bufs), 1 ≤ h → 1 ≤ c →
          s.1.length = c * (2 * h) → s.2.length = c * (2 * h) →
          ∃ s1, jLoop id (c * (2 * h)) (2 * h) ((2 * h) >>> 1) rw iw ((2 * h) >>> 1) 0 1 0 s
              = some s1
            ∧ s1.1.getD 0 0 = s.1.getD 0 0 + s.1.getD h 0
            ∧ s1.2.getD 0 0 = s.2.getD 0 0 + s.2.getD h 0) := by
  have hpos : 0 < 2 ^ logN := Nat.two_pow_pos _
  have hpow : (((2 ^ logN : Nat) : Int)) = (2 : Int) ^ logN := by push_cast; rfl
  have run : ∀ Ft_Flag, Ft_Flag = FT_DIRECT ∨ Ft_Flag = FT_INVERSE →
      ∃ P : Bufs, P.1.length = 2 ^ logN ∧ P.2.length = 2 ^ logN
        ∧ smp P 0 = (re.sum, im.sum)
        ∧ FFT id (some re) (some im) (2 ^ logN) logN Ft_Flag
          = some ⟨true,
              some (if Ft_Flag = FT_INVERSE then P.1 else P.1.map (divN id (2 ^ logN))),
              some (if Ft_Flag = FT_INVERSE then P.2 else P.2.map (divN id (2 ^ logN)))⟩ := by
    intro Ft_Flag hF
    obtain ⟨S, P, hS, -, -, hP, p1, p2, hrev, h⟩ :=
      FFT_run id logN logN Ft_Flag re im (by omega) h14 (by omega) (by omega) hF hre him
    obtain ⟨S1, hS1, -, -, hsum⟩ := stages_sum logN Ft_Flag h14 (re, im) hre him
    rw [Int.toNat_natCast, hS1] at hS
    cases hS
    refine ⟨P, p1, p2, ?_, h⟩
    rw [hrev 0 hpos, bitrev_zero]
    exact hsum
  refine ⟨?_, ?_, bitrev_zero logN, ?_⟩
  · obtain ⟨P, p1, p2, hsum, h⟩ := run FT_INVERSE (Or.inr rfl)
    rw [if_pos rfl, if_pos rfl] at h
    simp only [smp, Prod.mk.injEq] at hsum
    refine ⟨P.1, P.2, h, ?_, ?_⟩
    · rw [getElem_opt_eq_getD P.1 0 (by omega), hsum.1]
    · rw [getElem_opt_eq_getD P.2 0 (by omega), hsum.2]
  · obtain ⟨P, p1, p2, hsum, h⟩ := run FT_DIRECT (Or.inl rfl)
    rw [if_neg (by decide), if_neg (by decide)] at h
    simp only [smp, Prod.mk.injEq] at hsum
    refine ⟨_, _, h, ?_, ?_⟩
    · rw [getElem_opt_eq_getD _ 0 (by simp; omega), getD_map _ _ _ (by omega), hsum.1, divN,
        hpow]
      rfl
    · rw [getElem_opt_eq_getD _ 0 (by simp; omega), getD_map _ _ _ (by omega), hsum.2, divN,
        hpow]
      rfl
  · intro rw iw h c s hh hc l1 l2
    have hsh : (2 * h) >>> 1 = h := by
      rw [Nat.shiftRight_eq_div_pow]; omega
    obtain ⟨s1, hs1, -, -, hpair, -⟩ := stage_pointwise id rw iw (c * (2 * h)) (2 * h) h c
      (c * (2 * h)) (c * (2 * h)) rfl (le_refl _) (le_refl _) hh rfl s l1 l2
    refine ⟨s1, by rw [hsh]; exact hs1, ?_⟩
    have := (hpair 0 0 (by omega) (by omega)).1
    simp only [Nat.zero_mul, Nat.zero_add, smp, bfTop, id, Prod.mk.injEq] at this
    exact this

theorem FFT_dc_bin_witness :
    (∃ Ri Ii, FFT id (some [1, 2, 3, 4]) (some [5, 6, 7, 9]) (2 ^ 2) (2 : Nat) FT_INVERSE
          = some ⟨true, some Ri, some Ii⟩
        ∧ Ri[0]? = some [1, 2, 3, 4].sum ∧ Ii[0]? = some [5, 6, 7, 9].sum)
      ∧ (∃ Rf If, FFT id (some [1, 2, 3, 4]) (some [5, 6, 7, 9]) (2 ^ 2) (2 : Nat) FT_DIRECT
          = some ⟨true, some Rf, some If⟩
        ∧ Rf[0]? = some (Int.tdiv [1, 2, 3, 4].sum (2 ^ 2))
        ∧ If[0]? = some (Int.tdiv [5, 6, 7, 9].sum (2 ^ 2)))
      ∧ bitrev 2 0 = 0
      ∧ (∀ (rw iw : Int) (h c : Nat) (s : Bufs), 1 ≤ h → 1 ≤ c →
          s.1.length = c * (2 * h) → s.2.length = c * (2 * h) →
          ∃ s1, jLoop id (c * (2 * h)) (2 * h) ((2 * h) >>> 1) rw iw ((2 * h) >>> 1) 0 1 0 s
              = some s1
            ∧ s1.1.getD 0 0 = s.1.getD 0 0 + s.1.getD h 0
            ∧ s1.2.getD 0 0 = s.2.getD 0 0 + s.2.getD h 0) :=
  FFT_dc_bin 2 [1, 2, 3, 4] [5, 6, 7, 9] (by decide) (by decide) rfl rfl

/-! ## Range of the index variables -/

theorem innerValues_spec (N ie in_ : Nat) (B : Int) (hie : 1 ≤ ie)
    (hB1 : ((N + in_ : Nat) : Int) ≤ B + 1) (hB2 : ((N + ie : Nat) : Int) ≤ B + 1) :
    ∀ fuel i, N ≤ i + fuel →
      ∃ l, innerValues N ie in_ fuel i = some l ∧ ∀ v ∈ l, 0 ≤ v ∧ v ≤ B := by
  intro fuel
  induction fuel with
  | zero =>
    intro i hi
    have hlt : ¬ i < N := by omega
    exact ⟨[], by simp [innerValues, hlt], by simp⟩
  | succ fuel ih =>
    intro i hi
    by_cases hlt : i < N
    · obtain ⟨l, hl, hall⟩ := ih (i + ie) (by omega)
      have e : innerValues N ie in_ (fuel + 1) i
          = some (((i + in_ : Nat) : Int) :: ((i + ie : Nat) : Int) :: l) := by
        simp only [innerValues, if_pos hlt, hl]
      refine ⟨_, e, ?_⟩
      simp only [List.forall_mem_cons]
      exact ⟨⟨by omega, by omega⟩, ⟨by omega, by omega⟩, hall⟩
    · exact ⟨[], by simp [innerValues, hlt], by simp⟩

theorem jValues_spec (N ie in_ : Nat) (B : Int)
    (hB0 : (in_ : Int) ≤ B)
    (hB1 : ((N + in_ : Nat) : Int) ≤ B + 1) (hB2 : ((N + ie : Nat) : Int) ≤ B + 1) :
    ∀ cnt j, 1 ≤ ie ∨ cnt = 0 → j + cnt = in_ →
      ∃ l, jValues N ie in_ cnt j = some l ∧ ∀ v ∈ l, 0 ≤ v ∧ v ≤ B := by
  intro cnt
  induction cnt with
  | zero =>
    intro j _ _
    exact ⟨[], rfl, by simp⟩
  | succ cnt ih =>
    intro j hie hj
    have hie1 : 1 ≤ ie := by omega
    obtain ⟨l1, hl1, hall1⟩ := innerValues_spec N ie in_ B hie1 hB1 hB2 N j (by omega)
    obtain ⟨l2, hl2, hall2⟩ := ih (j + 1) (Or.inl hie1) (by omega)
    have e : jValues N ie in_ (cnt + 1) j
        = some ((j : Int) :: l1 ++ ((j + 1 : Nat) : Int) :: l2) := by
      simp only [jValues, hl1, hl2]
    refine ⟨_, e, ?_⟩
    simp only [List.forall_mem_cons, List.forall_mem_append]
    exact ⟨⟨⟨by omega, by omega⟩, hall1⟩, ⟨by omega, by omega⟩, hall2⟩

theorem stageValues_spec (N : Nat) (hN : N ≤ 16384) :
    ∀ cnt n ie, ie ≤ N → n + cnt ≤ 15 →
      ∃ l, stageValues N cnt n ie = some l ∧ ∀ v ∈ l, 0 ≤ v ∧ v ≤ 32767 := by
  intro cnt
  induction cnt with
  | zero =>
    intro n ie _ _
    exact ⟨[], rfl, by simp⟩
  | succ cnt ih =>
    intro n ie hie hn
    have hsh : ie >>> 1 = ie / 2 := by rw [Nat.shiftRight_eq_div_pow, pow_one]
    obtain ⟨l1, hl1, hall1⟩ := jValues_spec N ie (ie >>> 1) 32767 (by omega) (by omega)
      (by omega) (ie >>> 1) 0 (by omega) (by omega)
    obtain ⟨l2, hl2, hall2⟩ := ih (n + 1) (ie >>> 1) (by omega) (by omega)
    have e : stageValues N (cnt + 1) n ie
        = some (((ie >>> 1 : Nat) : Int) :: 0 :: l1
          ++ ((ie >>> 1 : Nat) : Int) :: ((n + 1 : Nat) : Int) :: l2) := by
      simp only [stageValues, hl1, hl2]
    refine ⟨_, e, ?_⟩
    simp only [List.forall_mem_cons, List.forall_mem_append]
    exact ⟨⟨⟨by omega, by omega⟩, ⟨by omega, by omega⟩, hall1⟩, ⟨by omega, by omega⟩,
      ⟨by omega, by omega⟩, hall2⟩

theorem carryValues_spec (B : Int) :
    ∀ (fuel j k j1 k1 : Nat), (j : Int) ≤ B → (k : Int) ≤ B →
      carryLoop fuel j k = some (j1, k1) →
      ∃ l, carryValues fuel j k = some (l, j1, k1) ∧ ∀ v ∈ l, 0 ≤ v ∧ v ≤ B := by
  intro fuel
  induction fuel with
  | zero =>
    intro j k j1 k1 _ _ h
    by_cases hlt : k < j
    · simp [carryLoop, hlt] at h
    · simp only [carryLoop, if_neg hlt, Option.some.injEq, Prod.mk.injEq] at h
      obtain ⟨rfl, rfl⟩ := h
      exact ⟨[], by simp [carryValues, hlt], by simp⟩
  | succ fuel ih =>
    intro j k j1 k1 hj hk h
    have hsh : k >>> 1 = k / 2 := by rw [Nat.shiftRight_eq_div_pow, pow_one]
    by_cases hlt : k < j
    · simp only [carryLoop, if_pos hlt] at h
      obtain ⟨l, hl, hall⟩ := ih (j - k) (k >>> 1) j1 k1 (by omega) (by omega) h
      have e : carryValues (fuel + 1) j k
          = some (((j : Int) - (k : Int)) :: ((k >>> 1 : Nat) : Int) :: l, j1, k1) := by
        simp only [carryValues, if_pos hlt, hl]
      refine ⟨_, e, ?_⟩
      simp only [List.forall_mem_cons]
      exact ⟨⟨by omega, by omega⟩, ⟨by omega, by omega⟩, hall⟩
    · simp only [carryLoop, if_neg hlt, Option.some.injEq, Prod.mk.injEq] at h
      obtain ⟨rfl, rfl⟩ := h
      exact ⟨[], by simp [carryValues, hlt], by simp⟩

theorem permValues_spec (m : Nat) :
    ∀ cnt t, t + cnt = 2 ^ (m + 1) - 1 →
      ∃ l, permValues (2 ^ m) cnt (t + 1) (bitrev (m + 1) t + 1) = some l
        ∧ ∀ v ∈ l, 0 ≤ v ∧ v ≤ ((2 ^ (m + 1) : Nat) : Int) := by
  intro cnt
  induction cnt with
  | zero =>
    intro t _
    exact ⟨[], rfl, by simp⟩
  | succ cnt ih =>
    intro t ht
    have hpos : 0 < 2 ^ (m + 1) := Nat.two_pow_pos _
    have hpw : 2 ^ (m + 1) = 2 * 2 ^ m := by rw [pow_succ]; ring
    have hfuel : m + 1 ≤ 2 ^ m + 1 := by
      have := @Nat.lt_two_pow m
      omega
    have hbr := bitrev_lt (m + 1) t
    have hbr1 := bitrev_lt (m + 1) (t + 1)
    obtain ⟨j1, k, hc, hjk, hk1, hk2, hj1, hj2⟩ :=
      carryLoop_exit m t (2 ^ m + 1) (by omega) hfuel
    obtain ⟨l1, hl1, hall1⟩ := carryValues_spec ((2 ^ (m + 1) : Nat) : Int) (2 ^ m + 1)
      (bitrev (m + 1) t + 1) (2 ^ m) j1 k (by omega) (by omega) hc
    obtain ⟨l2, hl2, hall2⟩ := ih (t + 1) (by omega)
    rw [← hjk] at hl2
    have e : permValues (2 ^ m) (cnt + 1) (t + 1) (bitrev (m + 1) t + 1)
        = some ((if t + 1 < bitrev (m + 1) t + 1
            then [((t + 1 : Nat) : Int) - 1, ((bitrev (m + 1) t + 1 : Nat) : Int) - 1] else [])
          ++ ((2 ^ m : Nat) : Int) :: l1
          ++ ((j1 + k : Nat) : Int) :: ((t + 1 + 1 : Nat) : Int) :: l2) := by
      rw [permValues]
      simp only [hl1, hl2]
    refine ⟨_, e, ?_⟩
    simp only [List.forall_mem_cons, List.forall_mem_append]
    refine ⟨⟨?_, ⟨by omega, by omega⟩, hall1⟩, ⟨by omega, by omega⟩, ⟨by omega, by omega⟩, hall2⟩
    split_ifs
    · simp only [List.forall_mem_cons]
      exact ⟨⟨by omega, by omega⟩, ⟨by omega, by omega⟩, by simp⟩
    · simp

/-- C25: for every call that passes validation (`N` in [1, 16384] with
`NUMBER_IS_2_POW_K(N)`, `LogN` in [2, 14]; either direction flag), the loops
terminate, so the list of all values assigned to `i, j, n, k, io, ie, in, nn`
exists (it includes `i` after the last `i += ie` and `j` after the last
`j = j + k`), and every value in it lies in [0, 32767], hence is unchanged by
conversion to a 16-bit signed integer. -/
theorem index_values_fit_int16 (N LogN Ft_Flag : Int)
    (hN : ¬ (N > 16384 ∨ N < 1)) (hP : NUMBER_IS_2_POW_K N = true)
    (hL : ¬ (LogN < 2 ∨ LogN > 14)) :
    ∃ vs, indexValues N.toNat LogN.toNat Ft_Flag = some vs
      ∧ ∀ v ∈ vs, 0 ≤ v ∧ v ≤ 32767 ∧ wrap16 v = v := by
  obtain ⟨k, hk1, rfl⟩ := NUMBER_IS_2_POW_K_imp N hP
  have hk : k ≤ 14 := pow_two_le_16384 k (by omega)
  obtain ⟨m, rfl⟩ : ∃ m, k = m + 1 := ⟨k - 1, by omega⟩
  have hnat : ((2 : Int) ^ (m + 1)).toNat = 2 ^ (m + 1) := by
    have e : ((2 : Int) ^ (m + 1)) = ((2 ^ (m + 1) : Nat) : Int) := by push_cast; rfl
    rw [e, Int.toNat_natCast]
  have hle : 2 ^ (m + 1) ≤ 2 ^ 14 := Nat.pow_le_pow_right (by norm_num) hk
  have hle2 : 2 ^ (m + 1) ≤ 16384 := by norm_num at hle; exact hle
  have hpw : 2 ^ (m + 1) = 2 * 2 ^ m := by rw [pow_succ]; ring
  have hsh : 2 ^ (m + 1) >>> 1 = 2 ^ m := by
    rw [Nat.shiftRight_eq_div_pow, pow_one]; omega
  have hLn : LogN.toNat ≤ 14 := by omega
  obtain ⟨l1, hl1, hall1⟩ :=
    stageValues_spec (2 ^ (m + 1)) hle2 LogN.toNat 1 (2 ^ (m + 1)) (le_refl _) (by omega)
  obtain ⟨l2, hl2, hall2⟩ := permValues_spec m (2 ^ (m + 1) - 1) 0 (by omega)
  have hb0 : bitrev (m + 1) 0 = 0 := bitrev_zero (m + 1)
  rw [hb0] at hl2
  have key : ∀ v : Int, 0 ≤ v ∧ v ≤ 32767 → 0 ≤ v ∧ v ≤ 32767 ∧ wrap16 v = v := by
    intro v hv
    refine ⟨hv.1, hv.2, ?_⟩
    unfold wrap16
    omega
  have e : indexValues (2 ^ (m + 1)) LogN.toNat Ft_Flag
      = some (((2 ^ (m + 1) >>> 1 : Nat) : Int) :: ((2 ^ (m + 1) : Nat) : Int) :: 1 :: l1
          ++ 1 :: 1 :: l2
          ++ (if Ft_Flag = FT_INVERSE then [] else normValues (2 ^ (m + 1)))) := by
    simp only [indexValues, hsh, hl1, hl2]
  rw [hnat]
  refine ⟨_, e, ?_⟩
  intro v hv
  apply key
  simp only [List.mem_append, List.mem_cons] at hv
  rcases hv with ((rfl | rfl | rfl | hv) | (rfl | rfl | hv)) | hv
  · omega
  · omega
  · omega
  · exact hall1 v hv
  · omega
  · omega
  · have := hall2 v hv
    omega
  · split_ifs at hv
    · simp at hv
    · simp only [normValues, List.mem_map, List.mem_range] at hv
      obtain ⟨a, ha, rfl⟩ := hv
      omega

/-- An accepted call with `N = 4`, `LogN = 2`, forward direction: the values
assigned to the index variables, in order, and their range. -/
theorem index_values_fit_int16_witness :
    ¬ ((4 : Int) > 16384 ∨ (4 : Int) < 1) ∧ NUMBER_IS_2_POW_K 4 = true
      ∧ ¬ ((2 : Int) < 2 ∨ (2 : Int) > 14)
      ∧ (∃ vs, indexValues (4 : Int).toNat (2 : Int).toNat FT_DIRECT = some vs
          ∧ ∀ v ∈ vs, 0 ≤ v ∧ v ≤ 32767 ∧ wrap16 v = v)
      ∧ indexValues 4 2 FT_DIRECT
          = some [2, 4, 1, 2, 0, 0, 2, 4, 1, 1, 3, 5, 2, 2, 2, 1, 0, 0, 1, 2, 3, 4, 1, 1, 3,
              1, 1, 2, 3, 2, 1, 2, 2, 1, 1, 2, 3, 2, 4, 4, 0, 1, 2, 3, 4] :=
  ⟨by decide, by decide, by decide,
    index_values_fit_int16 4 2 FT_DIRECT (by decide) (by decide) (by decide), by decide⟩

/-! ## Subscripts of the buffers and of the tables -/

theorem innerAccesses_done (N ie in_ i : Nat) (h : N ≤ i) :
    ∀ fuel, innerAccesses N ie in_ fuel i = some [] := by
  intro fuel
  have hlt : ¬ i < N := by omega
  cases fuel <;> simp [innerAccesses, hlt]

theorem innerAccesses_spec (N ie h c j : Nat)
    (hN : N = c * ie) (hh : 1 ≤ h) (hj : j + h < ie) :
    ∀ t b fuel, b + t = c → t ≤ fuel →
      ∃ l, innerAccesses N ie h fuel (b * ie + j) = some l
        ∧ ∀ e ∈ l, e.1 < e.2 ∧ e.2 < N := by
  intro t
  induction t with
  | zero =>
    intro b fuel hb _
    have e : b = c := by omega
    subst e
    exact ⟨[], innerAccesses_done _ _ _ _ (by omega) fuel, by simp⟩
  | succ t ih =>
    intro b fuel hb hf
    obtain ⟨f, rfl⟩ : ∃ f, fuel = f + 1 := ⟨fuel - 1, by omega⟩
    have hmul : (b + 1) * ie ≤ c * ie := Nat.mul_le_mul_right ie (by omega)
    have hexp : (b + 1) * ie = b * ie + ie := by ring
    have hlt : b * ie + j < N := by omega
    obtain ⟨l, hl, hall⟩ := ih (b + 1) f (by omega) (by omega)
    have hidx : b * ie + j + ie = (b + 1) * ie + j := by omega
    have e : innerAccesses N ie h (f + 1) (b * ie + j)
        = some ((b * ie + j, b * ie + j + h) :: l) := by
      simp only [innerAccesses, if_pos hlt, hidx, hl]
    refine ⟨_, e, ?_⟩
    simp only [List.forall_mem_cons]
    exact ⟨⟨by show b * ie + j < b * ie + j + h; omega,
      by show b * ie + j + h < N; omega⟩, hall⟩

theorem jAccesses_spec (N ie h c : Nat)
    (hN : N = c * ie) (hh : 1 ≤ h) (hie : 2 * h ≤ ie) :
    ∀ cnt j0, j0 + cnt ≤ h →
      ∃ l, jAccesses N ie h cnt j0 = some l ∧ ∀ e ∈ l, e.1 < e.2 ∧ e.2 < N := by
  intro cnt
  induction cnt with
  | zero =>
    intro j0 _
    exact ⟨[], rfl, by simp⟩
  | succ cnt ih =>
    intro j0 hj
    have hcN : c ≤ N := by
      rw [hN]
      exact Nat.le_mul_of_pos_right c (by omega)
    obtain ⟨l1, hl1, hall1⟩ :=
      innerAccesses_spec N ie h c j0 hN hh (by omega) c 0 N (by omega) hcN
    rw [Nat.zero_mul, Nat.zero_add] at hl1
    obtain ⟨l2, hl2, hall2⟩ := ih (j0 + 1) (by omega)
    have e : jAccesses N ie h (cnt + 1) j0 = some (l1 ++ l2) := by
      simp only [jAccesses, hl1, hl2]
    refine ⟨_, e, ?_⟩
    simp only [List.forall_mem_append]
    exact ⟨hall1, hall2⟩

theorem stageAccesses_spec (m LogN : Nat) (hLog : LogN ≤ 14) :
    ∀ cnt n, 1 ≤ n → n + cnt = LogN + 1 →
      ∃ ts bs, stageAccesses (2 ^ m) LogN cnt n (2 ^ m >>> (n - 1)) = some (ts, bs)
        ∧ ts.length = cnt
        ∧ (∀ t ∈ ts, 0 ≤ t ∧ t ≤ 13)
        ∧ ∀ e ∈ bs, e.1 < e.2 ∧ e.2 < 2 ^ m := by
  intro cnt
  induction cnt with
  | zero =>
    intro n _ _
    exact ⟨[], [], rfl, rfl, by simp, by simp⟩
  | succ cnt ih =>
    intro n hn1 hn
    have hnext : (2 ^ m >>> (n - 1)) >>> 1 = 2 ^ m >>> (n + 1 - 1) := by
      rw [← Nat.shiftRight_add]
      congr 1; omega
    obtain ⟨ts, bs, hs, hlen, hts, hbs⟩ := ih (n + 1) (by omega) (by omega)
    rw [← hnext] at hs
    have hj : ∃ l1, jAccesses (2 ^ m) (2 ^ m >>> (n - 1)) ((2 ^ m >>> (n - 1)) >>> 1)
        ((2 ^ m >>> (n - 1)) >>> 1) 0 = some l1 ∧ ∀ e ∈ l1, e.1 < e.2 ∧ e.2 < 2 ^ m := by
      rcases stage_shape m (n - 1) with h0 | ⟨h, c, hh, hh2, hie2, hc⟩
      · rw [h0]
        exact ⟨[], rfl, by simp⟩
      · rw [hh2]
        exact jAccesses_spec (2 ^ m) (2 ^ m >>> (n - 1)) h c hc hh (by omega) h 0 (by omega)
    obtain ⟨l1, hl1, hall1⟩ := hj
    have e : stageAccesses (2 ^ m) LogN (cnt + 1) n (2 ^ m >>> (n - 1))
        = some (((LogN : Int) - (n : Int)) :: ts, l1 ++ bs) := by
      simp only [stageAccesses, hl1, hs]
    refine ⟨_, _, e, by simp [hlen], ?_, ?_⟩
    · simp only [List.forall_mem_cons]
      exact ⟨⟨by omega, by omega⟩, hts⟩
    · simp only [List.forall_mem_append]
      exact ⟨hall1, hbs⟩

/-- C19: in every call that passes validation (`N = 2 ^ m` with `m` in
[1,14], `LogN` in [2,14], also when `N ≠ 2 ^ LogN`) on buffers of at least `N`
elements each, no buffer access and no table access leaves its array.  The
stage loop, the reordering loop and the normalization all finish (an access
outside a buffer or a table, at a negative subscript too, would make them
`none`) and the call returns true; the same holds on the first `N` elements of
the buffers alone, so every buffer subscript used is below `N`.  Subscript by
subscript: every table subscript `LogN - n`, taken as a signed value, lies in
[0, 13] and reads an entry of both tables; every butterfly has
`0 ≤ i < io < N`; in every iteration of the reordering loop the signed values
`i - 1` and `j - 1` lie in [0, N).  A negative subscript has no outcome in the
table read and in the exchange. -/
theorem FFT_index_safe (cv : Int → Int) (m : Nat) (LogN Ft_Flag : Int) (R I : List Int)
    (hm1 : 1 ≤ m) (hm : m ≤ 14) (hL1 : 2 ≤ LogN) (hL2 : LogN ≤ 14)
    (hF : Ft_Flag = FT_DIRECT ∨ Ft_Flag = FT_INVERSE)
    (hR : 2 ^ m ≤ R.length) (hI : 2 ^ m ≤ I.length) :
    (∃ S P Q, stages cv (2 ^ m) LogN.toNat Ft_Flag (R, I) = some S
        ∧ permute (2 ^ m) S = some P
        ∧ normalize cv (2 ^ m) P = some Q
        ∧ ∃ o, FFT cv (some R) (some I) (2 ^ m) LogN Ft_Flag = some o ∧ o.ret = true)
      ∧ (∃ S P Q, stages cv (2 ^ m) LogN.toNat Ft_Flag (R.take (2 ^ m), I.take (2 ^ m)) = some S
        ∧ permute (2 ^ m) S = some P
        ∧ normalize cv (2 ^ m) P = some Q
        ∧ ∃ o, FFT cv (some (R.take (2 ^ m))) (some (I.take (2 ^ m))) (2 ^ m) LogN Ft_Flag
              = some o ∧ o.ret = true)
      ∧ (∃ ts bs, stageAccesses (2 ^ m) LogN.toNat LogN.toNat 1 (2 ^ m) = some (ts, bs)
        ∧ ts.length = LogN.toNat
        ∧ (∀ t ∈ ts, 0 ≤ t ∧ t ≤ 13
            ∧ ∃ rw iw, tableAt Rcoef t = some rw ∧ tableAt Icoef t = some iw)
        ∧ ∀ e ∈ bs, 0 ≤ (e.1 : Int) ∧ e.1 < e.2 ∧ e.2 < 2 ^ m)
      ∧ (∃ tr, permCounters (2 ^ m >>> 1) (2 ^ m - 1) 1 1 = some tr
        ∧ tr.length = 2 ^ m - 1
        ∧ ∀ e ∈ tr, 0 ≤ (e.1 : Int) - 1 ∧ (e.1 : Int) - 1 < ((2 ^ m : Nat) : Int)
            ∧ 0 ≤ (e.2.1 : Int) - 1 ∧ (e.2.1 : Int) - 1 < ((2 ^ m : Nat) : Int))
      ∧ (∀ (T : List Int) (i : Int), i < 0 → tableAt T i = none)
      ∧ (∀ (io in_ : Int) (s : Bufs), io < 0 ∨ in_ < 0 → swapAt io in_ s = none) := by
  have key : ∀ R I : List Int, 2 ^ m ≤ R.length → 2 ^ m ≤ I.length →
      ∃ S P Q, stages cv (2 ^ m) LogN.toNat Ft_Flag (R, I) = some S
        ∧ permute (2 ^ m) S = some P
        ∧ normalize cv (2 ^ m) P = some Q
        ∧ ∃ o, FFT cv (some R) (some I) (2 ^ m) LogN Ft_Flag = some o ∧ o.ret = true := by
    intro R I hR hI
    obtain ⟨S, hS, s1, s2⟩ := stages_total cv m LogN.toNat Ft_Flag (by omega) (R, I) R.length
      I.length hR hI rfl rfl
    obtain ⟨P, hP, p1, p2, -, -⟩ := permute_spec m R.length I.length hm1 S hR hI s1 s2
    obtain ⟨Q, hQ, -, -, -, -⟩ := normLoop_spec cv (2 ^ m) R.length I.length hR hI (2 ^ m) 0 P
      (by omega) p1 p2
    obtain ⟨-, -, Q1, -, -, -, -, -, -, h⟩ :=
      FFT_run_ge cv m LogN Ft_Flag R I hm1 hm hL1 hL2 hF hR hI
    exact ⟨S, P, Q, hS, hP, hQ, _, h, rfl⟩
  refine ⟨key R I hR hI, key _ _ (by simp [hR]) (by simp [hI]), ?_, ?_, tableAt_neg,
    swapAt_neg⟩
  · obtain ⟨ts, bs, hs, hlen, hts, hbs⟩ :=
      stageAccesses_spec m LogN.toNat (by omega) LogN.toNat 1 (le_refl _) (by omega)
    rw [Nat.sub_self, Nat.shiftRight_zero] at hs
    refine ⟨ts, bs, hs, hlen, ?_, ?_⟩
    · intro t ht
      obtain ⟨t0, t13⟩ := hts t ht
      refine ⟨t0, t13, Rcoef.getD t.toNat 0, Icoef.getD t.toNat 0, ?_, ?_⟩
      · unfold tableAt
        rw [if_neg (by omega)]
        exact Rcoef_get t.toNat (by omega)
      · unfold tableAt
        rw [if_neg (by omega)]
        exact Icoef_get t.toNat (by omega)
    · intro e he
      obtain ⟨a, b⟩ := hbs e he
      exact ⟨by omega, a, b⟩
  · obtain ⟨k, rfl⟩ : ∃ k, m = k + 1 := ⟨m - 1, by omega⟩
    have hnn : 2 ^ (k + 1) >>> 1 = 2 ^ k := by
      rw [Nat.shiftRight_eq_div_pow, pow_succ]; simp
    obtain ⟨tr, htr, hlen, hall⟩ := permCounters_spec k (2 ^ (k + 1) - 1) 0 (by omega)
    rw [bitrev_zero] at htr
    refine ⟨tr, by rw [hnn]; exact htr, hlen, ?_⟩
    intro e he
    obtain ⟨a, b, c, -⟩ := hall e he
    have hb := bitrev_lt (k + 1) (e.1 - 1)
    exact ⟨by omega, by omega, by omega, by omega⟩

/-- The call with `N = 8`, `LogN = 5` on buffers of 9 and 8 elements, with the
subscripts of its stage loop and of its reordering loop written out. -/
theorem FFT_index_safe_witness :
    ((∃ S P Q, stages id (2 ^ 3) (5 : Int).toNat FT_DIRECT
          ([1, 2, 3, 4, 5, 6, 7, 8, 9], [0, 0, 0, 0, 0, 0, 0, 0]) = some S
        ∧ permute (2 ^ 3) S = some P
        ∧ normalize id (2 ^ 3) P = some Q
        ∧ ∃ o, FFT id (some [1, 2, 3, 4, 5, 6, 7, 8, 9]) (some [0, 0, 0, 0, 0, 0, 0, 0]) (2 ^ 3)
              5 FT_DIRECT = some o ∧ o.ret = true)
      ∧ (∃ S P Q, stages id (2 ^ 3) (5 : Int).toNat FT_DIRECT
          ([1, 2, 3, 4, 5, 6, 7, 8, 9].take (2 ^ 3), [0, 0, 0, 0, 0, 0, 0, 0].take (2 ^ 3))
            = some S
        ∧ permute (2 ^ 3) S = some P
        ∧ normalize id (2 ^ 3) P = some Q
        ∧ ∃ o, FFT id (some ([1, 2, 3, 4, 5, 6, 7, 8, 9].take (2 ^ 3)))
              (some ([0, 0, 0, 0, 0, 0, 0, 0].take (2 ^ 3))) (2 ^ 3) 5 FT_DIRECT
              = some o ∧ o.ret = true)
      ∧ (∃ ts bs, stageAccesses (2 ^ 3) (5 : Int).toNat (5 : Int).toNat 1 (2 ^ 3) = some (ts, bs)
        ∧ ts.length = (5 : Int).toNat
        ∧ (∀ t ∈ ts, 0 ≤ t ∧ t ≤ 13
            ∧ ∃ rw iw, tableAt Rcoef t = some rw ∧ tableAt Icoef t = some iw)
        ∧ ∀ e ∈ bs, 0 ≤ (e.1 : Int) ∧ e.1 < e.2 ∧ e.2 < 2 ^ 3)
      ∧ (∃ tr, permCounters (2 ^ 3 >>> 1) (2 ^ 3 - 1) 1 1 = some tr
        ∧ tr.length = 2 ^ 3 - 1
        ∧ ∀ e ∈ tr, 0 ≤ (e.1 : Int) - 1 ∧ (e.1 : Int) - 1 < ((2 ^ 3 : Nat) : Int)
            ∧ 0 ≤ (e.2.1 : Int) - 1 ∧ (e.2.1 : Int) - 1 < ((2 ^ 3 : Nat) : Int))
      ∧ (∀ (T : List Int) (i : Int), i < 0 → tableAt T i = none)
      ∧ (∀ (io in_ : Int) (s : Bufs), io < 0 ∨ in_ < 0 → swapAt io in_ s = none))
    ∧ stageAccesses 8 5 5 1 8
        = some ([4, 3, 2, 1, 0],
            [(0, 4), (1, 5), (2, 6), (3, 7), (0, 2), (4, 6), (1, 3), (5, 7),
              (0, 1), (2, 3), (4, 5), (6, 7)])
    ∧ permCounters 4 7 1 1
        = some [(1, 1, 1, 4), (2, 5, 1, 2), (3, 3, 3, 4), (4, 7, 1, 1), (5, 2, 2, 4),
            (6, 6, 2, 2), (7, 4, 4, 4)]
    ∧ tableAt Rcoef (-1) = none
    ∧ swapAt (-1) 0 ([1, 2], [3, 4]) = none
    ∧ swapAt 0 1 ([1, 2], [3, 4]) = some ([2, 1], [4, 3]) :=
  ⟨FFT_index_safe id 3 5 FT_DIRECT [1, 2, 3, 4, 5, 6, 7, 8, 9] [0, 0, 0, 0, 0, 0, 0, 0]
      (by decide) (by decide) (by decide) (by decide) (Or.inl rfl) (by decide) (by decide),
    by decide, by decide, by decide, by decide, by decide⟩

end FFTModel
